import Mathlib

/-!
# Verification of the sneller bytecode VM and ion codec

A shallow embedding, over `List Nat` byte buffers, of:

* the ion value encoding helpers used by the portable bytecode
  interpreter (`encodeSymbol`, `encodeTLVUnsafe`, `getTLVSize` from
  `vm` and the `ion` readers they rely on);
* the portable opcode implementations `bcfindsymgo`,
  `bccmpvi64immgo`, `bccmplti64immgo`, `bctuplego` and the terminal
  return opcodes;
* the row drivers `evalfiltergo`, `evalprojectgo`, `evaldedupgo`;
* the `ion.Datum` data model (`Datum.Equal`, `Datum.Encode`,
  `resymbolizer.resym`, `ReadDatum`).

Machine integers are modelled as `Nat`/`Int`; bytes are `Nat` values
below 256; buffers are `List Nat`.  Functions of the `ion` package
that are referenced but whose source is not part of this tree are
modelled from the specification and are marked as such.
-/

set_option maxRecDepth 10000
set_option maxHeartbeats 2000000

namespace Sneller

/-! ## Base-128 varuints

Struct field labels and long TLV lengths are big-endian base-128
varuints whose final byte has bit 7 set. -/

/-- Modelled from the spec (§4.1 `read-label`): read a big-endian
base-128 varuint; the final byte is tagged with bit 7.  Returns the
value and the remaining bytes.  `acc` is the running accumulator. -/
def readVaruint : List Nat → Nat → Option (Nat × List Nat)
  | [], _ => none
  | b :: rest, acc =>
    if 128 ≤ b then some (acc * 128 + (b - 128), rest)
    else readVaruint rest (acc * 128 + b)

/-- Modelled from the spec (§4.1): `ion.ReadLabel` reads the varuint
label of a struct field and returns it with the rest of the buffer. -/
def ReadLabel (buf : List Nat) : Option (Nat × List Nat) :=
  readVaruint buf 0

/-- Embeds `encodeSymbol` (vm): emit a symbol id as a big-endian
base-128 varuint, final byte tagged with bit 7.  Shifts and masks of
the source are written as division/remainder (`x >> 7` is `x / 128`,
`(x & 0xFF) | 0x80` is `x % 128 + 128` on the final byte since the
encoded groups are 7 bits wide).  The source panics for ids ≥ 2^28;
the model returns `[]` there. -/
def encodeSymbol (s : Nat) : List Nat :=
  if s < 128 then [s % 128 + 128]
  else if s < 16384 then [s / 128 % 128, s % 128 + 128]
  else if s < 2097152 then [s / 16384 % 128, s / 128 % 128, s % 128 + 128]
  else if s < 268435456 then
    [s / 2097152 % 128, s / 16384 % 128, s / 128 % 128, s % 128 + 128]
  else []

theorem readVaruint_encodeSymbol (s : Nat) (hs : s < 268435456) (r : List Nat) :
    readVaruint (encodeSymbol s ++ r) 0 = some (s, r) := by
  unfold encodeSymbol
  by_cases h1 : s < 128
  · simp only [if_pos h1, List.cons_append, List.nil_append, readVaruint]
    have : 128 ≤ s % 128 + 128 := by omega
    rw [if_pos this]
    have : s % 128 = s := Nat.mod_eq_of_lt h1
    simp [this]
  · by_cases h2 : s < 16384
    · simp only [if_neg h1, if_pos h2, List.cons_append, List.nil_append, readVaruint]
      have hlt : s / 128 % 128 < 128 := Nat.mod_lt _ (by norm_num)
      rw [if_neg (by omega), if_pos (by omega)]
      have h128 : s / 128 % 128 = s / 128 := by
        apply Nat.mod_eq_of_lt
        omega
      have := Nat.div_add_mod s 128
      simp only [Option.some.injEq, Prod.mk.injEq]
      refine ⟨by omega, trivial⟩
    · by_cases h3 : s < 2097152
      · simp only [if_neg h1, if_neg h2, if_pos h3, List.cons_append, List.nil_append,
          readVaruint]
        rw [if_neg (by have := Nat.mod_lt (s / 16384) (show 0 < 128 by norm_num); omega),
          if_neg (by have := Nat.mod_lt (s / 128) (show 0 < 128 by norm_num); omega),
          if_pos (by omega)]
        have ha : s / 16384 % 128 = s / 16384 := by
          apply Nat.mod_eq_of_lt; omega
        have hb : s / 16384 * 128 + s / 128 % 128 = s / 128 := by
          have h1 : s / 16384 = s / 128 / 128 := by
            rw [Nat.div_div_eq_div_mul]
          rw [h1]
          have := Nat.div_add_mod (s / 128) 128
          omega
        have := Nat.div_add_mod s 128
        simp only [Option.some.injEq, Prod.mk.injEq]
        refine ⟨by rw [ha]; omega, trivial⟩
      · by_cases h4 : s < 268435456
        · simp only [if_neg h1, if_neg h2, if_neg h3, if_pos h4, List.cons_append,
            List.nil_append, readVaruint]
          rw [if_neg (by have := Nat.mod_lt (s / 2097152) (show 0 < 128 by norm_num); omega),
            if_neg (by have := Nat.mod_lt (s / 16384) (show 0 < 128 by norm_num); omega),
            if_neg (by have := Nat.mod_lt (s / 128) (show 0 < 128 by norm_num); omega),
            if_pos (by omega)]
          have ha : s / 2097152 % 128 = s / 2097152 := by
            apply Nat.mod_eq_of_lt; omega
          have hab : s / 2097152 * 128 + s / 16384 % 128 = s / 16384 := by
            have h1 : s / 2097152 = s / 16384 / 128 := by
              rw [Nat.div_div_eq_div_mul]
            rw [h1]
            have := Nat.div_add_mod (s / 16384) 128
            omega
          have hbc : s / 16384 * 128 + s / 128 % 128 = s / 128 := by
            have h1 : s / 16384 = s / 128 / 128 := by
              rw [Nat.div_div_eq_div_mul]
            rw [h1]
            have := Nat.div_add_mod (s / 128) 128
            omega
          have := Nat.div_add_mod s 128
          simp only [Option.some.injEq, Prod.mk.injEq]
          refine ⟨by rw [ha]; omega, trivial⟩
        · omega

theorem encodeSymbol_ne_nil (s : Nat) (hs : s < 268435456) : encodeSymbol s ≠ [] := by
  unfold encodeSymbol
  split_ifs <;> simp_all

theorem encodeSymbol_length (s : Nat) (hs : s < 268435456) :
    (encodeSymbol s).length =
      if s < 128 then 1 else if s < 16384 then 2 else if s < 2097152 then 3 else 4 := by
  unfold encodeSymbol
  split_ifs <;> simp_all

/-! ## TLV headers

The first byte of an encoded value packs a 4-bit type code (high
nibble) and a 4-bit length code (low nibble). -/

/-- High nibble of a TLV byte: the ion type code.  Modelled from the
spec (§3, §4.1 type-of). -/
def typeNib (b : Nat) : Nat := b / 16 % 16

/-- Low nibble of a TLV byte: the length code.  Modelled from the spec
(§3). -/
def lenNib (b : Nat) : Nat := b % 16

/-- The ion type codes, in the order of the `_datumTable` of the
source. -/
def NullType : Nat := 0
def BoolType : Nat := 1
def UintType : Nat := 2
def IntType : Nat := 3
def FloatType : Nat := 4
def DecimalType : Nat := 5
def TimestampType : Nat := 6
def SymbolType : Nat := 7
def StringType : Nat := 8
def ClobType : Nat := 9
def BlobType : Nat := 10
def ListType : Nat := 11
def SexpType : Nat := 12
def StructType : Nat := 13
def AnnotType : Nat := 14
def ReservedType : Nat := 15

/-- Modelled from the spec (§3, §4.1 size-of): total span of a value.
Length codes 0–13 give the body length directly; 14 means the length
follows as a varuint; 15 is a typed null with no body; bool carries
its value in the length code and has no body.  A malformed varuint
yields 0 (a framing error in the source). -/
def sizeOf : List Nat → Nat
  | [] => 0
  | b :: rest =>
    if typeNib b = BoolType then 1
    else if lenNib b = 15 then 1
    else if lenNib b < 14 then 1 + lenNib b
    else
      match readVaruint rest 0 with
      | some (n, r) => 1 + (rest.length - r.length) + n
      | none => 0

/-- Modelled from the spec (§4.1 header-size-of): 1 plus the varuint
length when the length code is 14. -/
def headerSizeOf : List Nat → Nat
  | [] => 0
  | b :: rest =>
    if typeNib b ≠ BoolType ∧ lenNib b = 14 then
      match readVaruint rest 0 with
      | some (_, r) => 1 + (rest.length - r.length)
      | none => 1
    else 1

/-- Modelled from the spec (§4.1 contents): the body span of a value. -/
def contents (buf : List Nat) : List Nat :=
  (buf.drop (headerSizeOf buf)).take (sizeOf buf - headerSizeOf buf)

/-- Embeds `getTLVSize` (vm): the header size needed for a given
content length. -/
def getTLVSize (length : Nat) : Nat :=
  if length < 14 then 1
  else if length < 128 then 2
  else if length < 16384 then 3
  else if length < 2097152 then 4
  else if length < 268435456 then 5
  else 6

/-- Embeds `encodeTLVUnsafe` (vm): emit a TLV header with the given
type tag and content length.  For lengths ≥ 14 the source emits the
length as a base-128 varuint with the same inline byte arithmetic as
`encodeSymbol`, so the tail is byte-for-byte `encodeSymbol length`.
The source panics for lengths ≥ 2^28; the model returns `[]` there. -/
def encodeTLVUnsafe (valueType : Nat) (length : Nat) : List Nat :=
  let tag := valueType % 16 * 16
  if length < 14 then [tag + length]
  else if length < 268435456 then (tag + 14) :: encodeSymbol length
  else []

theorem encodeTLVUnsafe_length (t len : Nat) (h : len < 268435456) :
    (encodeTLVUnsafe t len).length = getTLVSize len := by
  unfold encodeTLVUnsafe getTLVSize
  have := encodeSymbol_length len h
  split_ifs at this ⊢ <;> simp_all

theorem typeNib_tag_add (t len : Nat) (hl : len < 16) : typeNib (t % 16 * 16 + len) = t % 16 := by
  unfold typeNib
  have h1 : t % 16 < 16 := Nat.mod_lt _ (by norm_num)
  have : (t % 16 * 16 + len) / 16 = t % 16 := by omega
  rw [this]
  omega

theorem lenNib_tag_add (t len : Nat) (hl : len < 16) : lenNib (t % 16 * 16 + len) = len := by
  unfold lenNib
  omega

theorem sizeOf_cons (b : Nat) (rest : List Nat) :
    sizeOf (b :: rest) =
      if typeNib b = BoolType then 1
      else if lenNib b = 15 then 1
      else if lenNib b < 14 then 1 + lenNib b
      else
        match readVaruint rest 0 with
        | some (n, r) => 1 + (rest.length - r.length) + n
        | none => 0 := rfl

theorem headerSizeOf_cons (b : Nat) (rest : List Nat) :
    headerSizeOf (b :: rest) =
      if typeNib b ≠ BoolType ∧ lenNib b = 14 then
        match readVaruint rest 0 with
        | some (_, r) => 1 + (rest.length - r.length)
        | none => 1
      else 1 := rfl

theorem sizeOf_encodeTLVUnsafe (t len : Nat) (ht : t % 16 ≠ BoolType) (h : len < 268435456)
    (r : List Nat) :
    sizeOf (encodeTLVUnsafe t len ++ r) = getTLVSize len + len := by
  unfold encodeTLVUnsafe
  by_cases h14 : len < 14
  · rw [if_pos h14]
    show sizeOf ((t % 16 * 16 + len) :: r) = _
    rw [sizeOf_cons]
    rw [typeNib_tag_add t len (by omega), lenNib_tag_add t len (by omega)]
    rw [if_neg ht, if_neg (by omega), if_pos h14]
    unfold getTLVSize
    rw [if_pos h14]
  · rw [if_neg h14, if_pos h]
    show sizeOf ((t % 16 * 16 + 14) :: (encodeSymbol len ++ r)) = _
    rw [sizeOf_cons]
    rw [typeNib_tag_add t 14 (by omega), lenNib_tag_add t 14 (by omega)]
    rw [if_neg ht, if_neg (by omega), if_neg (by omega)]
    rw [readVaruint_encodeSymbol len h r]
    simp only [List.length_append, Nat.add_sub_cancel]
    have h1 := encodeSymbol_length len h
    unfold getTLVSize
    split_ifs at h1 ⊢ <;> omega

theorem headerSizeOf_encodeTLVUnsafe (t len : Nat) (ht : t % 16 ≠ BoolType) (h : len < 268435456)
    (r : List Nat) :
    headerSizeOf (encodeTLVUnsafe t len ++ r) = getTLVSize len := by
  unfold encodeTLVUnsafe
  by_cases h14 : len < 14
  · rw [if_pos h14]
    show headerSizeOf ((t % 16 * 16 + len) :: r) = _
    rw [headerSizeOf_cons]
    rw [lenNib_tag_add t len (by omega)]
    rw [if_neg (by omega)]
    unfold getTLVSize
    rw [if_pos h14]
  · rw [if_neg h14, if_pos h]
    show headerSizeOf ((t % 16 * 16 + 14) :: (encodeSymbol len ++ r)) = _
    rw [headerSizeOf_cons]
    rw [typeNib_tag_add t 14 (by omega), lenNib_tag_add t 14 (by omega)]
    rw [if_pos ⟨ht, rfl⟩]
    rw [readVaruint_encodeSymbol len h r]
    show 1 + ((encodeSymbol len ++ r).length - r.length) = getTLVSize len
    simp only [List.length_append, Nat.add_sub_cancel]
    have h1 := encodeSymbol_length len h
    unfold getTLVSize
    split_ifs at h1 ⊢ <;> omega

theorem contents_encodeTLVUnsafe (t len : Nat) (ht : t % 16 ≠ BoolType) (h : len < 268435456)
    (body r : List Nat) (hb : body.length = len) :
    contents (encodeTLVUnsafe t len ++ (body ++ r)) = body := by
  unfold contents
  rw [headerSizeOf_encodeTLVUnsafe t len ht h (body ++ r),
    sizeOf_encodeTLVUnsafe t len ht h (body ++ r),
    List.drop_left' (encodeTLVUnsafe_length t len h),
    Nat.add_sub_cancel_left]
  exact List.take_left' hb

/-! ## Numeric readers -/

/-- Big-endian magnitude bytes as a natural number. -/
def beBytesToNat (l : List Nat) : Nat := l.foldl (fun a b => a * 256 + b) 0

/-- Modelled from the spec (§4.1 read-uint; §3: integers are
big-endian magnitude). -/
def ReadUint (buf : List Nat) : Nat := beBytesToNat (contents buf)

/-- Modelled from the spec (§4.1 read-int; §3: the sign lives in the
type code, positive vs negative). -/
def ReadInt (buf : List Nat) : Int :=
  if typeNib (buf.headD 0) = IntType then -(ReadUint buf : Int) else (ReadUint buf : Int)

/-- IEEE-754 binary64 values as the comparison opcodes need them:
NaN, a signed infinity, or an exact finite value (a dyadic rational). -/
inductive F64 where
  | nan : F64
  | inf : Bool → F64
  | finite : ℚ → F64
deriving DecidableEq

/-- IEEE `<` on the F64 model; NaN compares false with everything. -/
def F64.lt : F64 → F64 → Bool
  | .nan, _ => false
  | _, .nan => false
  | .inf true, .inf true => false
  | .inf true, _ => true
  | .inf false, _ => false
  | .finite _, .inf false => true
  | .finite _, .inf true => false
  | .finite a, .finite b => decide (a < b)

/-- Decode a 64-bit IEEE-754 binary64 bit pattern: sign bit,
11 exponent bits, 52 fraction bits. -/
def decodeF64Bits (bits : Nat) : F64 :=
  let sign := bits / 9223372036854775808 % 2
  let ex := bits / 4503599627370496 % 2048
  let frac := bits % 4503599627370496
  if ex = 2047 then (if frac = 0 then .inf (sign = 1) else .nan)
  else
    let m : ℚ := if ex = 0 then (frac : ℚ) else ((4503599627370496 + frac : Nat) : ℚ)
    let v : ℚ := m * (2 : ℚ) ^ ((max ex 1 : ℤ) - 1075)
    .finite (if sign = 1 then -v else v)

/-- Modelled from the spec (§4.1 read-float): decode the 8-byte
big-endian binary64 body of a float value.  An empty body is 0.0; any
other (erroneous) body size also yields 0 since the portable opcodes
discard the error. -/
def ReadFloat64 (buf : List Nat) : F64 :=
  let body := contents buf
  if body.length = 8 then decodeF64Bits (beBytesToNat body) else .finite 0

/-- Round a magnitude to 53 significant bits, ties to even: the
magnitude part of the Go conversion `float64(imm)` of an `int64`. -/
def roundSig53 (m : Nat) : Nat :=
  if m < 9007199254740992 then m
  else
    let k := Nat.log2 m - 52
    let q := m / 2 ^ k
    let r := m % 2 ^ k
    let half := 2 ^ (k - 1)
    (if half < r ∨ (r = half ∧ q % 2 = 1) then q + 1 else q) * 2 ^ k

/-- The Go conversion `float64(x)` of an `int64` operand: round to
nearest, ties to even.  |x| ≤ 2^63 keeps the result finite. -/
def i64ToF64 (z : Int) : F64 :=
  .finite ((Int.sign z * (roundSig53 z.natAbs : Int) : Int) : ℚ)

/-! ## Registers and lanes -/

/-- Modelled from the spec (§3 VM state): the lane count `N` is fixed
at build time; the register layouts of this repository use 16 lanes. -/
def bcLaneCount : Nat := 16

/-- A `vmref`: an `{offset, size}` pair referring into the VM's
memory. -/
structure Vmref where
  offset : Nat
  size : Nat
deriving DecidableEq, Inhabited

/-- The bytes referenced by a `vmref` inside memory `m`
(`vmref.mem()` in the source). -/
def Vmref.mem (m : List Nat) (v : Vmref) : List Nat :=
  (m.drop v.offset).take v.size

/-- One lane of a `vRegData` value register: offset, length, TLV type
byte and header length of a referenced value. -/
structure VRegLane where
  offset : Nat
  size : Nat
  typeL : Nat
  headerSize : Nat
deriving DecidableEq, Inhabited

/-- Number of set bits in a lane mask (`bits.OnesCount16`). -/
def popcount (k : Fin bcLaneCount → Bool) : Nat :=
  (List.finRange bcLaneCount).countP k

/-! ## Portable comparison opcodes -/

/-- Embeds the per-lane body of `bccmpvi64immgo` (vm): dispatch on the
ion type nibble of the lane's TLV byte; floats compare against
`float64(imm)`, ints and uints compare as 64-bit values.  Returns the
lane result and whether the lane was comparable. -/
def cmpvLane (mem : List Nat) (imm : Int) (v : VRegLane) : Int × Bool :=
  if v.size = 0 then (0, false)
  else
    let bytes := Vmref.mem mem ⟨v.offset, v.size⟩
    if typeNib v.typeL = FloatType then
      let f := ReadFloat64 bytes
      let c := i64ToF64 imm
      ((if F64.lt f c then -1 else if F64.lt c f then 1 else 0), true)
    else if typeNib v.typeL = IntType then
      let j := ReadInt bytes
      ((if j < imm then -1 else if imm < j then 1 else 0), true)
    else if typeNib v.typeL = UintType then
      let u := ReadUint bytes
      ((if imm < 0 ∨ u < imm.toNat then -1 else if imm.toNat < u then 1 else 0), true)
    else (0, false)

/-- Embeds `bccmpvi64immgo` (vm): per lane, a masked-out lane yields
value 0 and no comparable bit; otherwise the lane body runs.  Returns
the `i64RegData` lane values and the output (comparable) mask. -/
def bccmpvi64immgo (mem : List Nat) (imm : Int) (src : Fin bcLaneCount → VRegLane)
    (mask : Fin bcLaneCount → Bool) : (Fin bcLaneCount → Int) × (Fin bcLaneCount → Bool) :=
  (fun i => if mask i then (cmpvLane mem imm (src i)).1 else 0,
   fun i => mask i && (cmpvLane mem imm (src i)).2)

/-- Embeds `bccmplti64immgo` (vm): unconditionally compare every lane
value against the immediate, then AND the result mask with the input
mask. -/
def bccmplti64immgo (imm : Int) (arg0 : Fin bcLaneCount → Int)
    (srck : Fin bcLaneCount → Bool) : Fin bcLaneCount → Bool :=
  fun i => decide (arg0 i < imm) && srck i

/-- Embeds `bctuplego` (vm): for every lane that is active, refers to
a struct and has a non-zero size, produce the struct's body span
(offset += header length, size -= header length) and set the output
mask bit; other lanes get a zero `bRegData` lane and a clear bit. -/
def bctuplego (src : Fin bcLaneCount → VRegLane) (srck : Fin bcLaneCount → Bool) :
    (Fin bcLaneCount → Vmref) × (Fin bcLaneCount → Bool) :=
  (fun i =>
    if ¬srck i ∨ typeNib (src i).typeL ≠ StructType ∨ (src i).size = 0 then ⟨0, 0⟩
    else ⟨(src i).offset + (src i).headerSize, (src i).size - (src i).headerSize⟩,
   fun i => srck i && decide (typeNib (src i).typeL = StructType) && decide ((src i).size ≠ 0))

/-! ## Terminal return opcodes and the VM state -/

/-- Modelled from the spec (§3 VM context): the output slots the
terminal opcodes write: delimiters, valid/output lane masks, and the
string register. -/
structure VmState where
  delims : Fin bcLaneCount → Vmref
  validLanes : Fin bcLaneCount → Bool
  outputLanes : Fin bcLaneCount → Bool
  sreg : Fin bcLaneCount → Vmref

/-- The parts of a `bytecode` the return opcodes touch. -/
structure Bytecode where
  vmState : VmState
  auxpos : Nat
  err : Nat

/-- Embeds `bcretgo` (vm): clear the error, output mask := valid
lanes, advance auxpos by the popcount of the output mask. -/
def bcretgo (bc : Bytecode) : Bytecode :=
  { bc with
    err := 0
    vmState := { bc.vmState with outputLanes := bc.vmState.validLanes }
    auxpos := bc.auxpos + popcount bc.vmState.validLanes }

/-- Embeds `bcretkgo` (vm): output mask := k, advance auxpos by the
popcount of the VALID-lanes mask. -/
def bcretkgo (k : Fin bcLaneCount → Bool) (bc : Bytecode) : Bytecode :=
  { bc with
    vmState := { bc.vmState with outputLanes := k }
    auxpos := bc.auxpos + popcount bc.vmState.validLanes }

/-- Embeds `bcretbkgo` (vm): delims := b, output mask := k, advance
auxpos by the popcount of the valid-lanes mask. -/
def bcretbkgo (b : Fin bcLaneCount → Vmref) (k : Fin bcLaneCount → Bool) (bc : Bytecode) :
    Bytecode :=
  { bc with
    vmState := { bc.vmState with delims := b, outputLanes := k }
    auxpos := bc.auxpos + popcount bc.vmState.validLanes }

/-- Embeds `bcretbhkgo` (vm): identical to `bcretbkgo` (the hash slot
in the instruction is not copied into the VM state by the source). -/
def bcretbhkgo (b : Fin bcLaneCount → Vmref) (k : Fin bcLaneCount → Bool) (bc : Bytecode) :
    Bytecode :=
  { bc with
    vmState := { bc.vmState with delims := b, outputLanes := k }
    auxpos := bc.auxpos + popcount bc.vmState.validLanes }

/-- Embeds `bcretskgo` (vm): sreg := s, output mask := k, advance
auxpos by the popcount of the valid-lanes mask. -/
def bcretskgo (s : Fin bcLaneCount → Vmref) (k : Fin bcLaneCount → Bool) (bc : Bytecode) :
    Bytecode :=
  { bc with
    vmState := { bc.vmState with sreg := s, outputLanes := k }
    auxpos := bc.auxpos + popcount bc.vmState.validLanes }

/-- C7 counterexample: `ret.k` with two valid lanes but an output
mask selecting a single lane advances `auxpos` by 2, the popcount of
the valid-lanes mask, not by 1, the popcount of the output-lanes mask
it establishes. -/
theorem claim_C7_counterexample :
    (bcretkgo (fun i => decide (i.val = 0))
        ⟨⟨fun _ => ⟨0, 0⟩, fun i => decide (i.val < 2), fun _ => false, fun _ => ⟨0, 0⟩⟩,
          0, 0⟩).auxpos ≠
      popcount ((bcretkgo (fun i => decide (i.val = 0))
        ⟨⟨fun _ => ⟨0, 0⟩, fun i => decide (i.val < 2), fun _ => false, fun _ => ⟨0, 0⟩⟩,
          0, 0⟩).vmState.outputLanes) := by decide

/-- C7 (amended): every terminal return opcode writes the output mask
(and, where applicable, the base/string register) into the VM's
output slots and advances `auxpos` by the number of set bits in the
VALID-lanes mask; only for plain `ret` does that number coincide with
the popcount of the output-lanes mask it establishes. -/
theorem claim_C7 (bc : Bytecode) (k : Fin bcLaneCount → Bool)
    (b s : Fin bcLaneCount → Vmref) :
    ((bcretgo bc).vmState.outputLanes = bc.vmState.validLanes ∧
      (bcretgo bc).auxpos = bc.auxpos + popcount (bcretgo bc).vmState.outputLanes) ∧
    ((bcretkgo k bc).vmState.outputLanes = k ∧
      (bcretkgo k bc).auxpos = bc.auxpos + popcount bc.vmState.validLanes) ∧
    ((bcretbkgo b k bc).vmState.outputLanes = k ∧
      (bcretbkgo b k bc).vmState.delims = b ∧
      (bcretbkgo b k bc).auxpos = bc.auxpos + popcount bc.vmState.validLanes) ∧
    ((bcretbhkgo b k bc).vmState.outputLanes = k ∧
      (bcretbhkgo b k bc).vmState.delims = b ∧
      (bcretbhkgo b k bc).auxpos = bc.auxpos + popcount bc.vmState.validLanes) ∧
    ((bcretskgo s k bc).vmState.outputLanes = k ∧
      (bcretskgo s k bc).vmState.sreg = s ∧
      (bcretskgo s k bc).auxpos = bc.auxpos + popcount bc.vmState.validLanes) := by
  refine ⟨⟨rfl, rfl⟩, ⟨rfl, rfl⟩, ⟨rfl, rfl, rfl⟩, ⟨rfl, rfl, rfl⟩, ⟨rfl, rfl, rfl⟩⟩

/-- C8: the portable implementations of `cmpv.i64@imm`,
`cmplt.i64@imm` and `tuple` never set an output mask bit for a lane
whose input mask bit is clear (`output_mask ⊆ input_mask`, expressed
as a boolean identity). -/
theorem claim_C8 (mem : List Nat) (imm : Int) (src : Fin bcLaneCount → VRegLane)
    (arg0 : Fin bcLaneCount → Int) (srck : Fin bcLaneCount → Bool) (i : Fin bcLaneCount) :
    ((bccmpvi64immgo mem imm src srck).2 i && srck i) = (bccmpvi64immgo mem imm src srck).2 i ∧
    (bccmplti64immgo imm arg0 srck i && srck i) = bccmplti64immgo imm arg0 srck i ∧
    ((bctuplego src srck).2 i && srck i) = (bctuplego src srck).2 i := by
  unfold bccmpvi64immgo bccmplti64immgo bctuplego
  refine ⟨?_, ?_, ?_⟩ <;> cases h : srck i <;> simp [h]

/-- C2: evaluation of `bccmpvi64immgo` at the failing input.  Lane 0
holds the positive-int (uint) value 3 (bytes `0x21 0x03`) and the
immediate is −1: the portable code sets the comparable bit and yields
lane result −1, although sign(3 − (−1)) = +1. -/
theorem claim_C2 :
    (bccmpvi64immgo [33, 3] (-1) (fun _ => ⟨0, 2, 33, 1⟩) (fun _ => true)).1
        ⟨0, by unfold bcLaneCount; norm_num⟩ = -1 ∧
    (bccmpvi64immgo [33, 3] (-1) (fun _ => ⟨0, 2, 33, 1⟩) (fun _ => true)).2
        ⟨0, by unfold bcLaneCount; norm_num⟩ = true ∧
    ReadUint [33, 3] = 3 ∧ Int.sign ((3 : Int) - (-1)) = 1 := by
  refine ⟨?_, rfl, rfl, rfl⟩
  show (if (true : Bool) then (cmpvLane [33, 3] (-1) ⟨0, 2, 33, 1⟩).1 else 0) = -1
  norm_num [cmpvLane, typeNib, FloatType, IntType, UintType, ReadUint, Vmref.mem,
    contents, headerSizeOf, sizeOf, lenNib, beBytesToNat, BoolType]

/-! ## Field lookup: `bcfindsymgo` -/

theorem readVaruint_length_lt (buf : List Nat) (acc v : Nat) (r : List Nat)
    (h : readVaruint buf acc = some (v, r)) : r.length < buf.length := by
  induction buf generalizing acc with
  | nil => simp [readVaruint] at h
  | cons b rest ih =>
    rw [readVaruint] at h
    split_ifs at h with hb
    · simp only [Option.some.injEq, Prod.mk.injEq] at h
      rw [← h.2]
      simp
    · have := ih _ h
      simp only [List.length_cons]
      omega

theorem ReadLabel_length_lt (buf : List Nat) (sym : Nat) (r : List Nat)
    (h : ReadLabel buf = some (sym, r)) : r.length < buf.length :=
  readVaruint_length_lt buf 0 sym r h

/-- Embeds the `symsearch` loop of `bcfindsymgo` (vm) for one lane:
walk the struct body, reading a varuint label and then the value span;
stop when the label exceeds the target (`sym > symbol`), record the
value's offset/size/TLV-byte/header-size, and stop with a hit when the
label equals the target.  `none` models `bcerrCorrupt`. -/
def findsymLoop (symbol start width : Nat) : List Nat → VRegLane → Option (VRegLane × Bool)
  | [], cur => some (cur, false)
  | b :: tl, cur =>
    match h : ReadLabel (b :: tl) with
    | none => none
    | some (sym, rest) =>
      if symbol < sym then some (cur, false)
      else
        let cur' : VRegLane :=
          ⟨start + width - rest.length, sizeOf rest, rest.headD 0, headerSizeOf rest⟩
        if sym = symbol then some (cur', true)
        else findsymLoop symbol start width (rest.drop (sizeOf rest)) cur'
termination_by mem _ => mem.length
decreasing_by
  have h1 := ReadLabel_length_lt _ _ _ h
  have h2 : (rest.drop (sizeOf rest)).length ≤ rest.length := by
    simp [List.length_drop]
  simp only [List.length_cons] at h1 ⊢
  omega

/-- Embeds the per-lane behaviour of `bcfindsymgo` (vm): the lane's
`ValueReg` is initialised to `{offset := srcb.offset, size 0, type 0,
header 0}`; an inactive lane keeps it with a clear mask bit; an active
lane runs the search loop over the `BaseReg` span. -/
def findsymLane (mem : List Nat) (symbol : Nat) (srcb : Vmref) (active : Bool) :
    Option (VRegLane × Bool) :=
  let init : VRegLane := ⟨srcb.offset, 0, 0, 0⟩
  if active then findsymLoop symbol srcb.offset srcb.size (Vmref.mem mem srcb) init
  else some (init, false)

/-- Embeds `bcfindsymgo` (vm) over all lanes: each lane is searched
independently; the opcode errors (`bcerrCorrupt`) when any active lane
errors. -/
def bcfindsymgo (mem : List Nat) (symbol : Nat) (srcb : Fin bcLaneCount → Vmref)
    (srck : Fin bcLaneCount → Bool) :
    (Fin bcLaneCount → Option (VRegLane × Bool)) :=
  fun i => findsymLane mem symbol (srcb i) (srck i)

/-- Serialization of a struct body: a sequence of
`(varuint symbol-id, value)` pairs (spec §3). -/
def serializeFields : List (Nat × List Nat) → List Nat
  | [] => []
  | (sym, val) :: fs => encodeSymbol sym ++ (val ++ serializeFields fs)

/-- A well-formed encoded value: non-empty and self-delimiting (its
size and header size are computed from its own header, regardless of
what follows it in the buffer). -/
structure WFValue (val : List Nat) : Prop where
  ne : val ≠ []
  size_eq : ∀ r, sizeOf (val ++ r) = val.length
  hdr_eq : ∀ r, headerSizeOf (val ++ r) = headerSizeOf val

theorem wfValue_encodeTLV (t len : Nat) (body : List Nat) (ht : t % 16 ≠ BoolType)
    (h : len < 268435456) (hb : body.length = len) :
    WFValue (encodeTLVUnsafe t len ++ body) := by
  constructor
  · intro hc
    have h1 := encodeTLVUnsafe_length t len h
    have : (encodeTLVUnsafe t len ++ body).length = 0 := by rw [hc]; rfl
    simp only [List.length_append] at this
    unfold getTLVSize at h1
    split_ifs at h1 <;> omega
  · intro r
    rw [List.append_assoc, sizeOf_encodeTLVUnsafe t len ht h (body ++ r)]
    simp only [List.length_append, encodeTLVUnsafe_length t len h, hb]
  · intro r
    rw [List.append_assoc, headerSizeOf_encodeTLVUnsafe t len ht h (body ++ r),
      headerSizeOf_encodeTLVUnsafe t len ht h body]

/-- The expected per-field lane registers: for each field, the
absolute offset of its value inside the buffer, the value's length,
its TLV byte and its header length (spec §8 scenario 2). -/
def fieldRegs (pos : Nat) : List (Nat × List Nat) → List (Nat × VRegLane)
  | [] => []
  | (sym, val) :: fs =>
    (sym, ⟨pos + (encodeSymbol sym).length, val.length, val.headD 0, headerSizeOf val⟩) ::
      fieldRegs (pos + (encodeSymbol sym).length + val.length) fs

/-- Reference recursion mirroring the search loop at the level of
field lists rather than bytes. -/
def findsymExpected (symbol pos : Nat) : List (Nat × List Nat) → VRegLane → VRegLane × Bool
  | [], cur => (cur, false)
  | (sym, val) :: fs, cur =>
    if symbol < sym then (cur, false)
    else
      let cur' : VRegLane :=
        ⟨pos + (encodeSymbol sym).length, val.length, val.headD 0, headerSizeOf val⟩
      if sym = symbol then (cur', true)
      else findsymExpected symbol (pos + (encodeSymbol sym).length + val.length) fs cur'

theorem headD_append (val r : List Nat) (d : Nat) (h : val ≠ []) :
    (val ++ r).headD d = val.headD d := by
  cases val with
  | nil => exact absurd rfl h
  | cons a l => rfl

theorem findsymLoop_serialize (symbol start width : Nat) (fields : List (Nat × List Nat))
    (pos : Nat) (cur : VRegLane)
    (hpos : pos + (serializeFields fields).length = start + width)
    (hrange : ∀ f ∈ fields, f.1 < 268435456)
    (hwf : ∀ f ∈ fields, WFValue f.2) :
    findsymLoop symbol start width (serializeFields fields) cur =
      some (findsymExpected symbol pos fields cur) := by
  induction fields generalizing pos cur with
  | nil => simp [serializeFields, findsymLoop, findsymExpected]
  | cons f fs ih =>
    obtain ⟨sym, val⟩ := f
    have hr : sym < 268435456 := hrange _ (List.mem_cons_self _ _)
    have hv : WFValue val := hwf _ (List.mem_cons_self _ _)
    have hser : serializeFields ((sym, val) :: fs) = encodeSymbol sym ++ (val ++ serializeFields fs) := rfl
    rw [hser]
    have hne := encodeSymbol_ne_nil sym hr
    obtain ⟨b, tl, henc⟩ : ∃ b tl, encodeSymbol sym = b :: tl := by
      cases hh : encodeSymbol sym with
      | nil => exact absurd hh hne
      | cons b tl => exact ⟨b, tl, rfl⟩
    have hlabel : ReadLabel (encodeSymbol sym ++ (val ++ serializeFields fs)) =
        some (sym, val ++ serializeFields fs) :=
      readVaruint_encodeSymbol sym hr _
    rw [henc, List.cons_append]
    rw [findsymLoop]
    rw [← List.cons_append, ← henc, hlabel]
    simp only
    by_cases hgt : symbol < sym
    · rw [if_pos hgt, findsymExpected, if_pos hgt]
    · rw [if_neg hgt, findsymExpected, if_neg hgt]
      have hsz : sizeOf (val ++ serializeFields fs) = val.length := hv.size_eq _
      have hhd : headerSizeOf (val ++ serializeFields fs) = headerSizeOf val := hv.hdr_eq _
      have hhead : (val ++ serializeFields fs).headD 0 = val.headD 0 :=
        headD_append _ _ _ hv.ne
      have hoff : start + width - (val ++ serializeFields fs).length =
          pos + (encodeSymbol sym).length := by
        rw [hser] at hpos
        simp only [List.length_append] at hpos ⊢
        omega
      by_cases heq : sym = symbol
      · rw [if_pos heq, if_pos heq, hsz, hhd, hhead, hoff]
      · rw [if_neg heq, if_neg heq, hsz, hhd, hhead, hoff]
        have hdrop : (val ++ serializeFields fs).drop val.length = serializeFields fs := by
          rw [List.drop_append_of_le_length (le_refl _)]
          simp
        rw [hdrop]
        exact ih (pos + (encodeSymbol sym).length + val.length)
          ⟨pos + (encodeSymbol sym).length, val.length, val.headD 0, headerSizeOf val⟩
          (by rw [hser] at hpos; simp only [List.length_append] at hpos ⊢; omega)
          (fun f hf => hrange f (List.mem_cons_of_mem _ hf))
          (fun f hf => hwf f (List.mem_cons_of_mem _ hf))

theorem fieldRegs_map_fst (pos : Nat) (fields : List (Nat × List Nat)) :
    (fieldRegs pos fields).map Prod.fst = fields.map Prod.fst := by
  induction fields generalizing pos with
  | nil => rfl
  | cons f fs ih =>
    obtain ⟨sym, val⟩ := f
    simp [fieldRegs, ih]

theorem findsymExpected_found_iff (symbol pos : Nat) (fields : List (Nat × List Nat))
    (cur : VRegLane) (hpw : (fields.map Prod.fst).Pairwise (fun a b => a < b)) :
    (findsymExpected symbol pos fields cur).2 = true ↔ symbol ∈ fields.map Prod.fst := by
  induction fields generalizing pos cur with
  | nil => simp [findsymExpected]
  | cons f fs ih =>
    obtain ⟨sym, val⟩ := f
    simp only [List.map_cons, List.pairwise_cons] at hpw
    rw [findsymExpected]
    by_cases hgt : symbol < sym
    · rw [if_pos hgt]
      simp only [List.map_cons, List.mem_cons]
      constructor
      · intro hc
        exact absurd hc (by simp)
      · intro hc
        rcases hc with hc | hc
        · omega
        · have := hpw.1 _ hc
          omega
    · rw [if_neg hgt]
      by_cases heq : sym = symbol
      · rw [if_pos heq]
        simp [heq]
      · rw [if_neg heq]
        rw [ih _ _ hpw.2]
        simp only [List.map_cons, List.mem_cons]
        constructor
        · exact Or.inr
        · intro hc
          rcases hc with hc | hc
          · exact absurd hc.symm heq
          · exact hc

theorem findsymExpected_found_mem (symbol pos : Nat) (fields : List (Nat × List Nat))
    (cur : VRegLane) (h : (findsymExpected symbol pos fields cur).2 = true) :
    (symbol, (findsymExpected symbol pos fields cur).1) ∈ fieldRegs pos fields := by
  induction fields generalizing pos cur with
  | nil => simp [findsymExpected] at h
  | cons f fs ih =>
    obtain ⟨sym, val⟩ := f
    rw [findsymExpected] at h ⊢
    by_cases hgt : symbol < sym
    · rw [if_pos hgt] at h
      simp at h
    · rw [if_neg hgt] at h ⊢
      by_cases heq : sym = symbol
      · rw [if_pos heq] at h ⊢
        subst heq
        exact List.mem_cons_self _ _
      · rw [if_neg heq] at h ⊢
        exact List.mem_cons_of_mem _ (ih _ _ h)

theorem findsymExpected_miss (symbol pos : Nat) (fields : List (Nat × List Nat))
    (cur : VRegLane) (hpw : (fields.map Prod.fst).Pairwise (fun a b => a < b))
    (hnot : symbol ∉ fields.map Prod.fst) :
    findsymExpected symbol pos fields cur =
      ((((fieldRegs pos fields).filter (fun p => decide (p.1 < symbol))).map
        Prod.snd).getLastD cur, false) := by
  induction fields generalizing pos cur with
  | nil => simp [findsymExpected, fieldRegs]
  | cons f fs ih =>
    obtain ⟨sym, val⟩ := f
    simp only [List.map_cons, List.pairwise_cons] at hpw
    simp only [List.map_cons, List.mem_cons] at hnot
    push_neg at hnot
    rw [findsymExpected, fieldRegs]
    by_cases hgt : symbol < sym
    · rw [if_pos hgt]
      have hhead : (decide (sym < symbol)) = false := by
        simp
        omega
      rw [List.filter_cons_of_neg (by simpa using hhead)]
      have htail : (fieldRegs (pos + (encodeSymbol sym).length + val.length) fs).filter
          (fun p => decide (p.1 < symbol)) = [] := by
        rw [List.filter_eq_nil_iff]
        intro p hp
        have : p.1 ∈ fs.map Prod.fst := by
          rw [← fieldRegs_map_fst (pos + (encodeSymbol sym).length + val.length) fs]
          exact List.mem_map_of_mem _ hp
        have := hpw.1 _ this
        simp
        omega
      rw [htail]
      rfl
    · rw [if_neg hgt]
      have heq : sym ≠ symbol := Ne.symm hnot.1
      rw [if_neg heq]
      rw [ih _ _ hpw.2 hnot.2]
      have hhead : decide (sym < symbol) = true := by
        simp
        omega
      rw [List.filter_cons_of_pos (by simpa using hhead)]
      simp only [List.map_cons, List.getLastD_cons]

/-- C1: for every lane set in the input mask whose `BaseReg` spans a
well-formed struct body with strictly ascending field labels, the
`findsym` search sets the lane's output mask bit iff a field with the
target symbol id is present; on a hit the lane's `ValueReg` holds the
offset, length, TLV byte and header length of that field's value
(`fieldRegs`); on a miss the mask bit is clear and the `ValueReg` is
the register of the last field whose label is smaller than the target
(so it ends just past that field), or the body start when there is no
smaller field. -/
theorem claim_C1 (mem : List Nat) (symbol : Nat) (fields : List (Nat × List Nat))
    (srcb : Vmref)
    (hbody : Vmref.mem mem srcb = serializeFields fields)
    (hsize : srcb.size = (serializeFields fields).length)
    (hasc : (fields.map Prod.fst).Pairwise (fun a b => a < b))
    (hrange : ∀ f ∈ fields, f.1 < 268435456)
    (hwf : ∀ f ∈ fields, WFValue f.2) :
    ((∃ v, findsymLane mem symbol srcb true = some (v, true)) ↔
        symbol ∈ fields.map Prod.fst) ∧
    (∀ v, findsymLane mem symbol srcb true = some (v, true) →
        (symbol, v) ∈ fieldRegs srcb.offset fields) ∧
    (symbol ∉ fields.map Prod.fst →
      findsymLane mem symbol srcb true =
        some ((((fieldRegs srcb.offset fields).filter
            (fun p => decide (p.1 < symbol))).map Prod.snd).getLastD
          ⟨srcb.offset, 0, 0, 0⟩, false)) := by
  have hrun : findsymLane mem symbol srcb true =
      some (findsymExpected symbol srcb.offset fields ⟨srcb.offset, 0, 0, 0⟩) := by
    unfold findsymLane
    rw [if_pos rfl, hbody]
    exact findsymLoop_serialize symbol srcb.offset srcb.size fields srcb.offset
      ⟨srcb.offset, 0, 0, 0⟩ (by omega) hrange hwf
  refine ⟨?_, ?_, ?_⟩
  · rw [hrun]
    rw [← findsymExpected_found_iff symbol srcb.offset fields ⟨srcb.offset, 0, 0, 0⟩ hasc]
    constructor
    · rintro ⟨v, hv⟩
      simp only [Option.some.injEq] at hv
      rw [hv]
    · intro hfound
      refine ⟨(findsymExpected symbol srcb.offset fields ⟨srcb.offset, 0, 0, 0⟩).1, ?_⟩
      congr 1
      exact Prod.ext rfl hfound
  · intro v hv
    rw [hrun] at hv
    simp only [Option.some.injEq] at hv
    have h2 : (findsymExpected symbol srcb.offset fields ⟨srcb.offset, 0, 0, 0⟩).2 = true := by
      rw [hv]
    have hm := findsymExpected_found_mem symbol srcb.offset fields ⟨srcb.offset, 0, 0, 0⟩ h2
    rw [hv] at hm
    exact hm
  · intro hnot
    rw [hrun, findsymExpected_miss symbol srcb.offset fields ⟨srcb.offset, 0, 0, 0⟩ hasc hnot]

/-- C1 witness: struct body `{10: uint 1, 11: uint 2}` serialised as
`[138, 33, 1, 139, 33, 2]`; `findsym(target = 11)` hits. -/
theorem claim_C1_witness :
    ∃ v, findsymLane [138, 33, 1, 139, 33, 2] 11 ⟨0, 6⟩ true = some (v, true) := by
  have h := claim_C1 [138, 33, 1, 139, 33, 2] 11 [(10, [33, 1]), (11, [33, 2])] ⟨0, 6⟩
    (by decide) (by decide) (by decide) (by decide)
    (by
      intro f hf
      simp only [List.mem_cons, List.not_mem_nil, or_false] at hf
      rcases hf with hf | hf <;> subst hf
      · exact wfValue_encodeTLV 2 1 [1] (by decide) (by decide) (by decide)
      · exact wfValue_encodeTLV 2 1 [2] (by decide) (by decide) (by decide))
  exact h.1.mpr (by decide)

/-! ## Filter driver: `evalfiltergo` -/

/-- Write the elements of `xs` into `l` at consecutive positions
starting at `j`. -/
def writeList {α : Type} (j : Nat) : List α → List α → List α
  | [], l => l
  | x :: xs, l => writeList (j + 1) xs (l.set j x)

/-- The elements of `batch` selected by the low bits of `mask`, in
order (spec: the surviving row subsequence of one batch). -/
def selectMask : List Vmref → Nat → List Vmref
  | [], _ => []
  | d :: ds, mask =>
    if mask % 2 = 1 then d :: selectMask ds (mask / 2) else selectMask ds (mask / 2)

theorem selectMask_zero (l : List Vmref) : selectMask l 0 = [] := by
  induction l with
  | nil => rfl
  | cons d ds ih => simpa [selectMask] using ih

theorem selectMask_length_le (l : List Vmref) (mask : Nat) :
    (selectMask l mask).length ≤ l.length := by
  induction l generalizing mask with
  | nil => simp [selectMask]
  | cons d ds ih =>
    rw [selectMask]
    split_ifs
    · simpa using Nat.succ_le_succ (ih (mask / 2))
    · exact Nat.le_succ_of_le (ih (mask / 2))

/-- Embeds the inner compaction loop of `evalfiltergo` (vm): for each
batch element `k`, stop when the mask is exhausted; a set low bit
copies every aux column entry from `apos + k` down to `j` and the
delimiter down to `j`; then the mask shifts right. -/
def filterCompress (batch : List Vmref) (mask apos j : Nat) (delims : List Vmref)
    (aux : List (List Vmref)) (k : Nat) : Nat × List Vmref × List (List Vmref) :=
  match batch with
  | [] => (j, delims, aux)
  | d :: ds =>
    if mask = 0 then (j, delims, aux)
    else if mask % 2 = 1 then
      filterCompress ds (mask / 2) apos (j + 1) (delims.set j d)
        (aux.map (fun col => col.set j (col.getD (apos + k) ⟨0, 0⟩))) (k + 1)
    else filterCompress ds (mask / 2) apos j delims aux (k + 1)

theorem filterCompress_delims_length (batch : List Vmref) (mask apos j : Nat)
    (delims : List Vmref) (aux : List (List Vmref)) (k : Nat) :
    (filterCompress batch mask apos j delims aux k).2.1.length = delims.length := by
  induction batch generalizing mask j delims aux k with
  | nil => rfl
  | cons d ds ih =>
    rw [filterCompress]
    split_ifs
    · rfl
    · rw [ih]
      simp
    · exact ih _ _ _ _ _

theorem filterCompress_spec (batch : List Vmref) (mask apos j k : Nat)
    (delims : List Vmref) (aux : List (List Vmref))
    (hja : j ≤ apos + k)
    (haux : ∀ col ∈ aux, apos + k + batch.length ≤ col.length) :
    filterCompress batch mask apos j delims aux k =
      (j + (selectMask batch mask).length,
       writeList j (selectMask batch mask) delims,
       aux.map (fun col =>
         writeList j (selectMask ((col.drop (apos + k)).take batch.length) mask) col)) := by
  induction batch generalizing mask j k delims aux with
  | nil =>
    simp [filterCompress, writeList, show selectMask [] mask = [] from rfl]
  | cons d ds ih =>
    rw [filterCompress]
    by_cases h0 : mask = 0
    · subst h0
      rw [if_pos rfl]
      rw [selectMask_zero]
      rw [List.map_congr_left (fun col _ => by rw [selectMask_zero, writeList]), List.map_id']
      rfl
    · rw [if_neg h0]
      by_cases hbit : mask % 2 = 1
      · rw [if_pos hbit]
        rw [ih (mask / 2) (j + 1) (k + 1) _ _ (by omega)
          (by
            intro col hcol
            simp only [List.mem_map] at hcol
            obtain ⟨c, hc, rfl⟩ := hcol
            have := haux c hc
            simp only [List.length_cons] at this
            simp only [List.length_set]
            omega)]
        have hsel : selectMask (d :: ds) mask = d :: selectMask ds (mask / 2) := by
          rw [selectMask, if_pos hbit]
        rw [hsel]
        refine congrArg₂ _ (by simp [List.length_cons]; omega) (congrArg₂ _ rfl ?_)
        rw [List.map_map]
        refine List.map_congr_left ?_
        intro col hcol
        have hlen := haux col hcol
        simp only [List.length_cons] at hlen
        have hidx : apos + k < col.length := by omega
        have hseg : (col.drop (apos + k)).take (d :: ds).length =
            col[apos + k] :: (col.drop (apos + k + 1)).take ds.length := by
          rw [List.drop_eq_getElem_cons hidx]
          rfl
        simp only [Function.comp]
        rw [show apos + (k + 1) = apos + k + 1 from rfl]
        have hdropset : (col.set j (col.getD (apos + k) ⟨0, 0⟩)).drop (apos + k + 1) =
            col.drop (apos + k + 1) := by
          rw [List.drop_set]
          rw [if_pos (by omega)]
        rw [hdropset, hseg]
        have hget : col.getD (apos + k) ⟨0, 0⟩ = col[apos + k] :=
          List.getD_eq_getElem col _ hidx
        rw [show selectMask (col[apos + k] :: (col.drop (apos + k + 1)).take ds.length) mask =
            col[apos + k] :: selectMask ((col.drop (apos + k + 1)).take ds.length) (mask / 2) by
          rw [selectMask, if_pos hbit]]
        rw [writeList, hget]
      · rw [if_neg hbit]
        rw [ih (mask / 2) j (k + 1) _ _ (by omega)
          (by
            intro col hcol
            have := haux col hcol
            simp only [List.length_cons] at this
            omega)]
        have hsel : selectMask (d :: ds) mask = selectMask ds (mask / 2) := by
          rw [selectMask, if_neg hbit]
        rw [hsel]
        refine congrArg₂ _ rfl (congrArg₂ _ rfl ?_)
        refine List.map_congr_left ?_
        intro col hcol
        have hlen := haux col hcol
        simp only [List.length_cons] at hlen
        have hidx : apos + k < col.length := by omega
        have hseg : (col.drop (apos + k)).take (d :: ds).length =
            col[apos + k] :: (col.drop (apos + k + 1)).take ds.length := by
          rw [List.drop_eq_getElem_cons hidx]
          rfl
        rw [show apos + (k + 1) = apos + k + 1 from rfl]
        rw [hseg]
        rw [show selectMask (col[apos + k] :: (col.drop (apos + k + 1)).take ds.length) mask =
            selectMask ((col.drop (apos + k + 1)).take ds.length) (mask / 2) by
          rw [selectMask, if_neg hbit]]

theorem writeList_length {α : Type} (xs : List α) (j : Nat) (l : List α) :
    (writeList j xs l).length = l.length := by
  induction xs generalizing j l with
  | nil => rfl
  | cons x xs ih => rw [writeList, ih, List.length_set]

theorem writeList_getElem?_lt {α : Type} (xs : List α) (j m : Nat) (l : List α) (h : m < j) :
    (writeList j xs l)[m]? = l[m]? := by
  induction xs generalizing j l with
  | nil => rfl
  | cons x xs ih =>
    rw [writeList, ih (j + 1) _ (by omega), List.getElem?_set_ne (by omega)]

theorem writeList_take_of_le {α : Type} (xs : List α) (j m : Nat) (l : List α) (h : m ≤ j) :
    (writeList j xs l).take m = l.take m := by
  apply List.ext_getElem?
  intro n
  simp only [List.getElem?_take]
  split_ifs with hn
  · exact writeList_getElem?_lt xs j n l (by omega)
  · rfl

theorem writeList_drop_of_ge {α : Type} (xs : List α) (j m : Nat) (l : List α)
    (h : j + xs.length ≤ m) : (writeList j xs l).drop m = l.drop m := by
  induction xs generalizing j l with
  | nil => rfl
  | cons x xs ih =>
    rw [writeList, ih (j + 1) _ (by simp at h ⊢; omega), List.drop_set, if_pos (by simp at h; omega)]

theorem writeList_segment {α : Type} (xs : List α) (j : Nat) (l : List α)
    (h : j + xs.length ≤ l.length) : ((writeList j xs l).drop j).take xs.length = xs := by
  induction xs generalizing j l with
  | nil => rfl
  | cons x xs ih =>
    rw [writeList]
    have hjl : j < (writeList (j + 1) xs (l.set j x)).length := by
      rw [writeList_length, List.length_set]
      simp only [List.length_cons] at h
      omega
    rw [List.drop_eq_getElem_cons hjl]
    have hx : (writeList (j + 1) xs (l.set j x))[j] = x := by
      have h1 : (writeList (j + 1) xs (l.set j x))[j]? = (l.set j x)[j]? :=
        writeList_getElem?_lt xs (j + 1) j _ (by omega)
      have h2 : (l.set j x)[j]? = some x := by
        rw [List.getElem?_set]
        rw [if_pos rfl, if_pos (by simp only [List.length_cons] at h; omega)]
      rw [List.getElem?_eq_getElem hjl, h2] at h1
      exact Option.some.injEq _ _ ▸ h1.symm ▸ rfl
    rw [hx]
    simp only [List.length_cons, List.take_succ_cons]
    congr 1
    exact ih (j + 1) (l.set j x) (by simp only [List.length_set]; simp only [List.length_cons] at h; omega)

theorem writeList_append {α : Type} (xs ys : List α) (j : Nat) (l : List α) :
    writeList j (xs ++ ys) l = writeList (j + xs.length) ys (writeList j xs l) := by
  induction xs generalizing j l with
  | nil => simp [writeList]
  | cons x xs ih =>
    rw [List.cons_append, writeList, writeList, ih]
    congr 1
    simp only [List.length_cons]
    omega

theorem selectMask_length_eq (l1 l2 : List Vmref) (mask : Nat) (h : l1.length = l2.length) :
    (selectMask l1 mask).length = (selectMask l2 mask).length := by
  induction l1 generalizing l2 mask with
  | nil =>
    have : l2 = [] := List.eq_nil_of_length_eq_zero h.symm
    subst this
    rfl
  | cons x xs ih =>
    cases l2 with
    | nil => simp at h
    | cons y ys =>
      simp only [List.length_cons, Nat.add_right_cancel_iff] at h
      rw [selectMask, selectMask]
      split_ifs
      · simpa using ih ys (mask / 2) h
      · exact ih ys (mask / 2) h

theorem drop_take_drop (l : List Vmref) (i n : Nat) :
    l.drop (i + ((l.drop i).take n).length) = (l.drop i).drop n := by
  rw [List.length_take, List.length_drop, List.drop_drop]
  by_cases h : n ≤ l.length - i
  · rw [Nat.min_eq_left h]
  · have h1 : l.length ≤ i + min n (l.length - i) := by omega
    have h2 : l.length ≤ i + n := by omega
    rw [List.drop_eq_nil_of_le h1, List.drop_eq_nil_of_le h2]

/-- The survivors of a filter pass, batch by batch: partition the
row delimiters into batches of at most `bcLaneCount`, and keep the
rows whose program-mask bit is set, in input order (spec §4.6, §8). -/
def survivorsList (prog : List Vmref → Nat) (l : List Vmref) : List Vmref :=
  if h : l = [] then []
  else
    selectMask (l.take bcLaneCount) (prog (l.take bcLaneCount)) ++
      survivorsList prog (l.drop bcLaneCount)
termination_by l.length
decreasing_by
  have : 0 < l.length := List.length_pos.mpr h
  simp only [List.length_drop]
  unfold bcLaneCount
  omega

/-- The corresponding selection of an auxiliary column: the same
per-batch masks applied at the same index positions. -/
def survivorsCol (prog : List Vmref → Nat) (l : List Vmref) (col : List Vmref) : List Vmref :=
  if h : l = [] then []
  else
    selectMask (col.take (l.take bcLaneCount).length) (prog (l.take bcLaneCount)) ++
      survivorsCol prog (l.drop bcLaneCount) (col.drop (l.take bcLaneCount).length)
termination_by l.length
decreasing_by
  have : 0 < l.length := List.length_pos.mpr h
  simp only [List.length_drop]
  unfold bcLaneCount
  omega

theorem survivorsList_length_le (prog : List Vmref → Nat) (l : List Vmref) :
    (survivorsList prog l).length ≤ l.length := by
  generalize hn : l.length = n
  induction n using Nat.strong_induction_on generalizing l with
  | _ n ih =>
    subst hn
    rw [survivorsList]
    split_ifs with h
    · simp
    · have hpos : 0 < l.length := List.length_pos.mpr h
      have hd : (l.drop bcLaneCount).length < l.length := by
        simp only [List.length_drop]
        unfold bcLaneCount
        omega
      have := ih _ hd (l.drop bcLaneCount) rfl
      have hsel := selectMask_length_le (l.take bcLaneCount) (prog (l.take bcLaneCount))
      simp only [List.length_append, List.length_take, List.length_drop] at *
      omega

theorem survivorsCol_length (prog : List Vmref → Nat) (l col : List Vmref)
    (h : l.length ≤ col.length) :
    (survivorsCol prog l col).length = (survivorsList prog l).length := by
  generalize hn : l.length = n
  induction n using Nat.strong_induction_on generalizing l col with
  | _ n ih =>
    subst hn
    rw [survivorsCol, survivorsList]
    split_ifs with hl
    · rfl
    · have hpos : 0 < l.length := List.length_pos.mpr hl
      have hd : (l.drop bcLaneCount).length < l.length := by
        simp only [List.length_drop]
        unfold bcLaneCount
        omega
      have h1 : (col.take (l.take bcLaneCount).length).length =
          (l.take bcLaneCount).length := by
        simp only [List.length_take, List.length_drop]
        omega
      have h2 := selectMask_length_eq _ _ (prog (l.take bcLaneCount)) h1
      have h3 := ih _ hd (l.drop bcLaneCount)
        (col.drop (l.take bcLaneCount).length)
        (by simp only [List.length_drop, List.length_take]; omega) rfl
      simp only [List.length_append, h2, h3]

/-- Embeds the outer loop of `evalfiltergo` (vm): while rows remain,
take the next batch of at most `bcLaneCount` delimiters, capture
`apos := bc.auxpos`, evaluate the program (`evalfiltergolanes`, which
advances `auxpos` by the batch size via its terminal return opcode),
and compress the surviving delimiters and aux columns in place.  The
program is modelled as the pure per-batch mask function `prog`
(error-free). -/
def evalfilterLoop (prog : List Vmref → Nat) (i j auxpos : Nat) (delims : List Vmref)
    (aux : List (List Vmref)) : Nat × List Vmref × List (List Vmref) :=
  if h : i < delims.length then
    evalfilterLoop prog
      (i + ((delims.drop i).take bcLaneCount).length)
      (filterCompress ((delims.drop i).take bcLaneCount)
        (prog ((delims.drop i).take bcLaneCount)) auxpos j delims aux 0).1
      (auxpos + ((delims.drop i).take bcLaneCount).length)
      (filterCompress ((delims.drop i).take bcLaneCount)
        (prog ((delims.drop i).take bcLaneCount)) auxpos j delims aux 0).2.1
      (filterCompress ((delims.drop i).take bcLaneCount)
        (prog ((delims.drop i).take bcLaneCount)) auxpos j delims aux 0).2.2
  else (j, delims, aux)
termination_by delims.length - i
decreasing_by
  have h1 := filterCompress_delims_length ((delims.drop i).take bcLaneCount)
    (prog ((delims.drop i).take bcLaneCount)) auxpos j delims aux 0
  have h2 : 1 ≤ ((delims.drop i).take bcLaneCount).length := by
    simp only [List.length_take, List.length_drop]
    unfold bcLaneCount
    omega
  omega

/-- Embeds `evalfiltergo` (vm) for a fresh pass (`bc.auxpos = 0`):
returns the surviving row count together with the mutated delimiter
array and aux columns. -/
def evalfiltergo (prog : List Vmref → Nat) (delims : List Vmref)
    (aux : List (List Vmref)) : Nat × List Vmref × List (List Vmref) :=
  evalfilterLoop prog 0 0 0 delims aux

theorem evalfilterLoop_spec (prog : List Vmref → Nat) (i j : Nat) (delims : List Vmref)
    (aux : List (List Vmref)) (hj : j ≤ i)
    (haux : ∀ col ∈ aux, delims.length ≤ col.length) :
    evalfilterLoop prog i j i delims aux =
      (j + (survivorsList prog (delims.drop i)).length,
       writeList j (survivorsList prog (delims.drop i)) delims,
       aux.map (fun col =>
         writeList j (survivorsCol prog (delims.drop i) (col.drop i)) col)) := by
  generalize hn : delims.length - i = n
  induction n using Nat.strong_induction_on generalizing i j delims aux with
  | _ n ih =>
    rw [evalfilterLoop]
    by_cases hlt : i < delims.length
    · rw [dif_pos hlt]
      set next := (delims.drop i).take bcLaneCount with hnext
      set mask := prog next with hmask
      have hnl : next.length = min bcLaneCount (delims.length - i) := by
        rw [hnext]
        simp [List.length_take, List.length_drop]
      have hnl1 : 1 ≤ next.length := by
        rw [hnl]
        unfold bcLaneCount
        omega
      have hnlle : i + next.length ≤ delims.length := by
        rw [hnl]
        omega
      rw [filterCompress_spec next mask i j 0 delims aux (by omega)
        (by
          intro col hcol
          have := haux col hcol
          omega)]
      simp only
      have hdcons : delims.drop i ≠ [] := by
        intro hc
        have := congrArg List.length hc
        simp only [List.length_drop, List.length_nil] at this
        omega
      -- unfold the survivors on the left batch
      have hsurv : survivorsList prog (delims.drop i) =
          selectMask next mask ++ survivorsList prog (delims.drop (i + next.length)) := by
        rw [survivorsList]
        rw [dif_neg hdcons]
        congr 1
        rw [drop_take_drop]
      -- prepare the recursive call
      have hrec := ih (delims.length - (i + next.length))
        (by omega)
        (i + next.length) (j + (selectMask next mask).length)
        (writeList j (selectMask next mask) delims)
        (aux.map (fun col =>
          writeList j (selectMask ((col.drop (i + 0)).take next.length) mask) col))
        (by
          have := selectMask_length_le next mask
          omega)
        (by
          intro col hcol
          simp only [List.mem_map] at hcol
          obtain ⟨c, hc, rfl⟩ := hcol
          rw [writeList_length, writeList_length]
          exact haux c hc)
        (by rw [writeList_length])
      rw [hrec]
      have hwd : (writeList j (selectMask next mask) delims).drop (i + next.length) =
          delims.drop (i + next.length) := by
        apply writeList_drop_of_ge
        have := selectMask_length_le next mask
        omega
      rw [hwd]
      refine congrArg₂ _ ?_ (congrArg₂ _ ?_ ?_)
      · rw [hsurv]
        simp only [List.length_append]
        omega
      · rw [hsurv, writeList_append]
      · rw [List.map_map]
        refine List.map_congr_left ?_
        intro col hcol
        have hcl := haux col hcol
        simp only [Function.comp]
        have hwcd : (writeList j (selectMask ((col.drop (i + 0)).take next.length) mask) col).drop
            (i + next.length) = col.drop (i + next.length) := by
          apply writeList_drop_of_ge
          have h5 : (selectMask ((col.drop (i + 0)).take next.length) mask).length ≤
              next.length := by
            have := selectMask_length_le ((col.drop (i + 0)).take next.length) mask
            simp only [List.length_take, List.length_drop] at this ⊢
            omega
          omega
        rw [hwcd]
        have e1 : (delims.drop i).drop bcLaneCount = delims.drop (i + next.length) :=
          (drop_take_drop delims i bcLaneCount).symm
        have e2 : (col.drop i).drop next.length = col.drop (i + next.length) := by
          rw [List.drop_drop]
        have hcsurv : survivorsCol prog (delims.drop i) (col.drop i) =
            selectMask ((col.drop i).take next.length) mask ++
              survivorsCol prog (delims.drop (i + next.length)) (col.drop (i + next.length)) := by
          rw [survivorsCol]
          rw [dif_neg hdcons]
          rw [show (delims.drop i).take bcLaneCount = next from rfl]
          rw [e1, e2]
        rw [hcsurv, writeList_append]
        have hlensel : (selectMask ((col.drop i).take next.length) mask).length =
            (selectMask next mask).length := by
          apply selectMask_length_eq
          simp only [List.length_take, List.length_drop]
          rw [hnl]
          omega
        rw [Nat.add_zero, hlensel]
    · rw [dif_neg hlt]
      have hde : delims.drop i = [] := List.drop_eq_nil_of_le (by omega)
      rw [hde]
      rw [show survivorsList prog [] = [] from by rw [survivorsList]; simp]
      simp only [List.length_nil, Nat.add_zero, writeList]
      rw [List.map_congr_left (fun col _ => by
        rw [show survivorsCol prog [] (col.drop i) = [] from by rw [survivorsCol]; simp,
          writeList])]
      rw [List.map_id']

/-- C3: after a filter pass, the returned count `j` and the mutated
arrays satisfy: `delims[0..j)` is exactly the subsequence, in input
order, of the input delimiters whose lane output-mask bit was set by
the program (`survivorsList`), and every bound aux column is
compacted by the same per-batch index selection (`survivorsCol`). -/
theorem claim_C3 (prog : List Vmref → Nat) (delims : List Vmref) (aux : List (List Vmref))
    (haux : ∀ col ∈ aux, delims.length ≤ col.length) :
    (evalfiltergo prog delims aux).1 = (survivorsList prog delims).length ∧
    ((evalfiltergo prog delims aux).2.1).take ((evalfiltergo prog delims aux).1) =
      survivorsList prog delims ∧
    ∀ l, l < aux.length →
      (((evalfiltergo prog delims aux).2.2).getD l []).take ((evalfiltergo prog delims aux).1) =
        survivorsCol prog delims (aux.getD l []) := by
  have hspec := evalfilterLoop_spec prog 0 0 delims aux (Nat.le_refl 0) haux
  unfold evalfiltergo
  rw [hspec]
  simp only [List.drop_zero, Nat.zero_add]
  have hslen := survivorsList_length_le prog delims
  refine ⟨by trivial, ?_, ?_⟩
  · have hseg := writeList_segment (survivorsList prog delims) 0 delims (by omega)
    rwa [List.drop_zero] at hseg
  · intro l hl
    have hgd : (List.map (fun col => writeList 0 (survivorsCol prog delims col) col) aux).getD
        l [] = writeList 0 (survivorsCol prog delims (aux.getD l [])) (aux.getD l []) := by
      rw [List.getD_eq_getElem _ _ (by simpa using hl), List.getElem_map,
        List.getD_eq_getElem _ _ hl]
    rw [hgd]
    have hcl : delims.length ≤ (aux.getD l []).length := by
      refine haux _ ?_
      rw [List.getD_eq_getElem _ _ hl]
      exact List.getElem_mem hl
    have hclen := survivorsCol_length prog delims (aux.getD l []) hcl
    rw [← hclen]
    have hseg := writeList_segment (survivorsCol prog delims (aux.getD l [])) 0
      (aux.getD l []) (by omega)
    rwa [List.drop_zero] at hseg

/-- C3 witness: two rows, program mask `0b10`: row 1 survives, the
single aux column is compacted identically. -/
theorem claim_C3_witness :
    (evalfiltergo (fun _ => 2) [⟨1, 1⟩, ⟨2, 2⟩] [[⟨5, 5⟩, ⟨6, 6⟩]]).1 =
      (survivorsList (fun _ => 2) [⟨1, 1⟩, ⟨2, 2⟩]).length :=
  (claim_C3 (fun _ => 2) [⟨1, 1⟩, ⟨2, 2⟩] [[⟨5, 5⟩, ⟨6, 6⟩]] (by decide)).1

/-! ## Dedup driver: `evaldedupgo` -/

/-- Embeds the inner lane loop of `evaldedupgo` (vm): for lane `i`
of the batch, a lane that is inactive in the output mask or whose
hash is already in the radix tree (`tree.Offset(h) >= 0`, modelled by
`treeHas`) is skipped; otherwise the row and its hash are compacted
down to `dout`.  The aux-column compaction of the source (identical
in structure to the filter driver's) is not modelled. -/
def dedupCompress (batch : List Vmref) (outmask : Nat) (outhash : Nat → Nat)
    (treeHas : Nat → Bool) (dout : Nat) (delims : List Vmref) (hashes : List Nat)
    (i : Nat) : Nat × List Vmref × List Nat :=
  match batch with
  | [] => (dout, delims, hashes)
  | d :: ds =>
    if outmask / 2 ^ i % 2 = 1 ∧ treeHas (outhash i) = false then
      dedupCompress ds outmask outhash treeHas (dout + 1) (delims.set dout d)
        (hashes.set dout (outhash i)) (i + 1)
    else dedupCompress ds outmask outhash treeHas dout delims hashes (i + 1)

/-- The `(row, hash)` pairs one batch contributes: output-mask bit
set and hash absent from the tree. -/
def dedupSelect (outmask : Nat) (outhash : Nat → Nat) (treeHas : Nat → Bool) :
    List Vmref → Nat → List (Vmref × Nat)
  | [], _ => []
  | d :: ds, i =>
    if outmask / 2 ^ i % 2 = 1 ∧ treeHas (outhash i) = false then
      (d, outhash i) :: dedupSelect outmask outhash treeHas ds (i + 1)
    else dedupSelect outmask outhash treeHas ds (i + 1)

theorem dedupSelect_length_le (outmask : Nat) (outhash : Nat → Nat) (treeHas : Nat → Bool)
    (batch : List Vmref) (i : Nat) :
    (dedupSelect outmask outhash treeHas batch i).length ≤ batch.length := by
  induction batch generalizing i with
  | nil => simp [dedupSelect]
  | cons d ds ih =>
    rw [dedupSelect]
    split_ifs
    · simpa using Nat.succ_le_succ (ih (i + 1))
    · exact Nat.le_succ_of_le (ih (i + 1))

theorem dedupCompress_spec (batch : List Vmref) (outmask : Nat) (outhash : Nat → Nat)
    (treeHas : Nat → Bool) (dout : Nat) (delims : List Vmref) (hashes : List Nat) (i : Nat) :
    dedupCompress batch outmask outhash treeHas dout delims hashes i =
      (dout + (dedupSelect outmask outhash treeHas batch i).length,
       writeList dout ((dedupSelect outmask outhash treeHas batch i).map Prod.fst) delims,
       writeList dout ((dedupSelect outmask outhash treeHas batch i).map Prod.snd) hashes) := by
  induction batch generalizing dout delims hashes i with
  | nil => simp [dedupCompress, dedupSelect, writeList]
  | cons d ds ih =>
    rw [dedupCompress, dedupSelect]
    split_ifs with hcond
    · rw [ih]
      simp only [List.map_cons, List.length_cons, writeList]
      refine congrArg₂ _ (by omega) rfl
    · rw [ih]

/-- Embeds the outer loop of `evaldedupgo` (vm): per batch, evaluate
the program (modelled by `prog`, returning the output mask and the
per-lane hashes of the designated slot), then compact the surviving
rows and hashes.  The radix tree is NOT updated during the pass. -/
def evaldedupLoop (prog : List Vmref → Nat × (Nat → Nat)) (treeHas : Nat → Bool)
    (consumed dout : Nat) (delims : List Vmref) (hashes : List Nat) :
    Nat × List Vmref × List Nat :=
  if h : consumed < delims.length then
    evaldedupLoop prog treeHas
      (consumed + ((delims.drop consumed).take bcLaneCount).length)
      (dedupCompress ((delims.drop consumed).take bcLaneCount)
        (prog ((delims.drop consumed).take bcLaneCount)).1
        (prog ((delims.drop consumed).take bcLaneCount)).2 treeHas dout delims hashes 0).1
      (dedupCompress ((delims.drop consumed).take bcLaneCount)
        (prog ((delims.drop consumed).take bcLaneCount)).1
        (prog ((delims.drop consumed).take bcLaneCount)).2 treeHas dout delims hashes 0).2.1
      (dedupCompress ((delims.drop consumed).take bcLaneCount)
        (prog ((delims.drop consumed).take bcLaneCount)).1
        (prog ((delims.drop consumed).take bcLaneCount)).2 treeHas dout delims hashes 0).2.2
  else (dout, delims, hashes)
termination_by delims.length - consumed
decreasing_by
  have h1 : (dedupCompress ((delims.drop consumed).take bcLaneCount)
      (prog ((delims.drop consumed).take bcLaneCount)).1
      (prog ((delims.drop consumed).take bcLaneCount)).2 treeHas dout delims hashes 0).2.1.length =
      delims.length := by
    rw [dedupCompress_spec, writeList_length]
  have h2 : 1 ≤ ((delims.drop consumed).take bcLaneCount).length := by
    simp only [List.length_take, List.length_drop]
    unfold bcLaneCount
    omega
  omega

/-- Embeds `evaldedupgo` (vm). -/
def evaldedupgo (prog : List Vmref → Nat × (Nat → Nat)) (treeHas : Nat → Bool)
    (delims : List Vmref) (hashes : List Nat) : Nat × List Vmref × List Nat :=
  evaldedupLoop prog treeHas 0 0 delims hashes

/-- The `(row, hash)` pairs the whole pass retains, batch by batch. -/
def dedupSurvivors (prog : List Vmref → Nat × (Nat → Nat)) (treeHas : Nat → Bool)
    (l : List Vmref) : List (Vmref × Nat) :=
  if h : l = [] then []
  else
    dedupSelect (prog (l.take bcLaneCount)).1 (prog (l.take bcLaneCount)).2 treeHas
      (l.take bcLaneCount) 0 ++
      dedupSurvivors prog treeHas (l.drop bcLaneCount)
termination_by l.length
decreasing_by
  have : 0 < l.length := List.length_pos.mpr h
  simp only [List.length_drop]
  unfold bcLaneCount
  omega

theorem dedupSurvivors_length_le (prog : List Vmref → Nat × (Nat → Nat))
    (treeHas : Nat → Bool) (l : List Vmref) :
    (dedupSurvivors prog treeHas l).length ≤ l.length := by
  generalize hn : l.length = n
  induction n using Nat.strong_induction_on generalizing l with
  | _ n ih =>
    subst hn
    rw [dedupSurvivors]
    split_ifs with h
    · simp
    · have hpos : 0 < l.length := List.length_pos.mpr h
      have hd : (l.drop bcLaneCount).length < l.length := by
        simp only [List.length_drop]
        unfold bcLaneCount
        omega
      have := ih _ hd (l.drop bcLaneCount) rfl
      have hsel := dedupSelect_length_le (prog (l.take bcLaneCount)).1
        (prog (l.take bcLaneCount)).2 treeHas (l.take bcLaneCount) 0
      simp only [List.length_append, List.length_take, List.length_drop] at *
      omega

theorem evaldedupLoop_spec (prog : List Vmref → Nat × (Nat → Nat)) (treeHas : Nat → Bool)
    (consumed dout : Nat) (delims : List Vmref) (hashes : List Nat)
    (hd : dout ≤ consumed) :
    evaldedupLoop prog treeHas consumed dout delims hashes =
      (dout + (dedupSurvivors prog treeHas (delims.drop consumed)).length,
       writeList dout ((dedupSurvivors prog treeHas (delims.drop consumed)).map Prod.fst)
         delims,
       writeList dout ((dedupSurvivors prog treeHas (delims.drop consumed)).map Prod.snd)
         hashes) := by
  generalize hn : delims.length - consumed = n
  induction n using Nat.strong_induction_on generalizing consumed dout delims hashes with
  | _ n ih =>
    rw [evaldedupLoop]
    by_cases hlt : consumed < delims.length
    · rw [dif_pos hlt]
      set batch := (delims.drop consumed).take bcLaneCount with hbatch
      have hnl : batch.length = min bcLaneCount (delims.length - consumed) := by
        rw [hbatch]
        simp [List.length_take, List.length_drop]
      have hnl1 : 1 ≤ batch.length := by
        rw [hnl]
        unfold bcLaneCount
        omega
      have hnlle : consumed + batch.length ≤ delims.length := by
        rw [hnl]
        omega
      rw [dedupCompress_spec]
      set sel := dedupSelect (prog batch).1 (prog batch).2 treeHas batch 0 with hsel
      have hsellen := dedupSelect_length_le (prog batch).1 (prog batch).2 treeHas batch 0
      rw [← hsel] at hsellen
      have hdcons : delims.drop consumed ≠ [] := by
        intro hc
        have := congrArg List.length hc
        simp only [List.length_drop, List.length_nil] at this
        omega
      have hsurv : dedupSurvivors prog treeHas (delims.drop consumed) =
          sel ++ dedupSurvivors prog treeHas (delims.drop (consumed + batch.length)) := by
        rw [dedupSurvivors]
        rw [dif_neg hdcons]
        congr 1
        rw [drop_take_drop]
      have hrec := ih (delims.length - (consumed + batch.length)) (by omega)
        (consumed + batch.length) (dout + sel.length)
        (writeList dout (sel.map Prod.fst) delims)
        (writeList dout (sel.map Prod.snd) hashes)
        (by omega)
        (by rw [writeList_length])
      rw [hrec]
      have hwd : (writeList dout (sel.map Prod.fst) delims).drop (consumed + batch.length) =
          delims.drop (consumed + batch.length) := by
        apply writeList_drop_of_ge
        simp only [List.length_map]
        omega
      rw [hwd]
      refine congrArg₂ _ ?_ (congrArg₂ _ ?_ ?_)
      · rw [hsurv]
        simp only [List.length_append]
        omega
      · rw [hsurv]
        simp only [List.map_append]
        rw [writeList_append]
        simp only [List.length_map]
      · rw [hsurv]
        simp only [List.map_append]
        rw [writeList_append]
        simp only [List.length_map]
    · rw [dif_neg hlt]
      have hde : delims.drop consumed = [] := List.drop_eq_nil_of_le (by omega)
      rw [hde]
      rw [show dedupSurvivors prog treeHas [] = [] from by rw [dedupSurvivors]; simp]
      simp [writeList]

theorem dedupSelect_treeHas (outmask : Nat) (outhash : Nat → Nat) (treeHas : Nat → Bool)
    (batch : List Vmref) (i : Nat) (p : Vmref × Nat)
    (hp : p ∈ dedupSelect outmask outhash treeHas batch i) : treeHas p.2 = false := by
  induction batch generalizing i with
  | nil => simp [dedupSelect] at hp
  | cons d ds ih =>
    rw [dedupSelect] at hp
    split_ifs at hp with hc
    · rcases List.mem_cons.mp hp with hh | hh
      · subst hh
        exact hc.2
      · exact ih _ hh
    · exact ih _ hp

theorem dedupSurvivors_treeHas (prog : List Vmref → Nat × (Nat → Nat)) (treeHas : Nat → Bool)
    (l : List Vmref) (p : Vmref × Nat) (hp : p ∈ dedupSurvivors prog treeHas l) :
    treeHas p.2 = false := by
  generalize hn : l.length = n
  induction n using Nat.strong_induction_on generalizing l with
  | _ n ih =>
    subst hn
    rw [dedupSurvivors] at hp
    split_ifs at hp with h
    · simp at hp
    · have hpos : 0 < l.length := List.length_pos.mpr h
      rcases List.mem_append.mp hp with hh | hh
      · exact dedupSelect_treeHas _ _ _ _ _ _ hh
      · refine ih (l.drop bcLaneCount).length ?_ _ hh rfl
        simp only [List.length_drop]
        unfold bcLaneCount
        omega

/-- C4 (amended): `evaldedupgo` retains, in input order, exactly the
rows whose output-mask bit is set AND whose hash is absent from the
radix tree (`dedupSurvivors`); every retained hash is absent from the
tree.  The tree is not updated during the pass, so duplicate hashes
that are absent from the tree are all retained — including within one
batch. -/
theorem claim_C4 (prog : List Vmref → Nat × (Nat → Nat)) (treeHas : Nat → Bool)
    (delims : List Vmref) (hashes : List Nat) (hlen : delims.length ≤ hashes.length) :
    (evaldedupgo prog treeHas delims hashes).1 =
      (dedupSurvivors prog treeHas delims).length ∧
    ((evaldedupgo prog treeHas delims hashes).2.1).take
        ((evaldedupgo prog treeHas delims hashes).1) =
      (dedupSurvivors prog treeHas delims).map Prod.fst ∧
    ((evaldedupgo prog treeHas delims hashes).2.2).take
        ((evaldedupgo prog treeHas delims hashes).1) =
      (dedupSurvivors prog treeHas delims).map Prod.snd ∧
    ∀ p ∈ dedupSurvivors prog treeHas delims, treeHas p.2 = false := by
  have hspec := evaldedupLoop_spec prog treeHas 0 0 delims hashes (Nat.le_refl 0)
  unfold evaldedupgo
  rw [hspec]
  simp only [List.drop_zero, Nat.zero_add]
  have hslen := dedupSurvivors_length_le prog treeHas delims
  refine ⟨by trivial, ?_, ?_, fun p hp => dedupSurvivors_treeHas prog treeHas delims p hp⟩
  · have hseg := writeList_segment ((dedupSurvivors prog treeHas delims).map Prod.fst) 0
      delims (by simp only [List.length_map]; omega)
    rw [List.drop_zero] at hseg
    rw [show (dedupSurvivors prog treeHas delims).length =
      ((dedupSurvivors prog treeHas delims).map Prod.fst).length from (List.length_map _ _).symm]
    exact hseg
  · have hseg := writeList_segment ((dedupSurvivors prog treeHas delims).map Prod.snd) 0
      hashes (by simp only [List.length_map]; omega)
    rw [List.drop_zero] at hseg
    rw [show (dedupSurvivors prog treeHas delims).length =
      ((dedupSurvivors prog treeHas delims).map Prod.snd).length from (List.length_map _ _).symm]
    exact hseg

/-- C4 witness: rows `[r1, r2]` with hashes `[h1, h2] = [7, 8]`, h1
already in the tree: only `r2` survives. -/
theorem claim_C4_witness :
    (evaldedupgo (fun _ => (3, fun i => 7 + i)) (fun h => decide (h = 7)) [⟨1, 1⟩, ⟨2, 2⟩]
        [0, 0]).1 =
      (dedupSurvivors (fun _ => (3, fun i => 7 + i)) (fun h => decide (h = 7))
        [⟨1, 1⟩, ⟨2, 2⟩]).length :=
  (claim_C4 (fun _ => (3, fun i => 7 + i)) (fun h => decide (h = 7)) [⟨1, 1⟩, ⟨2, 2⟩] [0, 0]
    (by decide)).1

/-- C4 counterexample: rows `r1, r2` in ONE batch share hash 7 and
the tree is empty; `evaldedupgo` outputs BOTH rows, so the output
does not have at most one row per distinct hash. -/
theorem claim_C4_counterexample :
    ¬ ((((evaldedupgo (fun _ => (3, fun _ => 7)) (fun _ => false) [⟨1, 1⟩, ⟨2, 2⟩]
          [0, 0]).2.2).take
        ((evaldedupgo (fun _ => (3, fun _ => 7)) (fun _ => false) [⟨1, 1⟩, ⟨2, 2⟩]
          [0, 0]).1)).Nodup) := by
  have hspec := evaldedupLoop_spec (fun _ => (3, fun _ => 7)) (fun _ => false) 0 0
    [⟨1, 1⟩, ⟨2, 2⟩] [0, 0] (Nat.le_refl 0)
  have hs : dedupSurvivors (fun _ => (3, fun _ => 7)) (fun _ => false)
      ([⟨1, 1⟩, ⟨2, 2⟩] : List Vmref) = [(⟨1, 1⟩, 7), (⟨2, 2⟩, 7)] := by
    rw [dedupSurvivors]
    rw [dif_neg (by decide)]
    rw [show (([⟨1, 1⟩, ⟨2, 2⟩] : List Vmref).drop bcLaneCount) = [] from by decide]
    rw [dedupSurvivors]
    rw [dif_pos rfl]
    decide
  show ¬ ((((evaldedupLoop (fun _ => (3, fun _ => 7)) (fun _ => false) 0 0
      [⟨1, 1⟩, ⟨2, 2⟩] [0, 0]).2.2).take
      ((evaldedupLoop (fun _ => (3, fun _ => 7)) (fun _ => false) 0 0
      [⟨1, 1⟩, ⟨2, 2⟩] [0, 0]).1)).Nodup)
  rw [hspec]
  simp only [List.drop_zero]
  rw [hs]
  decide

/-! ## Projection driver: `evalprojectgo` -/

/-- One projection item (`syminfo` in the source): the destination
symbol id, the encoded-symbol size hint, and the source value slot. -/
structure Syminfo where
  value : Nat
  size : Nat
  slot : Nat

/-- The struct content size the driver computes for one lane: the sum
of symbol-size hint plus value size over the items whose value is not
MISSING (both sizes non-zero). -/
def contentSizeOf (vals : Nat → Nat → Vmref) (lane : Nat) : List Syminfo → Nat
  | [] => 0
  | s :: ss =>
    (if s.size ≠ 0 ∧ (vals s.slot lane).size ≠ 0 then s.size + (vals s.slot lane).size else 0) +
      contentSizeOf vals lane ss

/-- The bytes one lane's struct body is expected to contain: for each
non-MISSING item, the encoded symbol followed by the value bytes
copied from VM memory. -/
def laneContentBytes (vals : Nat → Nat → Vmref) (lane : Nat) (vmm : List Nat) :
    List Syminfo → List Nat
  | [] => []
  | s :: ss =>
    (if s.size ≠ 0 ∧ (vals s.slot lane).size ≠ 0 then
      encodeSymbol s.value ++
        (vmm.drop (vals s.slot lane).offset).take (vals s.slot lane).size
    else []) ++ laneContentBytes vals lane vmm ss

theorem laneContentBytes_length (vals : Nat → Nat → Vmref) (lane : Nat) (vmm : List Nat)
    (symbols : List Syminfo)
    (hsym : ∀ s ∈ symbols, s.size = (encodeSymbol s.value).length)
    (hval : ∀ s ∈ symbols, (vals s.slot lane).offset + (vals s.slot lane).size ≤ vmm.length) :
    (laneContentBytes vals lane vmm symbols).length = contentSizeOf vals lane symbols := by
  induction symbols with
  | nil => rfl
  | cons s ss ih =>
    rw [laneContentBytes, contentSizeOf]
    have hs := hsym s (List.mem_cons_self _ _)
    have hv := hval s (List.mem_cons_self _ _)
    simp only [List.length_append]
    rw [ih (fun x hx => hsym x (List.mem_cons_of_mem _ hx))
      (fun x hx => hval x (List.mem_cons_of_mem _ hx))]
    congr 1
    split_ifs with hc
    · simp only [List.length_append, List.length_take, List.length_drop]
      omega
    · rfl

/-- Embeds the per-item serialisation loop of `evalprojectgo` (vm):
for each non-MISSING item, `encodeSymbol` writes the symbol into
`dst` at `offset` and the value bytes are copied from `vmm` (Go
`copy` advances by the number of bytes actually copied). -/
def projectFields (vals : Nat → Nat → Vmref) (lane : Nat) (vmm : List Nat) :
    List Syminfo → Nat → List Nat → Nat × List Nat
  | [], offset, dst => (offset, dst)
  | s :: ss, offset, dst =>
    if s.size ≠ 0 ∧ (vals s.slot lane).size ≠ 0 then
      projectFields vals lane vmm ss
        (offset + (encodeSymbol s.value).length +
          min ((vmm.drop (vals s.slot lane).offset).take (vals s.slot lane).size).length
            ((writeList offset (encodeSymbol s.value) dst).length -
              (offset + (encodeSymbol s.value).length)))
        (writeList (offset + (encodeSymbol s.value).length)
          ((vmm.drop (vals s.slot lane).offset).take (vals s.slot lane).size)
          (writeList offset (encodeSymbol s.value) dst))
    else projectFields vals lane vmm ss offset dst

theorem projectFields_spec (vals : Nat → Nat → Vmref) (lane : Nat) (vmm : List Nat)
    (symbols : List Syminfo) (offset : Nat) (dst : List Nat)
    (hfit : offset + (laneContentBytes vals lane vmm symbols).length ≤ dst.length) :
    projectFields vals lane vmm symbols offset dst =
      (offset + (laneContentBytes vals lane vmm symbols).length,
       writeList offset (laneContentBytes vals lane vmm symbols) dst) := by
  induction symbols generalizing offset dst with
  | nil => simp [projectFields, laneContentBytes, writeList]
  | cons s ss ih =>
    rw [projectFields, laneContentBytes]
    rw [laneContentBytes] at hfit
    split_ifs with hc
    · rw [if_pos hc] at hfit
      set enc := encodeSymbol s.value with henc
      set bytes := (vmm.drop (vals s.slot lane).offset).take (vals s.slot lane).size
        with hbytes
      simp only [List.length_append] at hfit
      have hd1 : (writeList offset enc dst).length = dst.length := writeList_length _ _ _
      have hmin : min bytes.length ((writeList offset enc dst).length -
          (offset + enc.length)) = bytes.length := by
        rw [hd1]
        omega
      rw [hmin]
      rw [ih (offset + enc.length + bytes.length) _
        (by rw [writeList_length, writeList_length]; omega)]
      refine congrArg₂ _ (by simp only [List.length_append]; omega) ?_
      rw [← writeList_append, ← writeList_append, List.append_assoc]
    · rw [if_neg hc] at hfit
      simp only [List.nil_append] at hfit
      simpa using ih offset dst hfit

/-- Embeds the per-lane emission loop of `evalprojectgo` (vm): for
each lane of the batch that survives in the output mask, compute the
content size, fail the batch when `capacity - offset < structSize`,
write the TLV header, repoint the lane's delimiter at the struct body
inside `dst` (displaced by `dstDisp`), then serialise the items.
Returns `(ok, offset, dst, delims)`. -/
def projectLanes (symbols : List Syminfo) (vals : Nat → Nat → Vmref) (outmask : Nat)
    (vmm : List Nat) (dstDisp rowsProcessed n : Nat) :
    Nat → Nat → List Nat → List Vmref → Bool × Nat × List Nat × List Vmref :=
  fun lane offset dst delims =>
  if h : lane < n then
    if outmask / 2 ^ lane % 2 = 1 then
      if dst.length - offset <
          getTLVSize (contentSizeOf vals lane symbols) + contentSizeOf vals lane symbols then
        (false, offset, dst, delims)
      else
        projectLanes symbols vals outmask vmm dstDisp rowsProcessed n (lane + 1)
          (projectFields vals lane vmm symbols
            (offset + (encodeTLVUnsafe StructType (contentSizeOf vals lane symbols)).length)
            (writeList offset (encodeTLVUnsafe StructType (contentSizeOf vals lane symbols))
              dst)).1
          (projectFields vals lane vmm symbols
            (offset + (encodeTLVUnsafe StructType (contentSizeOf vals lane symbols)).length)
            (writeList offset (encodeTLVUnsafe StructType (contentSizeOf vals lane symbols))
              dst)).2
          (delims.set (rowsProcessed + lane)
            ⟨dstDisp +
              (offset + (encodeTLVUnsafe StructType (contentSizeOf vals lane symbols)).length),
             contentSizeOf vals lane symbols⟩)
    else projectLanes symbols vals outmask vmm dstDisp rowsProcessed n (lane + 1) offset dst
      delims
  else (true, offset, dst, delims)
termination_by lane => n - lane

/-- Reference recursion for the lane loop: the bytes a batch appends
to the output, or `none` when some surviving lane does not fit. -/
def projectLanesSpec (symbols : List Syminfo) (vals : Nat → Nat → Vmref) (outmask : Nat)
    (vmm : List Nat) (capacity n : Nat) : Nat → List Nat → Option (List Nat) :=
  fun lane acc =>
  if h : lane < n then
    if outmask / 2 ^ lane % 2 = 1 then
      if capacity - acc.length <
          getTLVSize (contentSizeOf vals lane symbols) + contentSizeOf vals lane symbols then
        none
      else
        projectLanesSpec symbols vals outmask vmm capacity n (lane + 1)
          (acc ++ encodeTLVUnsafe StructType (contentSizeOf vals lane symbols) ++
            laneContentBytes vals lane vmm symbols)
    else projectLanesSpec symbols vals outmask vmm capacity n (lane + 1) acc
  else some acc
termination_by lane _ => n - lane

theorem writeList_take_append {α : Type} (xs : List α) (j : Nat) (l : List α)
    (h : j + xs.length ≤ l.length) :
    (writeList j xs l).take (j + xs.length) = l.take j ++ xs := by
  rw [List.take_add, writeList_take_of_le xs j j l (Nat.le_refl j), writeList_segment xs j l h]

theorem projectLanes_spec (symbols : List Syminfo) (vals : Nat → Nat → Vmref) (outmask : Nat)
    (vmm : List Nat) (dstDisp rowsProcessed n : Nat) (lane : Nat) (dst : List Nat)
    (delims : List Vmref) (acc : List Nat)
    (hpre : dst.take acc.length = acc)
    (hsym : ∀ s ∈ symbols, s.size = (encodeSymbol s.value).length)
    (hval : ∀ s ∈ symbols, ∀ lane',
      (vals s.slot lane').offset + (vals s.slot lane').size ≤ vmm.length)
    (hsize : ∀ lane', contentSizeOf vals lane' symbols < 268435456) :
    (∀ acc', projectLanesSpec symbols vals outmask vmm dst.length n lane acc = some acc' →
      ∃ dst' delims',
        projectLanes symbols vals outmask vmm dstDisp rowsProcessed n lane acc.length dst
            delims = (true, acc'.length, dst', delims') ∧
        dst'.take acc'.length = acc' ∧ dst'.length = dst.length ∧
        delims'.drop (rowsProcessed + n) = delims.drop (rowsProcessed + n) ∧
        delims'.length = delims.length) ∧
    (projectLanesSpec symbols vals outmask vmm dst.length n lane acc = none →
      (projectLanes symbols vals outmask vmm dstDisp rowsProcessed n lane acc.length dst
          delims).1 = false ∧
      (projectLanes symbols vals outmask vmm dstDisp rowsProcessed n lane acc.length dst
          delims).2.2.1.take acc.length = acc ∧
      (projectLanes symbols vals outmask vmm dstDisp rowsProcessed n lane acc.length dst
          delims).2.2.1.length = dst.length) := by
  generalize hm : n - lane = m
  induction m generalizing lane dst delims acc with
  | zero =>
    rw [projectLanesSpec, projectLanes]
    rw [dif_neg (by omega), dif_neg (by omega)]
    constructor
    · intro acc' hacc
      simp only [Option.some.injEq] at hacc
      subst hacc
      exact ⟨dst, delims, rfl, hpre, rfl, rfl, rfl⟩
    · intro hnone
      simp at hnone
  | succ m ih =>
    rw [projectLanesSpec, projectLanes]
    have hlt : lane < n := by omega
    rw [dif_pos hlt, dif_pos hlt]
    by_cases hbit : outmask / 2 ^ lane % 2 = 1
    · rw [if_pos hbit, if_pos hbit]
      by_cases hfull : dst.length - acc.length <
          getTLVSize (contentSizeOf vals lane symbols) + contentSizeOf vals lane symbols
      · rw [if_pos hfull, if_pos hfull]
        constructor
        · intro acc' hacc
          simp at hacc
        · intro hnone
          exact ⟨rfl, hpre, rfl⟩
      · rw [if_neg hfull, if_neg hfull]
        set c := contentSizeOf vals lane symbols with hc
        have hcs : c < 268435456 := hsize lane
        have hhl : (encodeTLVUnsafe StructType c).length = getTLVSize c :=
          encodeTLVUnsafe_length _ _ hcs
        have hcl : (laneContentBytes vals lane vmm symbols).length = c :=
          laneContentBytes_length vals lane vmm symbols hsym (fun s hs => hval s hs lane)
        have hle : acc.length ≤ dst.length := by
          have h0 := congrArg List.length hpre
          simp only [List.length_take] at h0
          omega
        have hfit2 : acc.length + (encodeTLVUnsafe StructType c).length +
            (laneContentBytes vals lane vmm symbols).length ≤ dst.length := by
          rw [hhl, hcl]
          omega
        rw [projectFields_spec vals lane vmm symbols
          (acc.length + (encodeTLVUnsafe StructType c).length)
          (writeList acc.length (encodeTLVUnsafe StructType c) dst)
          (by rw [writeList_length]; omega)]
        simp only
        set acc1 := acc ++ encodeTLVUnsafe StructType c ++ laneContentBytes vals lane vmm
          symbols with hacc1
        have hlen1 : acc1.length = acc.length + (encodeTLVUnsafe StructType c).length +
            (laneContentBytes vals lane vmm symbols).length := by
          rw [hacc1]
          simp only [List.length_append]
        have hdst1 : writeList (acc.length + (encodeTLVUnsafe StructType c).length)
            (laneContentBytes vals lane vmm symbols)
            (writeList acc.length (encodeTLVUnsafe StructType c) dst) =
            writeList acc.length (encodeTLVUnsafe StructType c ++
              laneContentBytes vals lane vmm symbols) dst := by
          rw [writeList_append]
        have hpre1 : (writeList acc.length (encodeTLVUnsafe StructType c ++
            laneContentBytes vals lane vmm symbols) dst).take acc1.length = acc1 := by
          have h2 := writeList_take_append (encodeTLVUnsafe StructType c ++
            laneContentBytes vals lane vmm symbols) acc.length dst
            (by simp only [List.length_append]; omega)
          rw [hpre] at h2
          rw [hlen1,
            show acc.length + (encodeTLVUnsafe StructType c).length +
                (laneContentBytes vals lane vmm symbols).length =
              acc.length + (encodeTLVUnsafe StructType c ++
                laneContentBytes vals lane vmm symbols).length from by
              simp only [List.length_append]; omega,
            h2, hacc1, List.append_assoc]
        have hrec := ih (lane + 1)
          (writeList acc.length (encodeTLVUnsafe StructType c ++
            laneContentBytes vals lane vmm symbols) dst)
          (delims.set (rowsProcessed + lane)
            ⟨dstDisp + (acc.length + (encodeTLVUnsafe StructType c).length), c⟩)
          acc1 hpre1 (show n - (lane + 1) = m by omega)
        rw [writeList_length] at hrec
        constructor
        · intro acc' hacc
          obtain ⟨dst', delims', heq, hp1, hp2, hp3, hp4⟩ := hrec.1 acc'
            (by rw [← hacc])
          refine ⟨dst', delims', ?_, hp1, by rw [hp2], ?_, ?_⟩
          · rw [hdst1, ← hlen1]
            exact heq
          · rw [hp3, List.drop_set, if_pos (by omega)]
          · rw [hp4, List.length_set]
        · intro hnone
          have hnone' := hrec.2 (by rw [← hnone])
          obtain ⟨hq1, hq2, hq3⟩ := hnone'
          refine ⟨?_, ?_, ?_⟩
          · rw [hdst1, ← hlen1]
            exact hq1
          · have : (projectLanes symbols vals outmask vmm dstDisp rowsProcessed n (lane + 1)
                acc1.length
                (writeList acc.length (encodeTLVUnsafe StructType c ++
                  laneContentBytes vals lane vmm symbols) dst)
                (delims.set (rowsProcessed + lane)
                  ⟨dstDisp + (acc.length + (encodeTLVUnsafe StructType c).length),
                   c⟩)).2.2.1.take acc.length = acc := by
              have htk : acc1.take acc.length = acc := by
                rw [hacc1, List.append_assoc, List.take_append_of_le_length (Nat.le_refl _)]
                simp [List.take_length]
              calc _ = ((projectLanes symbols vals outmask vmm dstDisp rowsProcessed n
                    (lane + 1) acc1.length
                    (writeList acc.length (encodeTLVUnsafe StructType c ++
                      laneContentBytes vals lane vmm symbols) dst)
                    (delims.set (rowsProcessed + lane)
                      ⟨dstDisp + (acc.length + (encodeTLVUnsafe StructType c).length),
                       c⟩)).2.2.1.take acc1.length).take acc.length := by
                    rw [List.take_take, Nat.min_eq_left (by rw [hlen1]; omega)]
                _ = acc1.take acc.length := by rw [hq2]
                _ = acc := htk
            rw [hdst1, ← hlen1]
            exact this
          · rw [hdst1, ← hlen1]
            exact hq3
    · rw [if_neg hbit, if_neg hbit]
      exact ih (lane + 1) dst delims acc hpre (by omega)

theorem projectLanes_delims_length (symbols : List Syminfo) (vals : Nat → Nat → Vmref)
    (outmask : Nat) (vmm : List Nat) (dstDisp rowsProcessed n : Nat) (lane offset : Nat)
    (dst : List Nat) (delims : List Vmref) :
    (projectLanes symbols vals outmask vmm dstDisp rowsProcessed n lane offset dst
      delims).2.2.2.length = delims.length := by
  generalize hm : n - lane = m
  induction m generalizing lane offset dst delims with
  | zero =>
    rw [projectLanes, dif_neg (by omega)]
  | succ m ih =>
    rw [projectLanes, dif_pos (by omega)]
    split_ifs
    · rfl
    · rw [ih _ _ _ _ (by omega), List.length_set]
    · exact ih _ _ _ _ (by omega)

/-- Embeds the outer batch loop of `evalprojectgo` (vm): per batch,
capture `initialDstLength`, evaluate the program (modelled by `prog`
returning the output mask and the slot values), emit the surviving
lanes; a failed batch returns the pre-batch offset and row count
(its partial output is left beyond the returned offset). -/
def evalprojectLoop (prog : List Vmref → Nat × (Nat → Nat → Vmref)) (symbols : List Syminfo)
    (dstDisp : Nat) (vmm : List Nat) (rowsProcessed offset : Nat) (delims : List Vmref)
    (dst : List Nat) : Nat × Nat × List Nat × List Vmref :=
  if h : rowsProcessed < delims.length then
    if (projectLanes symbols (prog ((delims.drop rowsProcessed).take bcLaneCount)).2
        (prog ((delims.drop rowsProcessed).take bcLaneCount)).1 vmm dstDisp rowsProcessed
        ((delims.drop rowsProcessed).take bcLaneCount).length 0 offset dst delims).1 = true then
      evalprojectLoop prog symbols dstDisp vmm
        (rowsProcessed + ((delims.drop rowsProcessed).take bcLaneCount).length)
        (projectLanes symbols (prog ((delims.drop rowsProcessed).take bcLaneCount)).2
          (prog ((delims.drop rowsProcessed).take bcLaneCount)).1 vmm dstDisp rowsProcessed
          ((delims.drop rowsProcessed).take bcLaneCount).length 0 offset dst delims).2.1
        (projectLanes symbols (prog ((delims.drop rowsProcessed).take bcLaneCount)).2
          (prog ((delims.drop rowsProcessed).take bcLaneCount)).1 vmm dstDisp rowsProcessed
          ((delims.drop rowsProcessed).take bcLaneCount).length 0 offset dst delims).2.2.2
        (projectLanes symbols (prog ((delims.drop rowsProcessed).take bcLaneCount)).2
          (prog ((delims.drop rowsProcessed).take bcLaneCount)).1 vmm dstDisp rowsProcessed
          ((delims.drop rowsProcessed).take bcLaneCount).length 0 offset dst delims).2.2.1
    else
      (offset, rowsProcessed,
       (projectLanes symbols (prog ((delims.drop rowsProcessed).take bcLaneCount)).2
          (prog ((delims.drop rowsProcessed).take bcLaneCount)).1 vmm dstDisp rowsProcessed
          ((delims.drop rowsProcessed).take bcLaneCount).length 0 offset dst delims).2.2.1,
       (projectLanes symbols (prog ((delims.drop rowsProcessed).take bcLaneCount)).2
          (prog ((delims.drop rowsProcessed).take bcLaneCount)).1 vmm dstDisp rowsProcessed
          ((delims.drop rowsProcessed).take bcLaneCount).length 0 offset dst delims).2.2.2)
  else (offset, rowsProcessed, dst, delims)
termination_by delims.length - rowsProcessed
decreasing_by
  have h1 := projectLanes_delims_length symbols
    (prog ((delims.drop rowsProcessed).take bcLaneCount)).2
    (prog ((delims.drop rowsProcessed).take bcLaneCount)).1 vmm dstDisp rowsProcessed
    ((delims.drop rowsProcessed).take bcLaneCount).length 0 offset dst delims
  have h2 : 1 ≤ ((delims.drop rowsProcessed).take bcLaneCount).length := by
    simp only [List.length_take, List.length_drop]
    unfold bcLaneCount
    omega
  omega

/-- Embeds `evalprojectgo` (vm). -/
def evalprojectgo (prog : List Vmref → Nat × (Nat → Nat → Vmref)) (symbols : List Syminfo)
    (dstDisp : Nat) (vmm : List Nat) (delims : List Vmref) (dst : List Nat) :
    Nat × Nat × List Nat × List Vmref :=
  evalprojectLoop prog symbols dstDisp vmm 0 0 delims dst

/-- Reference recursion for the whole projection pass: the bytes the
pass appends (given a capacity) and the number of rows processed; a
batch whose lanes do not fit stops the pass, discarding that batch's
output. -/
def projectSpec (prog : List Vmref → Nat × (Nat → Nat → Vmref)) (symbols : List Syminfo)
    (vmm : List Nat) (capacity : Nat) (l : List Vmref) (acc : List Nat) : List Nat × Nat :=
  if h : l = [] then (acc, 0)
  else
    match projectLanesSpec symbols (prog (l.take bcLaneCount)).2 (prog (l.take bcLaneCount)).1
        vmm capacity (l.take bcLaneCount).length 0 acc with
    | none => (acc, 0)
    | some acc1 =>
      ((projectSpec prog symbols vmm capacity (l.drop bcLaneCount) acc1).1,
       (l.take bcLaneCount).length +
         (projectSpec prog symbols vmm capacity (l.drop bcLaneCount) acc1).2)
termination_by l.length
decreasing_by
  have : 0 < l.length := List.length_pos.mpr h
  simp only [List.length_drop]
  unfold bcLaneCount
  omega

theorem evalprojectLoop_spec (prog : List Vmref → Nat × (Nat → Nat → Vmref))
    (symbols : List Syminfo) (dstDisp : Nat) (vmm : List Nat) (rows : Nat)
    (delims : List Vmref) (dst : List Nat) (acc : List Nat)
    (hpre : dst.take acc.length = acc)
    (hsym : ∀ s ∈ symbols, s.size = (encodeSymbol s.value).length)
    (hval : ∀ x, ∀ s ∈ symbols, ∀ lane,
      ((prog x).2 s.slot lane).offset + ((prog x).2 s.slot lane).size ≤ vmm.length)
    (hsize : ∀ x lane, contentSizeOf (prog x).2 lane symbols < 268435456) :
    (evalprojectLoop prog symbols dstDisp vmm rows acc.length delims dst).1 =
      (projectSpec prog symbols vmm dst.length (delims.drop rows) acc).1.length ∧
    (evalprojectLoop prog symbols dstDisp vmm rows acc.length delims dst).2.1 =
      rows + (projectSpec prog symbols vmm dst.length (delims.drop rows) acc).2 ∧
    (evalprojectLoop prog symbols dstDisp vmm rows acc.length delims dst).2.2.1.take
        (projectSpec prog symbols vmm dst.length (delims.drop rows) acc).1.length =
      (projectSpec prog symbols vmm dst.length (delims.drop rows) acc).1 ∧
    (evalprojectLoop prog symbols dstDisp vmm rows acc.length delims dst).2.2.1.length =
      dst.length := by
  generalize hn : delims.length - rows = n0
  induction n0 using Nat.strong_induction_on generalizing rows delims dst acc with
  | _ n0 ih =>
    by_cases hlt : rows < delims.length
    · have hlne : delims.drop rows ≠ [] := by
        intro hc
        have := congrArg List.length hc
        simp only [List.length_drop, List.length_nil] at this
        omega
      rw [evalprojectLoop, projectSpec]
      rw [dif_pos hlt, dif_neg hlne]
      set batch := (delims.drop rows).take bcLaneCount with hbatch
      have hnl : batch.length = min bcLaneCount (delims.length - rows) := by
        rw [hbatch]
        simp [List.length_take, List.length_drop]
      have hnl1 : 1 ≤ batch.length := by
        rw [hnl]
        unfold bcLaneCount
        omega
      have hnlle : rows + batch.length ≤ delims.length := by
        rw [hnl]
        omega
      have hrel := projectLanes_spec symbols (prog batch).2 (prog batch).1 vmm dstDisp rows
        batch.length 0 dst delims acc hpre hsym
        (fun s hs lane => hval batch s hs lane) (fun lane => hsize batch lane)
      cases hS : projectLanesSpec symbols (prog batch).2 (prog batch).1 vmm dst.length
          batch.length 0 acc with
      | some acc1 =>
        obtain ⟨dst1, delims1, heq, hp1, hp2, hp3, hp4⟩ := hrel.1 acc1 hS
        rw [heq, if_pos rfl]
        simp only []
        have hrec := ih (delims1.length - (rows + batch.length))
          (by rw [hp4]; omega)
          (rows + batch.length) delims1 dst1 acc1 hp1 rfl
        have hdseq : delims1.drop (rows + batch.length) = (delims.drop rows).drop
            bcLaneCount := by
          rw [hp3, drop_take_drop]
        rw [hdseq, hp2] at hrec
        refine ⟨hrec.1, ?_, hrec.2.2.1, hrec.2.2.2⟩
        rw [hrec.2.1]
        omega
      | none =>
        obtain ⟨hq1, hq2, hq3⟩ := hrel.2 hS
        rw [if_neg (by rw [hq1]; exact Bool.false_ne_true)]
        simp only []
        refine ⟨?_, ?_, ?_, ?_⟩
        · simp
        · simp
        · exact hq2
        · exact hq3
    · have hend : delims.drop rows = [] := List.drop_eq_nil_of_le (by omega)
      rw [evalprojectLoop, projectSpec]
      rw [dif_neg hlt, dif_pos hend]
      exact ⟨rfl, by simp, hpre, rfl⟩

/-- C5: the projection driver `evalprojectgo` returns the number of
bytes written and rows processed according to the reference recursion
`projectSpec`: each surviving lane appends a struct TLV header
followed by exactly the non-MISSING projection items (symbol then
value bytes), and a batch whose lanes do not fit is discarded, the
pre-batch offset and row count being returned. The header advertises
the true content length: the emitted body's length equals the content
size the header encodes, and reading the TLV back yields exactly the
body. -/
theorem claim_C5 (prog : List Vmref → Nat × (Nat → Nat → Vmref)) (symbols : List Syminfo)
    (dstDisp : Nat) (vmm : List Nat) (delims : List Vmref) (dst : List Nat)
    (hsym : ∀ s ∈ symbols, s.size = (encodeSymbol s.value).length)
    (hval : ∀ x, ∀ s ∈ symbols, ∀ lane,
      ((prog x).2 s.slot lane).offset + ((prog x).2 s.slot lane).size ≤ vmm.length)
    (hsize : ∀ x lane, contentSizeOf (prog x).2 lane symbols < 268435456) :
    ((evalprojectgo prog symbols dstDisp vmm delims dst).1 =
        (projectSpec prog symbols vmm dst.length delims []).1.length ∧
      (evalprojectgo prog symbols dstDisp vmm delims dst).2.1 =
        (projectSpec prog symbols vmm dst.length delims []).2 ∧
      (evalprojectgo prog symbols dstDisp vmm delims dst).2.2.1.take
          (projectSpec prog symbols vmm dst.length delims []).1.length =
        (projectSpec prog symbols vmm dst.length delims []).1) ∧
    (∀ x lane,
      (laneContentBytes (prog x).2 lane vmm symbols).length =
        contentSizeOf (prog x).2 lane symbols ∧
      ∀ r, contents (encodeTLVUnsafe StructType (contentSizeOf (prog x).2 lane symbols) ++
          (laneContentBytes (prog x).2 lane vmm symbols ++ r)) =
        laneContentBytes (prog x).2 lane vmm symbols) := by
  have hmain := evalprojectLoop_spec prog symbols dstDisp vmm 0 delims dst []
    (by simp) hsym hval hsize
  simp only [List.length_nil, List.drop_zero, Nat.zero_add] at hmain
  refine ⟨⟨hmain.1, hmain.2.1, hmain.2.2.1⟩, ?_⟩
  intro x lane
  refine ⟨laneContentBytes_length _ _ _ _ hsym (fun s hs => hval x s hs lane), ?_⟩
  intro r
  exact contents_encodeTLVUnsafe StructType _ (by decide) (hsize x lane) _ r
    (laneContentBytes_length _ _ _ _ hsym (fun s hs => hval x s hs lane))

def c5prog : List Vmref → Nat × (Nat → Nat → Vmref) :=
  fun x => (1, fun slot lane => if slot = 0 then ⟨0, 2⟩ else ⟨0, 0⟩)

def c5symbols : List Syminfo := [⟨10, 1, 0⟩, ⟨11, 1, 1⟩]

theorem claim_C5_witness :
    (∀ s ∈ c5symbols, s.size = (encodeSymbol s.value).length) ∧
    (∀ x, ∀ s ∈ c5symbols, ∀ lane,
      ((c5prog x).2 s.slot lane).offset + ((c5prog x).2 s.slot lane).size ≤
        ([33, 1] : List Nat).length) ∧
    (∀ x lane, contentSizeOf (c5prog x).2 lane c5symbols < 268435456) ∧
    (((evalprojectgo c5prog c5symbols 0 [33, 1] [⟨0, 0⟩] [0, 0, 0, 0]).1 =
        (projectSpec c5prog c5symbols [33, 1]
          ([0, 0, 0, 0] : List Nat).length [⟨0, 0⟩] []).1.length ∧
      (evalprojectgo c5prog c5symbols 0 [33, 1] [⟨0, 0⟩] [0, 0, 0, 0]).2.1 =
        (projectSpec c5prog c5symbols [33, 1]
          ([0, 0, 0, 0] : List Nat).length [⟨0, 0⟩] []).2 ∧
      (evalprojectgo c5prog c5symbols 0 [33, 1] [⟨0, 0⟩] [0, 0, 0, 0]).2.2.1.take
          (projectSpec c5prog c5symbols [33, 1]
            ([0, 0, 0, 0] : List Nat).length [⟨0, 0⟩] []).1.length =
        (projectSpec c5prog c5symbols [33, 1]
          ([0, 0, 0, 0] : List Nat).length [⟨0, 0⟩] []).1) ∧
    (∀ x lane,
      (laneContentBytes (c5prog x).2 lane [33, 1] c5symbols).length =
        contentSizeOf (c5prog x).2 lane c5symbols ∧
      ∀ r, contents (encodeTLVUnsafe StructType
            (contentSizeOf (c5prog x).2 lane c5symbols) ++
          (laneContentBytes (c5prog x).2 lane [33, 1] c5symbols ++ r)) =
        laneContentBytes (c5prog x).2 lane [33, 1] c5symbols)) := by
  refine ⟨by decide, ?_, ?_, ?_⟩
  · intro x s hs lane
    simp only [c5symbols, List.mem_cons, List.mem_singleton] at hs
    rcases hs with rfl | rfl | hs
    · simp [c5prog]
    · simp [c5prog]
    · simp at hs
  · intro x lane
    simp [c5prog, c5symbols, contentSizeOf]
  · exact claim_C5 c5prog c5symbols 0 [33, 1] [⟨0, 0⟩] [0, 0, 0, 0]
      (by decide)
      (by
        intro x s hs lane
        simp only [c5symbols, List.mem_cons, List.mem_singleton] at hs
        rcases hs with rfl | rfl | hs
        · simp [c5prog]
        · simp [c5prog]
        · simp at hs)
      (by
        intro x lane
        simp [c5prog, c5symbols, contentSizeOf])

/-- Embeds the ion `Datum` (part_000): a symbol-table alias (each
symbol is a byte string) and the datum's raw bytes. -/
structure Datum where
  st : List (List Nat)
  buf : List Nat
deriving DecidableEq

/-- `Empty` is the zero value of a `Datum` (part_000). -/
def Datum.Empty : Datum := ⟨[], []⟩

/-- Embeds `Datum.IsEmpty` (part_000): the buffer is empty. -/
def Datum.IsEmpty (d : Datum) : Bool := d.buf.length == 0

/-- Modelled from the spec: the 4-byte binary version marker
resetting the symbol table (spec sections 4.1 and 4.8). -/
def IsBVM (buf : List Nat) : Bool :=
  match buf with
  | 224 :: 1 :: 0 :: 234 :: _ => true
  | _ => false

/-- Embeds the control flow of `ReadDatum` (part_000); the symbol
table type, the symbol-table reader `unmarshal` (spec section 4.1:
consumes a BVM or symbol-table prefix and updates the table) and
the per-type decoder table are parameters. Returns the updated
symbol table, the datum, the remaining bytes and the error. -/
def ReadDatum {σ ε : Type} (unmarshal : σ → List Nat → Except ε (σ × List Nat))
    (table : Nat → σ → List Nat → Datum × List Nat × Option ε)
    (st : σ) (buf : List Nat) : σ × Datum × List Nat × Option ε :=
  if IsBVM buf = true ∨ typeNib (buf.headD 0) = AnnotType then
    match unmarshal st buf with
    | Except.error e => (st, Datum.Empty, [], some e)
    | Except.ok (st1, buf1) =>
      if buf1.length = 0 then (st1, Datum.Empty, buf1, none)
      else (st1, table (typeNib (buf1.headD 0)) st1 buf1)
  else (st, table (typeNib (buf.headD 0)) st buf)

/-- C10: when the buffer is a BVM and/or symbol-table prefix that the
symbol-table reader consumes entirely (empty remainder), `ReadDatum`
returns the updated symbol table, the `Empty` zero datum and no
error - it does not report an error - and `Empty` is recognised by
`IsEmpty`. -/
theorem claim_C10 {σ ε : Type} (unmarshal : σ → List Nat → Except ε (σ × List Nat))
    (table : Nat → σ → List Nat → Datum × List Nat × Option ε)
    (st st1 : σ) (buf : List Nat)
    (hpre : IsBVM buf = true ∨ typeNib (buf.headD 0) = AnnotType)
    (hun : unmarshal st buf = Except.ok (st1, [])) :
    ReadDatum unmarshal table st buf = (st1, Datum.Empty, [], none) ∧
    Datum.Empty.IsEmpty = true := by
  refine ⟨?_, rfl⟩
  rw [ReadDatum, if_pos hpre, hun]
  simp

theorem claim_C10_witness :
    ((IsBVM [224, 1, 0, 234] = true ∨ typeNib (([224, 1, 0, 234] : List Nat).headD 0) =
        AnnotType) ∧
      (fun (st : Nat) (b : List Nat) => (Except.ok (st + 1, []) : Except Unit (Nat × List Nat)))
          0 [224, 1, 0, 234] = Except.ok (1, [])) ∧
    (ReadDatum (fun (st : Nat) (b : List Nat) =>
          (Except.ok (st + 1, []) : Except Unit (Nat × List Nat)))
        (fun t st b => (Datum.Empty, [], none)) 0 [224, 1, 0, 234] =
        (1, Datum.Empty, [], none) ∧
      Datum.Empty.IsEmpty = true) :=
  ⟨⟨by decide, rfl⟩,
   claim_C10 (fun st b => (Except.ok (st + 1, []) : Except Unit (Nat × List Nat)))
     (fun t st b => (Datum.Empty, [], none)) 0 1 [224, 1, 0, 234]
     (by decide) rfl⟩

/-! ## Datum.Equal (ion) -/

/-- Modelled from the spec (section 3): the symbol-table handle maps
symbol ids to strings by position (`Symtab.Lookup`; the table is an
ordered mapping from SymbolId to string). -/
def stLookup (st : List (List Nat)) (sym : Nat) : Option (List Nat) := st.get? sym

/-- Modelled from the spec (section 4.2 fast path): one table contains
the other when the second is a prefix of the first
(`stcontains`). -/
def stcontains (a b : List (List Nat)) : Bool := b.isPrefixOf a

/-- Embeds `stoverlap` (part_000): either table contains the other. -/
def stoverlap (a b : List (List Nat)) : Bool := stcontains a b || stcontains b a

/-- Modelled from the spec (section 3: bool carries its value in the
length code): `ReadBool`. -/
def ReadBool (buf : List Nat) : Bool := lenNib (buf.headD 0) == 1

/-- Modelled from the spec (section 4.1 read-symbol): a symbol body is
a big-endian unsigned magnitude. -/
def ReadSymbol (buf : List Nat) : Nat := ReadUint buf

/-- Embeds `Datum.Type` (part_000): `InvalidType` (16) on an empty
buffer, otherwise the type nibble of the first byte. -/
def dType (d : Datum) : Nat := if d.buf = [] then 16 else typeNib (d.buf.headD 0)

/-- `d.Float()`: the decoded binary64 value. -/
def dFloat (d : Datum) : F64 := ReadFloat64 d.buf

/-- `d.Int()`: the decoded signed value (`ReadInt`). -/
def dInt (d : Datum) : Int := ReadInt d.buf

/-- `d.Uint()`: the decoded unsigned value (`ReadUint`). -/
def dUint (d : Datum) : Nat := ReadUint d.buf

/-- The Go `==` on two float64 values: equal sign/payload, and NaN
equals nothing (note the two IEEE zeros are the same rational in this
model, matching `+0.0 == -0.0`). -/
def F64.feq : F64 → F64 → Bool
  | .inf s, .inf t => s == t
  | .finite a, .finite b => a == b
  | _, _ => false

/-- `math.IsNaN`. -/
def F64.isNaN : F64 → Bool
  | .nan => true
  | _ => false

/-- The Go float-to-integer conversion truncates toward zero. -/
def ratTrunc (q : ℚ) : Int := if q < 0 then -(Int.floor (-q)) else Int.floor q

/-- The Go conversion `int64(f)` for an f64 operand: truncation toward
zero.  NaN/infinity (and out-of-range magnitudes) are not defined by
the Go specification; those cases are unreachable in the proved
claims, and the model returns the truncation (0 for NaN/Inf). -/
def f64ToI64 : F64 → Int
  | .finite q => ratTrunc q
  | _ => 0

/-- The Go conversion `uint64(f)`: truncation, negative values giving
0 here (undefined in Go; unreachable in the proved claims because the
surrounding comparison already fails). -/
def f64ToU64 : F64 → Nat
  | .finite q => (ratTrunc q).toNat
  | _ => 0

/-- The Go conversion `float64(u)` of a `uint64`: round to nearest,
ties to even. -/
def u64ToF64 (u : Nat) : F64 := .finite ((roundSig53 u : Nat) : ℚ)

/-- Embeds `Struct.Empty` and `List.empty` (part_000, identical
bodies): no bytes, or an empty body. -/
def compEmpty (d : Datum) : Bool := d.buf.isEmpty || (contents d.buf).isEmpty

/-- Embeds the field iteration of `Struct.Fields`/`Struct.Each`
(part_000): read the varuint label (`ReadLabel`), resolve it in the
symbol table, then take the value's span (`ReadDatum` hands the field
value back as a datum aliasing the struct's symbol table and spanning
`SizeOf` bytes).  A malformed tail (failed varuint, unknown symbol, or
a span of zero or beyond the buffer, which `ReadDatum` reports as an
error) ends the iteration with the fields parsed so far, as
`Struct.Fields` discards the iteration error. -/
def fieldsOf (st : List (List Nat)) (body : List Nat) : List (List Nat × Datum) :=
  match h : ReadLabel body with
  | none => []
  | some (sym, rest) =>
    match stLookup st sym with
    | none => []
    | some name =>
      if hs : 1 ≤ sizeOf rest ∧ sizeOf rest ≤ rest.length then
        (name, ⟨st, rest.take (sizeOf rest)⟩) :: fieldsOf st (rest.drop (sizeOf rest))
      else []
termination_by body.length
decreasing_by
  have := readVaruint_length_lt body 0 sym rest h
  simp only [List.length_drop]
  omega

/-- Embeds the item iteration of `List.Items`/`List.Each` (part_000):
each element spans `SizeOf` bytes and aliases the list's symbol
table; a malformed tail ends the iteration. -/
def itemsOf (st : List (List Nat)) (body : List Nat) : List Datum :=
  if hs : 1 ≤ sizeOf body ∧ sizeOf body ≤ body.length then
    (⟨st, body.take (sizeOf body)⟩ : Datum) :: itemsOf st (body.drop (sizeOf body))
  else []
termination_by body.length
decreasing_by
  simp only [List.length_drop]
  omega

/-- Lexicographic byte order: the Go `<` on label strings. -/
def labelLt : List Nat → List Nat → Bool
  | [], [] => false
  | [], _ :: _ => true
  | _ :: _, [] => false
  | a :: as1, b :: bs1 => if a < b then true else if b < a then false else labelLt as1 bs1

/-- One insertion step of the sort `Struct.Equal` performs on the
field lists (the source's unstable `slices.SortFunc` and this
insertion sort agree whenever labels are distinct, the only case the
claims use). -/
def insertField (f : List Nat × Datum) : List (List Nat × Datum) → List (List Nat × Datum)
  | [] => [f]
  | g :: rest => if labelLt f.1 g.1 then f :: g :: rest else g :: insertField f rest

/-- Sort a field list by label (see `insertField`). -/
def sortFields : List (List Nat × Datum) → List (List Nat × Datum)
  | [] => []
  | f :: rest => insertField f (sortFields rest)

/-- Sum of the value-buffer lengths of a field list (the termination
measure of the mutual equality recursion). -/
def fsum (l : List (List Nat × Datum)) : Nat := (l.map (fun f => f.2.buf.length)).sum

/-- Sum of the buffer lengths of a datum list. -/
def dsum (l : List Datum) : Nat := (l.map (fun d => d.buf.length)).sum

theorem headerSizeOf_pos (buf : List Nat) (h : buf ≠ []) : 1 ≤ headerSizeOf buf := by
  match buf with
  | b :: rest =>
    rw [headerSizeOf]
    split_ifs
    · split <;> omega
    · omega

theorem contents_length_lt (buf : List Nat) (h : buf ≠ []) :
    (contents buf).length < buf.length := by
  have h1 := headerSizeOf_pos buf h
  have h2 : 0 < buf.length := List.length_pos.mpr h
  rw [contents]
  simp only [List.length_take, List.length_drop]
  omega

theorem fieldsOf_bound (st : List (List Nat)) (body : List Nat) :
    fsum (fieldsOf st body) + (fieldsOf st body).length ≤ body.length := by
  generalize hn : body.length = n
  induction n using Nat.strong_induction_on generalizing body with
  | _ n ih =>
    rw [fieldsOf]
    split
    · simp [fsum]
    · rename_i sym rest h
      split
      · simp [fsum]
      · split
        · rename_i name hname hs
          have hrest := readVaruint_length_lt body 0 sym rest h
          have hrec := ih (rest.drop (sizeOf rest)).length (by simp; omega)
            (rest.drop (sizeOf rest)) rfl
          simp only [fsum, List.map_cons, List.sum_cons, List.length_cons]
          simp only [fsum] at hrec
          simp only [List.length_take, List.length_drop] at hrec ⊢
          omega
        · simp [fsum]

theorem itemsOf_bound (st : List (List Nat)) (body : List Nat) :
    dsum (itemsOf st body) ≤ body.length := by
  generalize hn : body.length = n
  induction n using Nat.strong_induction_on generalizing body with
  | _ n ih =>
    rw [itemsOf]
    split
    · rename_i hs
      have hrec := ih (body.drop (sizeOf body)).length (by simp; omega)
        (body.drop (sizeOf body)) rfl
      simp only [dsum, List.map_cons, List.sum_cons]
      simp only [dsum] at hrec
      simp only [List.length_take, List.length_drop] at hrec ⊢
      omega
    · simp [dsum]

theorem insertField_fsum (f : List Nat × Datum) (l : List (List Nat × Datum)) :
    fsum (insertField f l) = f.2.buf.length + fsum l := by
  induction l with
  | nil => simp [insertField, fsum]
  | cons g rest ih =>
    rw [insertField]
    split_ifs
    · simp [fsum]
    · simp only [fsum, List.map_cons, List.sum_cons] at ih ⊢
      omega

theorem insertField_length (f : List Nat × Datum) (l : List (List Nat × Datum)) :
    (insertField f l).length = l.length + 1 := by
  induction l with
  | nil => simp [insertField]
  | cons g rest ih =>
    rw [insertField]
    split_ifs
    · simp
    · simp only [List.length_cons, ih]

theorem sortFields_fsum (l : List (List Nat × Datum)) : fsum (sortFields l) = fsum l := by
  induction l with
  | nil => rfl
  | cons f rest ih =>
    rw [sortFields, insertField_fsum, ih]
    simp [fsum]

theorem sortFields_length (l : List (List Nat × Datum)) :
    (sortFields l).length = l.length := by
  induction l with
  | nil => rfl
  | cons f rest ih =>
    rw [sortFields, insertField_length, ih]
    simp

/-- The float arm of `Datum.Equal` (part_000): float against
float/int/uint through the Go conversions. -/
def eqFloatCase (d x : Datum) : Bool :=
  if dType x = FloatType then
    F64.feq (dFloat d) (dFloat x) || (F64.isNaN (dFloat d) && F64.isNaN (dFloat x))
  else if dType x = IntType then
    F64.feq (i64ToF64 (f64ToI64 (dFloat d))) (dFloat d) && f64ToI64 (dFloat d) == dInt x
  else if dType x = UintType then
    F64.feq (u64ToF64 (f64ToU64 (dFloat d))) (dFloat d) && f64ToU64 (dFloat d) == dUint x
  else false

/-- The int arm of `Datum.Equal` (part_000). -/
def eqIntCase (d x : Datum) : Bool :=
  if dType x = IntType then dInt d == dInt x
  else if dType x = UintType then decide (0 ≤ dInt d) && (dInt d).toNat == dUint x
  else if dType x = FloatType then
    F64.feq (i64ToF64 (f64ToI64 (dFloat x))) (dFloat x) && f64ToI64 (dFloat x) == dInt d
  else false

/-- The uint arm of `Datum.Equal` (part_000). -/
def eqUintCase (d x : Datum) : Bool :=
  if dType x = UintType then dUint d == dUint x
  else if dType x = IntType then decide (0 ≤ dInt x) && (dInt x).toNat == dUint d
  else if dType x = FloatType then
    F64.feq (u64ToF64 (f64ToU64 (dFloat x))) (dFloat x) && f64ToU64 (dFloat x) == dUint d
  else false

/-- The bool/string/symbol/blob/timestamp arms of `Datum.Equal`
(part_000); strings and symbols compare the resolved strings (a
missing symbol, which the source reports by raising, yields false
here and is unreachable in the claims); timestamps compare through
the `date.Time.Equal` oracle `tsEq` (the date package is outside the
sources); all remaining type pairings (the Go switch default) are
false. -/
def eqScalarCase (tsEq : List Nat → List Nat → Bool) (d x : Datum) : Bool :=
  if dType d = BoolType then
    if dType x = BoolType then ReadBool d.buf == ReadBool x.buf else false
  else if dType d = StringType then
    if dType x = StringType then contents d.buf == contents x.buf
    else if dType x = SymbolType then
      match stLookup x.st (ReadSymbol x.buf) with
      | some s => contents d.buf == s
      | none => false
    else false
  else if dType d = SymbolType then
    if dType x = StringType then
      match stLookup d.st (ReadSymbol d.buf) with
      | some s => s == contents x.buf
      | none => false
    else if dType x = SymbolType then
      match stLookup d.st (ReadSymbol d.buf), stLookup x.st (ReadSymbol x.buf) with
      | some s1, some s2 => s1 == s2
      | _, _ => false
    else false
  else if dType d = BlobType then
    if dType x = BlobType then contents d.buf == contents x.buf else false
  else if dType d = TimestampType then
    if dType x = TimestampType then tsEq d.buf x.buf else false
  else false

mutual

/-- Embeds `Datum.Equal` (part_000): dispatch on the receiver's type
in the source's case order; the scalar arms are the helper
definitions above; structs and lists recurse through
`Struct.Equal`/`List.Equal`. -/
def datumEqual (tsEq : List Nat → List Nat → Bool) (d x : Datum) : Bool :=
  if dType d = NullType then dType x == NullType
  else if dType d = FloatType then eqFloatCase d x
  else if dType d = IntType then eqIntCase d x
  else if dType d = UintType then eqUintCase d x
  else if dType d = StructType then
    if dType x = StructType then structEqual tsEq d x else false
  else if dType d = ListType then
    if dType x = ListType then listEqual tsEq d x else false
  else eqScalarCase tsEq d x
termination_by (d.buf.length, 0, 2)
decreasing_by
  all_goals
    apply Prod.Lex.right
    apply Prod.Lex.right
    omega

/-- Embeds `Struct.Equal` (part_000): empty structs compare to empty
structs; identical bytes under overlapping symbol tables short-
circuit; otherwise the parsed field lists must have the same length
and, after sorting by label, agree pointwise on label and value. -/
def structEqual (tsEq : List Nat → List Nat → Bool) (d x : Datum) : Bool :=
  if he : compEmpty d then compEmpty x
  else if d.buf == x.buf && stoverlap d.st x.st then true
  else if (fieldsOf d.st (contents d.buf)).length = (fieldsOf x.st (contents x.buf)).length
  then
    fieldsEqual tsEq (sortFields (fieldsOf d.st (contents d.buf)))
      (sortFields (fieldsOf x.st (contents x.buf)))
  else false
termination_by (d.buf.length, 0, 1)
decreasing_by
  apply Prod.Lex.left
  have h1 : d.buf ≠ [] := by
    intro hc
    apply he
    simp [compEmpty, hc]
  have h2 := contents_length_lt d.buf h1
  have h3 := fieldsOf_bound d.st (contents d.buf)
  rw [sortFields_fsum, sortFields_length]
  omega

/-- Embeds `List.Equal` (part_000): empty lists compare to empty
lists; identical bytes under overlapping symbol tables short-circuit;
otherwise the item lists must have the same length and compare
pointwise in order. -/
def listEqual (tsEq : List Nat → List Nat → Bool) (d x : Datum) : Bool :=
  if he : compEmpty d then compEmpty x
  else if d.buf == x.buf && stoverlap d.st x.st then true
  else if (itemsOf d.st (contents d.buf)).length = (itemsOf x.st (contents x.buf)).length
  then
    itemsEqual tsEq (itemsOf d.st (contents d.buf)) (itemsOf x.st (contents x.buf))
  else false
termination_by (d.buf.length, 0, 1)
decreasing_by
  apply Prod.Lex.left
  have h1 : d.buf ≠ [] := by
    intro hc
    apply he
    simp [compEmpty, hc]
  have h2 := contents_length_lt d.buf h1
  have h3 := itemsOf_bound d.st (contents d.buf)
  omega

/-- The pointwise loop of `Struct.Equal` over the two sorted field
lists: labels equal and values `Equal`. -/
def fieldsEqual (tsEq : List Nat → List Nat → Bool) :
    List (List Nat × Datum) → List (List Nat × Datum) → Bool
  | [], [] => true
  | f :: fs, g :: gs => f.1 == g.1 && datumEqual tsEq f.2 g.2 && fieldsEqual tsEq fs gs
  | _, _ => false
termination_by l1 l2 => (fsum l1 + l1.length, 0, 0)
decreasing_by
  all_goals apply Prod.Lex.left
  all_goals simp only [fsum, List.map_cons, List.sum_cons, List.length_cons]
  all_goals omega

/-- The pointwise loop of `List.Equal` over the two item lists. -/
def itemsEqual (tsEq : List Nat → List Nat → Bool) : List Datum → List Datum → Bool
  | [], [] => true
  | a :: rest1, b :: rest2 => datumEqual tsEq a b && itemsEqual tsEq rest1 rest2
  | _, _ => false
termination_by l1 l2 => (dsum l1, l1.length, 0)
decreasing_by
  · simp only [dsum, List.map_cons, List.sum_cons, List.length_cons]
    by_cases hc : a.buf.length < a.buf.length + (rest1.map (fun v => v.buf.length)).sum
    · exact Prod.Lex.left _ _ hc
    · have hz : (rest1.map (fun v => v.buf.length)).sum = 0 := by omega
      rw [hz, Nat.add_zero]
      exact Prod.Lex.right _ (Prod.Lex.left _ _ (by omega))
  · simp only [dsum, List.map_cons, List.sum_cons, List.length_cons]
    by_cases hc : (rest1.map (fun v => v.buf.length)).sum <
        a.buf.length + (rest1.map (fun v => v.buf.length)).sum
    · exact Prod.Lex.left _ _ hc
    · have hz : a.buf.length = 0 := by omega
      rw [hz, Nat.zero_add]
      exact Prod.Lex.right _ (Prod.Lex.left _ _ (by omega))

end

theorem labelLt_asymm (a b : List Nat) (h : labelLt a b = true) : labelLt b a = false := by
  induction a generalizing b with
  | nil =>
    cases b with
    | nil => simp [labelLt] at h
    | cons y ys => simp [labelLt]
  | cons x xs ih =>
    cases b with
    | nil => simp [labelLt] at h
    | cons y ys =>
      rw [labelLt] at h
      rw [labelLt]
      by_cases h1 : x < y
      · rw [if_neg (by omega), if_pos h1]
      · by_cases h2 : y < x
        · rw [if_neg h1, if_pos h2] at h
          exact absurd h (by simp)
        · rw [if_neg h2, if_neg h1]
          rw [if_neg h1, if_neg h2] at h
          exact ih ys h

theorem labelLt_antisymm (a b : List Nat) (h1 : labelLt a b = false)
    (h2 : labelLt b a = false) : a = b := by
  induction a generalizing b with
  | nil =>
    cases b with
    | nil => rfl
    | cons y ys => simp [labelLt] at h1
  | cons x xs ih =>
    cases b with
    | nil => simp [labelLt] at h2
    | cons y ys =>
      rw [labelLt] at h1 h2
      by_cases ha : x < y
      · rw [if_pos ha] at h1
        exact absurd h1 (by simp)
      · by_cases hb : y < x
        · rw [if_pos hb] at h2
          exact absurd h2 (by simp)
        · rw [if_neg ha, if_neg hb] at h1
          rw [if_neg hb, if_neg ha] at h2
          have : x = y := by omega
          rw [this, ih ys h1 h2]

theorem labelLt_trans (a b c : List Nat) (h1 : labelLt a b = true)
    (h2 : labelLt b c = true) : labelLt a c = true := by
  induction a generalizing b c with
  | nil =>
    cases b with
    | nil => simp [labelLt] at h1
    | cons y ys =>
      cases c with
      | nil => simp [labelLt] at h2
      | cons z zs => simp [labelLt]
  | cons x xs ih =>
    cases b with
    | nil => simp [labelLt] at h1
    | cons y ys =>
      cases c with
      | nil => simp [labelLt] at h2
      | cons z zs =>
        rw [labelLt] at h1 h2
        rw [labelLt]
        by_cases ha : x < y
        · by_cases hc : y < z
          · rw [if_pos (by omega)]
          · by_cases hd : z < y
            · rw [if_neg hc, if_pos hd] at h2
              exact absurd h2 (by simp)
            · rw [if_pos (show x < z by omega)]
        · by_cases hb : y < x
          · rw [if_neg ha, if_pos hb] at h1
            exact absurd h1 (by simp)
          · by_cases hc : y < z
            · rw [if_pos (show x < z by omega)]
            · by_cases hd : z < y
              · rw [if_neg hc, if_pos hd] at h2
                exact absurd h2 (by simp)
              · have hxz1 : ¬ x < z := by omega
                have hxz2 : ¬ z < x := by omega
                rw [if_neg hxz1, if_neg hxz2]
                rw [if_neg ha, if_neg hb] at h1
                rw [if_neg hc, if_neg hd] at h2
                exact ih ys zs h1 h2

theorem insertField_perm (f : List Nat × Datum) (l : List (List Nat × Datum)) :
    (insertField f l).Perm (f :: l) := by
  induction l with
  | nil => exact List.Perm.refl _
  | cons g rest ih =>
    rw [insertField]
    split_ifs
    · exact List.Perm.refl _
    · exact List.Perm.trans (List.Perm.cons g ih) (List.Perm.swap f g rest)

theorem sortFields_perm (l : List (List Nat × Datum)) : (sortFields l).Perm l := by
  induction l with
  | nil => exact List.Perm.refl _
  | cons f rest ih =>
    rw [sortFields]
    exact List.Perm.trans (insertField_perm f (sortFields rest)) (List.Perm.cons f ih)

theorem mem_insertField (y f : List Nat × Datum) (l : List (List Nat × Datum)) :
    y ∈ insertField f l ↔ y = f ∨ y ∈ l := by
  rw [(insertField_perm f l).mem_iff, List.mem_cons]

theorem insertField_pairwise (f : List Nat × Datum) (l : List (List Nat × Datum))
    (hl : l.Pairwise (fun u v => labelLt v.1 u.1 = false)) :
    (insertField f l).Pairwise (fun u v => labelLt v.1 u.1 = false) := by
  induction l with
  | nil => simp [insertField]
  | cons g rest ih =>
    rw [List.pairwise_cons] at hl
    rw [insertField]
    split_ifs with hlt
    · rw [List.pairwise_cons]
      refine ⟨?_, List.Pairwise.cons hl.1 hl.2⟩
      intro y hy
      rcases List.mem_cons.mp hy with rfl | hy2
      · exact labelLt_asymm _ _ hlt
      · have hgy := hl.1 y hy2
        by_cases hc : labelLt y.1 f.1 = true
        · have := labelLt_trans _ _ _ hc hlt
          rw [this] at hgy
          exact absurd hgy (by simp)
        · simpa using hc
    · rw [List.pairwise_cons]
      refine ⟨?_, ih hl.2⟩
      intro y hy
      rcases (mem_insertField y f rest).mp hy with rfl | hy2
      · simpa using hlt
      · exact hl.1 y hy2

theorem sortFields_pairwise (l : List (List Nat × Datum)) :
    (sortFields l).Pairwise (fun u v => labelLt v.1 u.1 = false) := by
  induction l with
  | nil => simp [sortFields]
  | cons f rest ih =>
    rw [sortFields]
    exact insertField_pairwise f _ ih

theorem fieldsEqual_of_sorted (tsEq : List Nat → List Nat → Bool) :
    ∀ (l1 l2 : List (List Nat × Datum)),
    l1.Pairwise (fun u v => labelLt v.1 u.1 = false) →
    l2.Pairwise (fun u v => labelLt v.1 u.1 = false) →
    (l1.map (fun f => f.1)).Nodup → (l2.map (fun f => f.1)).Nodup →
    (∀ p ∈ l1, ∃ q ∈ l2, q.1 = p.1 ∧ datumEqual tsEq p.2 q.2 = true) →
    (∀ q ∈ l2, ∃ p ∈ l1, p.1 = q.1 ∧ datumEqual tsEq p.2 q.2 = true) →
    fieldsEqual tsEq l1 l2 = true := by
  intro l1
  induction l1 with
  | nil =>
    intro l2 _ _ _ _ _ h6
    cases l2 with
    | nil => rw [fieldsEqual]
    | cons b t2 =>
      obtain ⟨p, hp, _⟩ := h6 b (List.mem_cons_self _ _)
      exact absurd hp (List.not_mem_nil p)
  | cons a t1 ih =>
    intro l2 h1 h2 h3 h4 h5 h6
    cases l2 with
    | nil =>
      obtain ⟨q, hq, _⟩ := h5 a (List.mem_cons_self _ _)
      exact absurd hq (List.not_mem_nil q)
    | cons b t2 =>
      rw [List.pairwise_cons] at h1 h2
      simp only [List.map_cons, List.nodup_cons] at h3 h4
      obtain ⟨q, hq, hq1, hqe⟩ := h5 a (List.mem_cons_self _ _)
      obtain ⟨p, hp, hp1, hpe⟩ := h6 b (List.mem_cons_self _ _)
      have hab : a.1 = b.1 := by
        rcases List.mem_cons.mp hq with rfl | hq2
        · exact hq1.symm
        · rcases List.mem_cons.mp hp with rfl | hp2
          · exact hp1
          · have hba : labelLt a.1 b.1 = false := by
              have := h2.1 q hq2
              rwa [hq1] at this
            have hab2 : labelLt b.1 a.1 = false := by
              have := h1.1 p hp2
              rwa [hp1] at this
            exact labelLt_antisymm _ _ hba hab2
      have hqb : q = b := by
        rcases List.mem_cons.mp hq with rfl | hq2
        · rfl
        · exfalso
          apply h4.1
          rw [← hab, ← hq1]
          exact List.mem_map_of_mem _ hq2
      have hvals : datumEqual tsEq a.2 b.2 = true := by
        rw [hqb] at hqe
        exact hqe
      have h5' : ∀ p2 ∈ t1, ∃ q2 ∈ t2, q2.1 = p2.1 ∧ datumEqual tsEq p2.2 q2.2 = true := by
        intro p2 hp2
        obtain ⟨q2, hq2, hq21, hq2e⟩ := h5 p2 (List.mem_cons_of_mem _ hp2)
        rcases List.mem_cons.mp hq2 with rfl | hq22
        · exfalso
          apply h3.1
          rw [hab, hq21]
          exact List.mem_map_of_mem _ hp2
        · exact ⟨q2, hq22, hq21, hq2e⟩
      have h6' : ∀ q2 ∈ t2, ∃ p2 ∈ t1, p2.1 = q2.1 ∧ datumEqual tsEq p2.2 q2.2 = true := by
        intro q2 hq2
        obtain ⟨p2, hp2, hp21, hp2e⟩ := h6 q2 (List.mem_cons_of_mem _ hq2)
        rcases List.mem_cons.mp hp2 with rfl | hp22
        · exfalso
          apply h4.1
          rw [← hab, hp21]
          exact List.mem_map_of_mem _ hq2
        · exact ⟨p2, hp22, hp21, hp2e⟩
      rw [fieldsEqual]
      rw [Bool.and_eq_true, Bool.and_eq_true, beq_iff_eq]
      exact ⟨⟨hab, hvals⟩, ih t2 h1.2 h2.2 h3.2 h4.2 h5' h6'⟩

theorem datumEqual_struct_of_match (tsEq : List Nat → List Nat → Bool) (d x : Datum)
    (hd : dType d = StructType) (hx : dType x = StructType)
    (hed : compEmpty d = false)
    (h3 : ((fieldsOf d.st (contents d.buf)).map (fun f => f.1)).Nodup)
    (h4 : ((fieldsOf x.st (contents x.buf)).map (fun f => f.1)).Nodup)
    (h5 : ∀ p ∈ fieldsOf d.st (contents d.buf), ∃ q ∈ fieldsOf x.st (contents x.buf),
      q.1 = p.1 ∧ datumEqual tsEq p.2 q.2 = true)
    (h6 : ∀ q ∈ fieldsOf x.st (contents x.buf), ∃ p ∈ fieldsOf d.st (contents d.buf),
      p.1 = q.1 ∧ datumEqual tsEq p.2 q.2 = true) :
    datumEqual tsEq d x = true := by
  rw [datumEqual]
  rw [hd, hx]
  simp only [StructType, NullType, FloatType, IntType, UintType, ListType]
  norm_num
  rw [structEqual]
  rw [dif_neg (by simp [hed])]
  by_cases hfast : (d.buf == x.buf && stoverlap d.st x.st) = true
  · rw [if_pos hfast]
  · rw [if_neg hfast]
    have hiff : ∀ a, a ∈ (fieldsOf d.st (contents d.buf)).map (fun f => f.1) ↔
        a ∈ (fieldsOf x.st (contents x.buf)).map (fun f => f.1) := by
      intro a
      constructor
      · intro ha
        obtain ⟨p, hp, rfl⟩ := List.mem_map.mp ha
        obtain ⟨q, hq, hq1, _⟩ := h5 p hp
        rw [← hq1]
        exact List.mem_map_of_mem _ hq
      · intro ha
        obtain ⟨q, hq, rfl⟩ := List.mem_map.mp ha
        obtain ⟨p, hp, hp1, _⟩ := h6 q hq
        rw [← hp1]
        exact List.mem_map_of_mem _ hp
    have hperm := (List.perm_ext_iff_of_nodup h3 h4).mpr hiff
    have hlen : (fieldsOf d.st (contents d.buf)).length =
        (fieldsOf x.st (contents x.buf)).length := by
      have := hperm.length_eq
      simpa using this
    rw [if_pos hlen]
    apply fieldsEqual_of_sorted tsEq _ _ (sortFields_pairwise _) (sortFields_pairwise _)
    · exact (((sortFields_perm _).map _).nodup_iff).mpr h3
    · exact (((sortFields_perm _).map _).nodup_iff).mpr h4
    · intro p hp
      obtain ⟨q, hq, hq1, hqe⟩ := h5 p ((sortFields_perm _).mem_iff.mp hp)
      exact ⟨q, (sortFields_perm _).mem_iff.mpr hq, hq1, hqe⟩
    · intro q hq
      obtain ⟨p, hp, hp1, hpe⟩ := h6 q ((sortFields_perm _).mem_iff.mp hq)
      exact ⟨p, (sortFields_perm _).mem_iff.mpr hp, hp1, hpe⟩

theorem ratTrunc_intCast (n : Int) : ratTrunc ((n : Int) : ℚ) = n := by
  unfold ratTrunc
  split_ifs with h
  · rw [show -((n : Int) : ℚ) = (((-n : Int) : Int) : ℚ) by push_cast; ring, Int.floor_intCast]
    omega
  · rw [Int.floor_intCast]

theorem ratTrunc_natCast (u : Nat) : ratTrunc ((u : Nat) : ℚ) = (u : Int) := by
  rw [show ((u : Nat) : ℚ) = (((u : Nat) : Int) : ℚ) by push_cast; ring, ratTrunc_intCast]

theorem feq_finite_iff (a : ℚ) (f : F64) : F64.feq f (.finite a) = true ↔ f = .finite a := by
  cases f <;> simp [F64.feq]

theorem feq_or_nan_iff (a b : F64) :
    (F64.feq a b || (F64.isNaN a && F64.isNaN b)) = true ↔ a = b := by
  cases a <;> cases b <;> simp [F64.feq, F64.isNaN]

/-- A rational with at most 53 significant bits: every finite value
`decodeF64Bits` can produce. -/
def repQ (q : ℚ) : Prop :=
  ∃ (m : Nat) (e : Int), m < 9007199254740992 ∧
    (q = (m : ℚ) * (2 : ℚ) ^ e ∨ q = -((m : ℚ) * (2 : ℚ) ^ e))

theorem decodeF64Bits_rep (bits : Nat) (q : ℚ) (h : decodeF64Bits bits = .finite q) :
    repQ q := by
  have hfrac := Nat.mod_lt bits (show 0 < 4503599627370496 by norm_num)
  unfold decodeF64Bits at h
  dsimp only at h
  split_ifs at h with h1 h2 h3 h4 h5
  · simp only [F64.finite.injEq] at h
    exact ⟨bits % 4503599627370496,
      max ((bits / 4503599627370496 % 2048 : ℕ) : ℤ) 1 - 1075, by omega,
      Or.inr (by rw [← h])⟩
  · simp only [F64.finite.injEq] at h
    exact ⟨4503599627370496 + bits % 4503599627370496,
      max ((bits / 4503599627370496 % 2048 : ℕ) : ℤ) 1 - 1075, by omega,
      Or.inr (by rw [← h])⟩
  · simp only [F64.finite.injEq] at h
    exact ⟨bits % 4503599627370496,
      max ((bits / 4503599627370496 % 2048 : ℕ) : ℤ) 1 - 1075, by omega,
      Or.inl (by rw [← h])⟩
  · simp only [F64.finite.injEq] at h
    exact ⟨4503599627370496 + bits % 4503599627370496,
      max ((bits / 4503599627370496 % 2048 : ℕ) : ℤ) 1 - 1075, by omega,
      Or.inl (by rw [← h])⟩

theorem ReadFloat64_rep (buf : List Nat) (q : ℚ) (h : ReadFloat64 buf = .finite q) :
    repQ q := by
  unfold ReadFloat64 at h
  dsimp only at h
  split_ifs at h
  · exact decodeF64Bits_rep _ _ h
  · simp only [F64.finite.injEq] at h
    exact ⟨0, 0, by norm_num, by rw [← h]; left; norm_num⟩

theorem roundSig53_of_factor (n m e : Nat) (hm : m < 9007199254740992)
    (hn : n = m * 2 ^ e) : roundSig53 n = n := by
  rw [roundSig53]
  split_ifs with h
  · rfl
  · have hn0 : n ≠ 0 := by
      intro hc
      rw [hc] at h
      omega
    have hlog1 : 2 ^ Nat.log2 n ≤ n := Nat.log2_self_le hn0
    have hlog2 : n < 2 ^ (Nat.log2 n + 1) := Nat.lt_log2_self
    have hL : 53 ≤ Nat.log2 n := by
      by_contra hc
      have : Nat.log2 n + 1 ≤ 53 := by omega
      have h2 : 2 ^ (Nat.log2 n + 1) ≤ 2 ^ 53 :=
        Nat.pow_le_pow_right (by norm_num) this
      have h3 : (9007199254740992 : Nat) = 2 ^ 53 := by norm_num
      omega
    have hke : Nat.log2 n - 52 ≤ e := by
      by_contra hc
      have he1 : e + 1 ≤ Nat.log2 n - 52 := by omega
      have h4 : n < 2 ^ (53 + e) := by
        rw [hn]
        have h2e : 0 < 2 ^ e := Nat.pos_pow_of_pos e (by norm_num)
        calc m * 2 ^ e < 9007199254740992 * 2 ^ e := by
              exact (Nat.mul_lt_mul_right h2e).mpr hm
          _ = 2 ^ (53 + e) := by rw [pow_add]; norm_num
      have h5 : 2 ^ (53 + e) ≤ 2 ^ Nat.log2 n := by
        apply Nat.pow_le_pow_right (by norm_num)
        omega
      omega
    have hdvd : 2 ^ (Nat.log2 n - 52) ∣ n := by
      conv_rhs => rw [hn]
      exact Dvd.dvd.mul_left (pow_dvd_pow 2 hke) m
    have hr : n % 2 ^ (Nat.log2 n - 52) = 0 := by
      obtain ⟨c, hc⟩ := hdvd
      nth_rewrite 1 [hc]
      exact Nat.mul_mod_right _ _
    dsimp only
    rw [hr]
    have hhalf : 0 < 2 ^ (Nat.log2 n - 52 - 1) := Nat.pos_pow_of_pos _ (by norm_num)
    rw [if_neg (by omega)]
    exact Nat.div_mul_cancel hdvd

theorem roundSig53_fix (k m : Nat) (ez : Int) (hm : m < 9007199254740992)
    (heq : (k : ℚ) = (m : ℚ) * (2 : ℚ) ^ ez) : roundSig53 k = k := by
  by_cases hez : 0 ≤ ez
  · have hez2 : ((ez.toNat : ℕ) : ℤ) = ez := by omega
    have hk : (k : ℚ) = ((m * 2 ^ ez.toNat : ℕ) : ℚ) := by
      push_cast
      rw [heq, ← zpow_natCast (2 : ℚ) ez.toNat, hez2]
    have hk2 : k = m * 2 ^ ez.toNat := by exact_mod_cast hk
    exact roundSig53_of_factor k m ez.toNat hm hk2
  · have h1 : (2 : ℚ) ^ ez ≤ 1 := zpow_le_one_of_nonpos (by norm_num) (by omega)
    have h2 : (k : ℚ) ≤ (m : ℚ) := by
      rw [heq]
      calc (m : ℚ) * (2 : ℚ) ^ ez ≤ (m : ℚ) * 1 := by
            apply mul_le_mul_of_nonneg_left h1
            positivity
        _ = (m : ℚ) := mul_one _
    have h3 : k ≤ m := by exact_mod_cast h2
    rw [roundSig53, if_pos (by omega)]

theorem repQ_abs_factor (q : ℚ) (h : repQ q) :
    ∃ (m : Nat) (e : Int), m < 9007199254740992 ∧ |q| = (m : ℚ) * (2 : ℚ) ^ e := by
  obtain ⟨m, e, hm, hq⟩ := h
  have hpos : 0 ≤ (m : ℚ) * (2 : ℚ) ^ e := by positivity
  rcases hq with rfl | rfl
  · exact ⟨m, e, hm, abs_of_nonneg hpos⟩
  · exact ⟨m, e, hm, by rw [abs_neg, abs_of_nonneg hpos]⟩

theorem i64ToF64_of_rep (n : Int) (q : ℚ) (hrep : repQ q) (heq : ((n : Int) : ℚ) = q) :
    i64ToF64 n = .finite q := by
  obtain ⟨m, e, hm, habs⟩ := repQ_abs_factor q hrep
  have hna : ((n.natAbs : Nat) : ℚ) = (m : ℚ) * (2 : ℚ) ^ e := by
    rw [← habs, ← heq]
    push_cast
    rw [Int.cast_natAbs, Int.cast_abs]
  have hround : roundSig53 n.natAbs = n.natAbs := roundSig53_fix _ m e hm hna
  rw [i64ToF64, hround]
  congr 1
  rw [show (Int.sign n * (n.natAbs : Int)) = n from Int.sign_mul_natAbs n]
  exact heq

theorem u64ToF64_of_rep (u : Nat) (q : ℚ) (hrep : repQ q) (heq : ((u : Nat) : ℚ) = q) :
    u64ToF64 u = .finite q := by
  obtain ⟨m, e, hm, habs⟩ := repQ_abs_factor q hrep
  have hna : ((u : Nat) : ℚ) = (m : ℚ) * (2 : ℚ) ^ e := by
    rw [heq, ← habs]
    rw [← heq]
    rw [abs_of_nonneg (by positivity)]
  have hround : roundSig53 u = u := roundSig53_fix _ m e hm hna
  rw [u64ToF64, hround]
  rw [heq]

theorem i64_trunc_fix (q : ℚ) (h : i64ToF64 (ratTrunc q) = .finite q) :
    q = ((ratTrunc q : Int) : ℚ) := by
  rw [i64ToF64] at h
  simp only [F64.finite.injEq] at h
  have h2 : ratTrunc q =
      Int.sign (ratTrunc q) * (roundSig53 (ratTrunc q).natAbs : Int) := by
    conv_lhs => rw [← h]
    rw [ratTrunc_intCast]
  rw [h2]
  exact h.symm

theorem u64_trunc_fix (q : ℚ) (h : u64ToF64 (ratTrunc q).toNat = .finite q) :
    q = (((ratTrunc q).toNat : Nat) : ℚ) := by
  rw [u64ToF64] at h
  simp only [F64.finite.injEq] at h
  have h2 : ratTrunc q = (roundSig53 (ratTrunc q).toNat : Int) := by
    conv_lhs => rw [← h]
    rw [ratTrunc_natCast]
  have h3 : (ratTrunc q).toNat = roundSig53 (ratTrunc q).toNat := by omega
  rw [h3]
  exact h.symm

theorem datumEqual_float_float (tsEq : List Nat → List Nat → Bool) (d x : Datum)
    (hd : dType d = FloatType) (hx : dType x = FloatType) :
    (datumEqual tsEq d x = true ↔ dFloat d = dFloat x) := by
  rw [datumEqual, hd, if_neg (show ¬FloatType = NullType by decide), if_pos rfl]
  rw [eqFloatCase, hx, if_pos rfl]
  exact feq_or_nan_iff _ _

theorem datumEqual_float_int (tsEq : List Nat → List Nat → Bool) (d x : Datum) (q : ℚ)
    (hd : dType d = FloatType) (hx : dType x = IntType)
    (hq : dFloat d = .finite q) :
    (datumEqual tsEq d x = true ↔ q = ((dInt x : Int) : ℚ)) := by
  rw [datumEqual, hd, if_neg (show ¬FloatType = NullType by decide), if_pos rfl]
  rw [eqFloatCase, hx, if_neg (show ¬IntType = FloatType by decide), if_pos rfl]
  rw [hq]
  rw [show f64ToI64 (F64.finite q) = ratTrunc q from rfl]
  rw [Bool.and_eq_true]
  constructor
  · intro hcond
    have h1 := (feq_finite_iff q _).mp hcond.1
    have h2 : ratTrunc q = dInt x := by
      have := hcond.2
      rwa [beq_iff_eq] at this
    have h3 := i64_trunc_fix q h1
    rw [h3, h2]
  · intro hqv
    have htr : ratTrunc q = dInt x := by rw [hqv, ratTrunc_intCast]
    refine ⟨(feq_finite_iff q _).mpr ?_, by rw [beq_iff_eq]; exact htr⟩
    apply i64ToF64_of_rep _ _ (ReadFloat64_rep d.buf q hq)
    rw [htr, ← hqv]

theorem datumEqual_int_float (tsEq : List Nat → List Nat → Bool) (d x : Datum) (q : ℚ)
    (hd : dType d = IntType) (hx : dType x = FloatType)
    (hq : dFloat x = .finite q) :
    (datumEqual tsEq d x = true ↔ q = ((dInt d : Int) : ℚ)) := by
  rw [datumEqual, hd, if_neg (show ¬IntType = NullType by decide),
    if_neg (show ¬IntType = FloatType by decide), if_pos rfl]
  rw [eqIntCase, hx, if_neg (show ¬FloatType = IntType by decide),
    if_neg (show ¬FloatType = UintType by decide), if_pos rfl]
  rw [hq]
  rw [show f64ToI64 (F64.finite q) = ratTrunc q from rfl]
  rw [Bool.and_eq_true]
  constructor
  · intro hcond
    have h1 := (feq_finite_iff q _).mp hcond.1
    have h2 : ratTrunc q = dInt d := by
      have := hcond.2
      rwa [beq_iff_eq] at this
    have h3 := i64_trunc_fix q h1
    rw [h3, h2]
  · intro hqv
    have htr : ratTrunc q = dInt d := by rw [hqv, ratTrunc_intCast]
    refine ⟨(feq_finite_iff q _).mpr ?_, by rw [beq_iff_eq]; exact htr⟩
    apply i64ToF64_of_rep _ _ (ReadFloat64_rep x.buf q hq)
    rw [htr, ← hqv]

theorem datumEqual_float_uint (tsEq : List Nat → List Nat → Bool) (d x : Datum) (q : ℚ)
    (hd : dType d = FloatType) (hx : dType x = UintType)
    (hq : dFloat d = .finite q) :
    (datumEqual tsEq d x = true ↔ q = ((dUint x : Nat) : ℚ)) := by
  rw [datumEqual, hd, if_neg (show ¬FloatType = NullType by decide), if_pos rfl]
  rw [eqFloatCase, hx, if_neg (show ¬UintType = FloatType by decide),
    if_neg (show ¬UintType = IntType by decide), if_pos rfl]
  rw [hq]
  rw [show f64ToU64 (F64.finite q) = (ratTrunc q).toNat from rfl]
  rw [Bool.and_eq_true]
  constructor
  · intro hcond
    have h1 := (feq_finite_iff q _).mp hcond.1
    have h2 : (ratTrunc q).toNat = dUint x := by
      have := hcond.2
      rwa [beq_iff_eq] at this
    have h3 := u64_trunc_fix q h1
    rw [h3, h2]
  · intro hqv
    have htr : (ratTrunc q).toNat = dUint x := by
      rw [hqv, ratTrunc_natCast]
      omega
    refine ⟨(feq_finite_iff q _).mpr ?_, by rw [beq_iff_eq]; exact htr⟩
    apply u64ToF64_of_rep _ _ (ReadFloat64_rep d.buf q hq)
    rw [htr, ← hqv]

theorem datumEqual_uint_float (tsEq : List Nat → List Nat → Bool) (d x : Datum) (q : ℚ)
    (hd : dType d = UintType) (hx : dType x = FloatType)
    (hq : dFloat x = .finite q) :
    (datumEqual tsEq d x = true ↔ q = ((dUint d : Nat) : ℚ)) := by
  rw [datumEqual, hd, if_neg (show ¬UintType = NullType by decide),
    if_neg (show ¬UintType = FloatType by decide),
    if_neg (show ¬UintType = IntType by decide), if_pos rfl]
  rw [eqUintCase, hx, if_neg (show ¬FloatType = UintType by decide),
    if_neg (show ¬FloatType = IntType by decide), if_pos rfl]
  rw [hq]
  rw [show f64ToU64 (F64.finite q) = (ratTrunc q).toNat from rfl]
  rw [Bool.and_eq_true]
  constructor
  · intro hcond
    have h1 := (feq_finite_iff q _).mp hcond.1
    have h2 : (ratTrunc q).toNat = dUint d := by
      have := hcond.2
      rwa [beq_iff_eq] at this
    have h3 := u64_trunc_fix q h1
    rw [h3, h2]
  · intro hqv
    have htr : (ratTrunc q).toNat = dUint d := by
      rw [hqv, ratTrunc_natCast]
      omega
    refine ⟨(feq_finite_iff q _).mpr ?_, by rw [beq_iff_eq]; exact htr⟩
    apply u64ToF64_of_rep _ _ (ReadFloat64_rep x.buf q hq)
    rw [htr, ← hqv]

theorem datumEqual_int_uint (tsEq : List Nat → List Nat → Bool) (d x : Datum)
    (hd : dType d = IntType) (hx : dType x = UintType) :
    (datumEqual tsEq d x = true ↔ dInt d = ((dUint x : Nat) : Int)) := by
  rw [datumEqual, hd, if_neg (show ¬IntType = NullType by decide),
    if_neg (show ¬IntType = FloatType by decide), if_pos rfl]
  rw [eqIntCase, hx, if_neg (show ¬UintType = IntType by decide), if_pos rfl]
  rw [Bool.and_eq_true]
  constructor
  · intro hcond
    have h1 : (0 : Int) ≤ dInt d := of_decide_eq_true hcond.1
    have h2 : (dInt d).toNat = dUint x := by
      have := hcond.2
      rwa [beq_iff_eq] at this
    omega
  · intro hv
    refine ⟨decide_eq_true (by omega), ?_⟩
    rw [beq_iff_eq]
    omega

theorem datumEqual_uint_int (tsEq : List Nat → List Nat → Bool) (d x : Datum)
    (hd : dType d = UintType) (hx : dType x = IntType) :
    (datumEqual tsEq d x = true ↔ dInt x = ((dUint d : Nat) : Int)) := by
  rw [datumEqual, hd, if_neg (show ¬UintType = NullType by decide),
    if_neg (show ¬UintType = FloatType by decide),
    if_neg (show ¬UintType = IntType by decide), if_pos rfl]
  rw [eqUintCase, hx, if_neg (show ¬IntType = UintType by decide), if_pos rfl]
  rw [Bool.and_eq_true]
  constructor
  · intro hcond
    have h1 : (0 : Int) ≤ dInt x := of_decide_eq_true hcond.1
    have h2 : (dInt x).toNat = dUint d := by
      have := hcond.2
      rwa [beq_iff_eq] at this
    omega
  · intro hv
    refine ⟨decide_eq_true (by omega), ?_⟩
    rw [beq_iff_eq]
    omega

theorem datumEqual_int_int (tsEq : List Nat → List Nat → Bool) (d x : Datum)
    (hd : dType d = IntType) (hx : dType x = IntType) :
    (datumEqual tsEq d x = true ↔ dInt d = dInt x) := by
  rw [datumEqual, hd, if_neg (show ¬IntType = NullType by decide),
    if_neg (show ¬IntType = FloatType by decide), if_pos rfl]
  rw [eqIntCase, hx, if_pos rfl]
  exact beq_iff_eq

theorem datumEqual_uint_uint (tsEq : List Nat → List Nat → Bool) (d x : Datum)
    (hd : dType d = UintType) (hx : dType x = UintType) :
    (datumEqual tsEq d x = true ↔ dUint d = dUint x) := by
  rw [datumEqual, hd, if_neg (show ¬UintType = NullType by decide),
    if_neg (show ¬UintType = FloatType by decide),
    if_neg (show ¬UintType = IntType by decide), if_pos rfl]
  rw [eqUintCase, hx, if_pos rfl]
  exact beq_iff_eq

theorem datumEqual_string_symbol (tsEq : List Nat → List Nat → Bool) (d x : Datum)
    (s : List Nat) (hd : dType d = StringType) (hx : dType x = SymbolType)
    (hlook : stLookup x.st (ReadSymbol x.buf) = some s) :
    (datumEqual tsEq d x = true ↔ contents d.buf = s) := by
  rw [datumEqual, hd, if_neg (show ¬StringType = NullType by decide),
    if_neg (show ¬StringType = FloatType by decide),
    if_neg (show ¬StringType = IntType by decide),
    if_neg (show ¬StringType = UintType by decide),
    if_neg (show ¬StringType = StructType by decide),
    if_neg (show ¬StringType = ListType by decide)]
  rw [eqScalarCase, hd, hx, if_neg (show ¬StringType = BoolType by decide), if_pos rfl,
    if_neg (show ¬SymbolType = StringType by decide), if_pos rfl]
  rw [hlook]
  exact beq_iff_eq

theorem datumEqual_symbol_string (tsEq : List Nat → List Nat → Bool) (d x : Datum)
    (s : List Nat) (hd : dType d = SymbolType) (hx : dType x = StringType)
    (hlook : stLookup d.st (ReadSymbol d.buf) = some s) :
    (datumEqual tsEq d x = true ↔ s = contents x.buf) := by
  rw [datumEqual, hd, if_neg (show ¬SymbolType = NullType by decide),
    if_neg (show ¬SymbolType = FloatType by decide),
    if_neg (show ¬SymbolType = IntType by decide),
    if_neg (show ¬SymbolType = UintType by decide),
    if_neg (show ¬SymbolType = StructType by decide),
    if_neg (show ¬SymbolType = ListType by decide)]
  rw [eqScalarCase, hd, hx, if_neg (show ¬SymbolType = BoolType by decide),
    if_neg (show ¬SymbolType = StringType by decide), if_pos rfl, if_pos rfl]
  rw [hlook]
  exact beq_iff_eq

/-- C9: `Datum.Equal` implements the semantic equality of the data
model.  (1) Two non-empty struct datums whose resolved label-to-value
mappings agree (labels distinct on each side; each field of one has a
field of the other with the same resolved label and `Equal` value, in
either order and under either symbol table) compare `Equal`.  (2)/(3)
A string datum and a symbol datum compare `Equal` exactly when the
symbol resolves to the same byte string, in both orders.  (4)-(9)
Numeric datums compare `Equal` across float/int/uint representations
exactly when they denote the same number (the decoded rational or
64-bit integer), the float side being a decoded finite value. -/
theorem claim_C9 :
    (∀ (tsEq : List Nat → List Nat → Bool) (d x : Datum),
      dType d = StructType → dType x = StructType → compEmpty d = false →
      ((fieldsOf d.st (contents d.buf)).map (fun f => f.1)).Nodup →
      ((fieldsOf x.st (contents x.buf)).map (fun f => f.1)).Nodup →
      (∀ p ∈ fieldsOf d.st (contents d.buf), ∃ q ∈ fieldsOf x.st (contents x.buf),
        q.1 = p.1 ∧ datumEqual tsEq p.2 q.2 = true) →
      (∀ q ∈ fieldsOf x.st (contents x.buf), ∃ p ∈ fieldsOf d.st (contents d.buf),
        p.1 = q.1 ∧ datumEqual tsEq p.2 q.2 = true) →
      datumEqual tsEq d x = true) ∧
    (∀ (tsEq : List Nat → List Nat → Bool) (d x : Datum) (s : List Nat),
      dType d = StringType → dType x = SymbolType →
      stLookup x.st (ReadSymbol x.buf) = some s →
      (datumEqual tsEq d x = true ↔ contents d.buf = s)) ∧
    (∀ (tsEq : List Nat → List Nat → Bool) (d x : Datum) (s : List Nat),
      dType d = SymbolType → dType x = StringType →
      stLookup d.st (ReadSymbol d.buf) = some s →
      (datumEqual tsEq d x = true ↔ s = contents x.buf)) ∧
    (∀ (tsEq : List Nat → List Nat → Bool) (d x : Datum),
      dType d = FloatType → dType x = FloatType →
      (datumEqual tsEq d x = true ↔ dFloat d = dFloat x)) ∧
    (∀ (tsEq : List Nat → List Nat → Bool) (d x : Datum) (q : ℚ),
      dType d = FloatType → dType x = IntType → dFloat d = .finite q →
      (datumEqual tsEq d x = true ↔ q = ((dInt x : Int) : ℚ))) ∧
    (∀ (tsEq : List Nat → List Nat → Bool) (d x : Datum) (q : ℚ),
      dType d = IntType → dType x = FloatType → dFloat x = .finite q →
      (datumEqual tsEq d x = true ↔ q = ((dInt d : Int) : ℚ))) ∧
    (∀ (tsEq : List Nat → List Nat → Bool) (d x : Datum) (q : ℚ),
      dType d = FloatType → dType x = UintType → dFloat d = .finite q →
      (datumEqual tsEq d x = true ↔ q = ((dUint x : Nat) : ℚ))) ∧
    (∀ (tsEq : List Nat → List Nat → Bool) (d x : Datum) (q : ℚ),
      dType d = UintType → dType x = FloatType → dFloat x = .finite q →
      (datumEqual tsEq d x = true ↔ q = ((dUint d : Nat) : ℚ))) ∧
    (∀ (tsEq : List Nat → List Nat → Bool) (d x : Datum),
      dType d = IntType → dType x = UintType →
      (datumEqual tsEq d x = true ↔ dInt d = ((dUint x : Nat) : Int))) ∧
    (∀ (tsEq : List Nat → List Nat → Bool) (d x : Datum),
      dType d = UintType → dType x = IntType →
      (datumEqual tsEq d x = true ↔ dInt x = ((dUint d : Nat) : Int))) ∧
    (∀ (tsEq : List Nat → List Nat → Bool) (d x : Datum),
      dType d = IntType → dType x = IntType →
      (datumEqual tsEq d x = true ↔ dInt d = dInt x)) ∧
    (∀ (tsEq : List Nat → List Nat → Bool) (d x : Datum),
      dType d = UintType → dType x = UintType →
      (datumEqual tsEq d x = true ↔ dUint d = dUint x)) :=
  ⟨datumEqual_struct_of_match, datumEqual_string_symbol, datumEqual_symbol_string,
   datumEqual_float_float, datumEqual_float_int, datumEqual_int_float,
   datumEqual_float_uint, datumEqual_uint_float, datumEqual_int_uint,
   datumEqual_uint_int, datumEqual_int_int, datumEqual_uint_uint⟩

def c9st1 : List (List Nat) := [[97], [98]]

def c9st2 : List (List Nat) := [[98], [97]]

def c9d : Datum := ⟨c9st1, [214, 128, 33, 1, 129, 33, 2]⟩

def c9x : Datum := ⟨c9st2, [214, 128, 33, 2, 129, 33, 1]⟩

theorem c9fields1 : fieldsOf c9d.st (contents c9d.buf) =
    [([97], ⟨c9st1, [33, 1]⟩), ([98], ⟨c9st1, [33, 2]⟩)] := by
  have h1 : contents c9d.buf = [128, 33, 1, 129, 33, 2] := by decide
  rw [h1]
  rw [fieldsOf.eq_def]
  show ([97], (⟨c9st1, [33, 1]⟩ : Datum)) :: fieldsOf c9st1 [129, 33, 2] = _
  rw [fieldsOf.eq_def]
  show ([97], (⟨c9st1, [33, 1]⟩ : Datum)) :: ([98], (⟨c9st1, [33, 2]⟩ : Datum)) ::
    fieldsOf c9st1 [] = _
  rw [fieldsOf.eq_def]
  rfl

theorem c9fields2 : fieldsOf c9x.st (contents c9x.buf) =
    [([98], ⟨c9st2, [33, 2]⟩), ([97], ⟨c9st2, [33, 1]⟩)] := by
  have h1 : contents c9x.buf = [128, 33, 2, 129, 33, 1] := by decide
  rw [h1]
  rw [fieldsOf.eq_def]
  show ([98], (⟨c9st2, [33, 2]⟩ : Datum)) :: fieldsOf c9st2 [129, 33, 1] = _
  rw [fieldsOf.eq_def]
  show ([98], (⟨c9st2, [33, 2]⟩ : Datum)) :: ([97], (⟨c9st2, [33, 1]⟩ : Datum)) ::
    fieldsOf c9st2 [] = _
  rw [fieldsOf.eq_def]
  rfl

def c9s : Datum := ⟨[], [129, 97]⟩

def c9y : Datum := ⟨[[97]], [112]⟩

theorem claim_C9_witness :
    (dType c9d = StructType ∧ dType c9x = StructType ∧ compEmpty c9d = false ∧
      ((fieldsOf c9d.st (contents c9d.buf)).map (fun f => f.1)).Nodup ∧
      ((fieldsOf c9x.st (contents c9x.buf)).map (fun f => f.1)).Nodup ∧
      (∀ p ∈ fieldsOf c9d.st (contents c9d.buf), ∃ q ∈ fieldsOf c9x.st (contents c9x.buf),
        q.1 = p.1 ∧ datumEqual (fun a b => false) p.2 q.2 = true) ∧
      (∀ q ∈ fieldsOf c9x.st (contents c9x.buf), ∃ p ∈ fieldsOf c9d.st (contents c9d.buf),
        p.1 = q.1 ∧ datumEqual (fun a b => false) p.2 q.2 = true)) ∧
    datumEqual (fun a b => false) c9d c9x = true ∧
    (dType c9s = StringType ∧ dType c9y = SymbolType ∧
      stLookup c9y.st (ReadSymbol c9y.buf) = some [97]) ∧
    (datumEqual (fun a b => false) c9s c9y = true ↔ contents c9s.buf = [97]) := by
  have hd : dType c9d = StructType := by decide
  have hx : dType c9x = StructType := by decide
  have hed : compEmpty c9d = false := by decide
  have h3 : ((fieldsOf c9d.st (contents c9d.buf)).map (fun f => f.1)).Nodup := by
    rw [c9fields1]
    decide
  have h4 : ((fieldsOf c9x.st (contents c9x.buf)).map (fun f => f.1)).Nodup := by
    rw [c9fields2]
    decide
  have hv1 : datumEqual (fun a b => false) (⟨c9st1, [33, 1]⟩ : Datum)
      (⟨c9st2, [33, 1]⟩ : Datum) = true :=
    (datumEqual_uint_uint _ _ _ (by decide) (by decide)).mpr (by decide)
  have hv2 : datumEqual (fun a b => false) (⟨c9st1, [33, 2]⟩ : Datum)
      (⟨c9st2, [33, 2]⟩ : Datum) = true :=
    (datumEqual_uint_uint _ _ _ (by decide) (by decide)).mpr (by decide)
  have h5 : ∀ p ∈ fieldsOf c9d.st (contents c9d.buf),
      ∃ q ∈ fieldsOf c9x.st (contents c9x.buf),
      q.1 = p.1 ∧ datumEqual (fun a b => false) p.2 q.2 = true := by
    rw [c9fields1, c9fields2]
    intro p hp
    simp only [List.mem_cons, List.not_mem_nil, or_false] at hp
    rcases hp with rfl | rfl
    · exact ⟨([97], ⟨c9st2, [33, 1]⟩), by simp, rfl, hv1⟩
    · exact ⟨([98], ⟨c9st2, [33, 2]⟩), by simp, rfl, hv2⟩
  have h6 : ∀ q ∈ fieldsOf c9x.st (contents c9x.buf),
      ∃ p ∈ fieldsOf c9d.st (contents c9d.buf),
      p.1 = q.1 ∧ datumEqual (fun a b => false) p.2 q.2 = true := by
    rw [c9fields1, c9fields2]
    intro q hq
    simp only [List.mem_cons, List.not_mem_nil, or_false] at hq
    rcases hq with rfl | rfl
    · exact ⟨([98], ⟨c9st1, [33, 2]⟩), by simp, rfl, hv2⟩
    · exact ⟨([97], ⟨c9st1, [33, 1]⟩), by simp, rfl, hv1⟩
  have hsd : dType c9s = StringType := by decide
  have hsy : dType c9y = SymbolType := by decide
  have hsl : stLookup c9y.st (ReadSymbol c9y.buf) = some [97] := by decide
  exact ⟨⟨hd, hx, hed, h3, h4, h5, h6⟩,
    claim_C9.1 (fun a b => false) c9d c9x hd hx hed h3 h4 h5 h6,
    ⟨hsd, hsy, hsl⟩,
    claim_C9.2.1 (fun a b => false) c9s c9y [97] hsd hsy hsl⟩

/-! ## Datum.Encode and the resymbolizer (ion) -/

/-- Minimal big-endian bytes of a magnitude (the body a symbol or
uint writer emits); 0 has an empty body.  Modelled from the spec
(section 3: big-endian magnitude). -/
def beBytes (n : Nat) : List Nat :=
  if n = 0 then [] else beBytes (n / 256) ++ [n % 256]
termination_by n
decreasing_by
  exact Nat.div_lt_self (by omega) (by norm_num)

/-- Modelled from the spec (section 4.1 write-* counterparts):
`Buffer.WriteSymbol` emits a symbol TLV with the minimal big-endian
id body. -/
def WriteSymbol (s : Nat) : List Nat :=
  encodeTLVUnsafe SymbolType (beBytes s).length ++ beBytes s

/-- Modelled from the spec (section 4.1 read-annotation, section 3):
an annotation wrapper's content is a varuint length of the
annotation-symbol region, the annotation symbols, then the value;
returns the first symbol and the value bytes. -/
def ReadAnnot (buf : List Nat) : Option (Nat × List Nat) :=
  match readVaruint (contents buf) 0 with
  | none => none
  | some (alen, r1) =>
    match readVaruint r1 0 with
    | none => none
    | some (sym, _) => some (sym, r1.drop alen)

/-- Modelled from the spec (section 4.1 write-* counterparts):
`BeginAnnotation(1)`/`BeginField`/`EndAnnotation` wrap one label and
a value in a fresh annotation TLV. -/
def writeAnnot (lab : Nat) (val : List Nat) : List Nat :=
  encodeTLVUnsafe AnnotType
      ((encodeSymbol (encodeSymbol lab).length).length + (encodeSymbol lab).length +
        val.length) ++
    encodeSymbol (encodeSymbol lab).length ++ encodeSymbol lab ++ val

theorem ReadAnnot_length_lt (buf : List Nat) (sym : Nat) (val : List Nat)
    (h : ReadAnnot buf = some (sym, val)) : val.length < buf.length := by
  rw [ReadAnnot] at h
  split at h
  · exact absurd h (by simp)
  · rename_i alen r1 hv
    split at h
    · exact absurd h (by simp)
    · simp only [Option.some.injEq, Prod.mk.injEq] at h
      have h1 := readVaruint_length_lt (contents buf) 0 alen r1 hv
      have h2 : buf ≠ [] := by
        intro hc
        rw [hc] at h1
        simp [contents, headerSizeOf, sizeOf] at h1
      have h3 := contents_length_lt buf h2
      rw [← h.2]
      simp only [List.length_drop]
      omega

mutual

/-- Embeds `resymbolizer.resym` (part_000): symbol datums are
re-emitted under the translated id; structs and lists are re-framed
with fresh TLV headers around their re-labelled bodies; annotations
preserve their sole label; everything else is appended verbatim.
The id translation `r.get` (a cache over `dsttab.Intern`) is the
parameter `get`.  On a malformed annotation the source ignores the
read error and emits label 0 with an empty value. -/
def resym (get : Nat → Nat) (buf : List Nat) : List Nat :=
  if typeNib (buf.headD 0) = SymbolType then WriteSymbol (get (ReadSymbol buf))
  else if h2 : typeNib (buf.headD 0) = StructType then
    encodeTLVUnsafe StructType (resymFields get (contents buf)).length ++
      resymFields get (contents buf)
  else if h3 : typeNib (buf.headD 0) = ListType then
    encodeTLVUnsafe ListType (resymItems get (contents buf)).length ++
      resymItems get (contents buf)
  else if h4 : typeNib (buf.headD 0) = AnnotType then
    match h : ReadAnnot buf with
    | some (sym, val) => writeAnnot (get sym) (resym get val)
    | none => writeAnnot (get 0) []
  else buf
termination_by (buf.length, 1)
decreasing_by
  · have hne : buf ≠ [] := by
      intro hc
      rw [hc] at h2
      simp [typeNib, StructType] at h2
    have hcl := contents_length_lt buf hne
    by_cases hlt : (contents buf).length + 1 < buf.length
    · exact Prod.Lex.left _ _ hlt
    · have heq : buf.length = (contents buf).length + 1 := by omega
      rw [heq]
      exact Prod.Lex.right _ (by omega)
  · have hne : buf ≠ [] := by
      intro hc
      rw [hc] at h3
      simp [typeNib, ListType] at h3
    have hcl := contents_length_lt buf hne
    by_cases hlt : (contents buf).length + 1 < buf.length
    · exact Prod.Lex.left _ _ hlt
    · have heq : buf.length = (contents buf).length + 1 := by omega
      rw [heq]
      exact Prod.Lex.right _ (by omega)
  · exact Prod.Lex.left _ _ (ReadAnnot_length_lt buf sym val h)

/-- The struct-body loop of `resymbolizer.resym` (part_000): read
each label, emit the translated label and the re-encoded value.  A
malformed tail (failed varuint or a value span of zero or beyond the
buffer, on which the source loop would not progress) ends the
loop. -/
def resymFields (get : Nat → Nat) (body : List Nat) : List Nat :=
  match h : ReadLabel body with
  | none => []
  | some (sym, rest) =>
    if hs : 1 ≤ sizeOf rest ∧ sizeOf rest ≤ rest.length then
      encodeSymbol (get sym) ++ resym get (rest.take (sizeOf rest)) ++
        resymFields get (rest.drop (sizeOf rest))
    else []
termination_by (body.length + 1, 0)
decreasing_by
  · have h1 := readVaruint_length_lt body 0 sym rest h
    apply Prod.Lex.left
    simp only [List.length_take]
    omega
  · have h1 := readVaruint_length_lt body 0 sym rest h
    apply Prod.Lex.left
    simp only [List.length_drop]
    omega

/-- The list-body loop of `resymbolizer.resym` (part_000). -/
def resymItems (get : Nat → Nat) (body : List Nat) : List Nat :=
  if hs : 1 ≤ sizeOf body ∧ sizeOf body ≤ body.length then
    resym get (body.take (sizeOf body)) ++ resymItems get (body.drop (sizeOf body))
  else []
termination_by (body.length + 1, 0)
decreasing_by
  · apply Prod.Lex.left
    simp only [List.length_take]
    omega
  · apply Prod.Lex.left
    simp only [List.length_drop]
    omega

end

/-- Embeds `rawDatum` (part_000): the decoded view of the next value
in a buffer, aliasing the symbol table. -/
def rawDatum (st : List (List Nat)) (b : List Nat) : Datum := ⟨st, b.take (sizeOf b)⟩

/-- Embeds `Datum.Encode` (part_000): when the datum has no symbol
table or the destination contains it, the raw bytes are appended
verbatim; otherwise the resymbolisation pass re-encodes them (`get`
standing for the resymbolizer's id translation). -/
def Datum.Encode (get : Nat → Nat) (d : Datum) (dst : List Nat)
    (st : List (List Nat)) : List Nat :=
  if d.st = [] ∨ stcontains st d.st = true then dst ++ d.buf
  else dst ++ resym get d.buf

theorem stLookup_of_contains (S D : List (List Nat)) (sym : Nat) (v : List Nat)
    (hc : stcontains D S = true) (h : stLookup S sym = some v) :
    stLookup D sym = some v := by
  rw [stcontains] at hc
  obtain ⟨t, ht⟩ := List.isPrefixOf_iff_prefix.mp hc
  rw [stLookup] at h ⊢
  rw [← ht]
  have hlt : sym < S.length := by
    by_contra hge
    rw [List.get?_eq_none.mpr (by omega)] at h
    exact absurd h (by simp)
  rw [List.get?_append hlt]
  exact h

theorem datumEqual_null_null (tsEq : List Nat → List Nat → Bool) (d x : Datum)
    (hd : dType d = NullType) (hx : dType x = NullType) :
    datumEqual tsEq d x = true := by
  rw [datumEqual, hd, if_pos rfl, hx]
  simp

theorem datumEqual_bool_bool (tsEq : List Nat → List Nat → Bool) (d x : Datum)
    (hd : dType d = BoolType) (hx : dType x = BoolType) :
    (datumEqual tsEq d x = true ↔ ReadBool d.buf = ReadBool x.buf) := by
  rw [datumEqual, hd, if_neg (show ¬BoolType = NullType by decide),
    if_neg (show ¬BoolType = FloatType by decide),
    if_neg (show ¬BoolType = IntType by decide),
    if_neg (show ¬BoolType = UintType by decide),
    if_neg (show ¬BoolType = StructType by decide),
    if_neg (show ¬BoolType = ListType by decide)]
  rw [eqScalarCase, hd, hx, if_pos rfl, if_pos rfl]
  exact beq_iff_eq

theorem datumEqual_string_string (tsEq : List Nat → List Nat → Bool) (d x : Datum)
    (hd : dType d = StringType) (hx : dType x = StringType) :
    (datumEqual tsEq d x = true ↔ contents d.buf = contents x.buf) := by
  rw [datumEqual, hd, if_neg (show ¬StringType = NullType by decide),
    if_neg (show ¬StringType = FloatType by decide),
    if_neg (show ¬StringType = IntType by decide),
    if_neg (show ¬StringType = UintType by decide),
    if_neg (show ¬StringType = StructType by decide),
    if_neg (show ¬StringType = ListType by decide)]
  rw [eqScalarCase, hd, hx, if_neg (show ¬StringType = BoolType by decide), if_pos rfl,
    if_pos rfl]
  exact beq_iff_eq

theorem datumEqual_blob_blob (tsEq : List Nat → List Nat → Bool) (d x : Datum)
    (hd : dType d = BlobType) (hx : dType x = BlobType) :
    (datumEqual tsEq d x = true ↔ contents d.buf = contents x.buf) := by
  rw [datumEqual, hd, if_neg (show ¬BlobType = NullType by decide),
    if_neg (show ¬BlobType = FloatType by decide),
    if_neg (show ¬BlobType = IntType by decide),
    if_neg (show ¬BlobType = UintType by decide),
    if_neg (show ¬BlobType = StructType by decide),
    if_neg (show ¬BlobType = ListType by decide)]
  rw [eqScalarCase, hd, hx, if_neg (show ¬BlobType = BoolType by decide),
    if_neg (show ¬BlobType = StringType by decide),
    if_neg (show ¬BlobType = SymbolType by decide), if_pos rfl, if_pos rfl]
  exact beq_iff_eq

theorem datumEqual_ts_ts (tsEq : List Nat → List Nat → Bool) (d x : Datum)
    (hd : dType d = TimestampType) (hx : dType x = TimestampType) :
    datumEqual tsEq d x = tsEq d.buf x.buf := by
  rw [datumEqual, hd, if_neg (show ¬TimestampType = NullType by decide),
    if_neg (show ¬TimestampType = FloatType by decide),
    if_neg (show ¬TimestampType = IntType by decide),
    if_neg (show ¬TimestampType = UintType by decide),
    if_neg (show ¬TimestampType = StructType by decide),
    if_neg (show ¬TimestampType = ListType by decide)]
  rw [eqScalarCase, hd, hx, if_neg (show ¬TimestampType = BoolType by decide),
    if_neg (show ¬TimestampType = StringType by decide),
    if_neg (show ¬TimestampType = SymbolType by decide),
    if_neg (show ¬TimestampType = BlobType by decide), if_pos rfl, if_pos rfl]

theorem datumEqual_symbol_symbol (tsEq : List Nat → List Nat → Bool) (d x : Datum)
    (s1 s2 : List Nat) (hd : dType d = SymbolType) (hx : dType x = SymbolType)
    (hl1 : stLookup d.st (ReadSymbol d.buf) = some s1)
    (hl2 : stLookup x.st (ReadSymbol x.buf) = some s2) :
    (datumEqual tsEq d x = true ↔ s1 = s2) := by
  rw [datumEqual, hd, if_neg (show ¬SymbolType = NullType by decide),
    if_neg (show ¬SymbolType = FloatType by decide),
    if_neg (show ¬SymbolType = IntType by decide),
    if_neg (show ¬SymbolType = UintType by decide),
    if_neg (show ¬SymbolType = StructType by decide),
    if_neg (show ¬SymbolType = ListType by decide)]
  rw [eqScalarCase, hd, hx, if_neg (show ¬SymbolType = BoolType by decide),
    if_neg (show ¬SymbolType = StringType by decide), if_pos rfl,
    if_neg (show ¬SymbolType = StringType by decide), if_pos rfl]
  rw [hl1, hl2]
  exact beq_iff_eq

theorem datumEqual_struct_bytes (tsEq : List Nat → List Nat → Bool) (d x : Datum)
    (hd : dType d = StructType) (hx : dType x = StructType)
    (hb : d.buf = x.buf) (hover : stoverlap d.st x.st = true) :
    datumEqual tsEq d x = true := by
  rw [datumEqual, hd, if_neg (show ¬StructType = NullType by decide),
    if_neg (show ¬StructType = FloatType by decide),
    if_neg (show ¬StructType = IntType by decide),
    if_neg (show ¬StructType = UintType by decide), if_pos rfl, hx, if_pos rfl]
  rw [structEqual]
  by_cases he : compEmpty d = true
  · rw [dif_pos he]
    rw [compEmpty, hb] at he
    rw [compEmpty]
    exact he
  · rw [dif_neg he]
    rw [if_pos (by rw [Bool.and_eq_true, beq_iff_eq]; exact ⟨hb, hover⟩)]

theorem datumEqual_list_bytes (tsEq : List Nat → List Nat → Bool) (d x : Datum)
    (hd : dType d = ListType) (hx : dType x = ListType)
    (hb : d.buf = x.buf) (hover : stoverlap d.st x.st = true) :
    datumEqual tsEq d x = true := by
  rw [datumEqual, hd, if_neg (show ¬ListType = NullType by decide),
    if_neg (show ¬ListType = FloatType by decide),
    if_neg (show ¬ListType = IntType by decide),
    if_neg (show ¬ListType = UintType by decide),
    if_neg (show ¬ListType = StructType by decide), if_pos rfl, hx, if_pos rfl]
  rw [listEqual]
  by_cases he : compEmpty d = true
  · rw [dif_pos he]
    rw [compEmpty, hb] at he
    rw [compEmpty]
    exact he
  · rw [dif_neg he]
    rw [if_pos (by rw [Bool.and_eq_true, beq_iff_eq]; exact ⟨hb, hover⟩)]

theorem datumEqual_bytes_roundtrip (tsEq : List Nat → List Nat → Bool)
    (S D : List (List Nat)) (b : List Nat) (hne : b ≠ [])
    (hover : stoverlap S D = true)
    (htype : typeNib (b.headD 0) = NullType ∨ typeNib (b.headD 0) = BoolType ∨
      typeNib (b.headD 0) = UintType ∨ typeNib (b.headD 0) = IntType ∨
      typeNib (b.headD 0) = FloatType ∨ typeNib (b.headD 0) = TimestampType ∨
      typeNib (b.headD 0) = SymbolType ∨ typeNib (b.headD 0) = StringType ∨
      typeNib (b.headD 0) = BlobType ∨ typeNib (b.headD 0) = ListType ∨
      typeNib (b.headD 0) = StructType)
    (hts : typeNib (b.headD 0) = TimestampType → tsEq b b = true)
    (hsym : typeNib (b.headD 0) = SymbolType →
      ∃ s, stLookup S (ReadSymbol b) = some s ∧ stLookup D (ReadSymbol b) = some s) :
    datumEqual tsEq ⟨S, b⟩ ⟨D, b⟩ = true := by
  have hdt : ∀ (st : List (List Nat)), dType ⟨st, b⟩ = typeNib (b.headD 0) := by
    intro st
    rw [dType, if_neg hne]
  rcases htype with ht | ht | ht | ht | ht | ht | ht | ht | ht | ht | ht
  · exact datumEqual_null_null tsEq _ _ (by rw [hdt, ht]) (by rw [hdt, ht])
  · exact (datumEqual_bool_bool tsEq _ _ (by rw [hdt, ht]) (by rw [hdt, ht])).mpr rfl
  · exact (datumEqual_uint_uint tsEq _ _ (by rw [hdt, ht]) (by rw [hdt, ht])).mpr rfl
  · exact (datumEqual_int_int tsEq _ _ (by rw [hdt, ht]) (by rw [hdt, ht])).mpr rfl
  · exact (datumEqual_float_float tsEq _ _ (by rw [hdt, ht]) (by rw [hdt, ht])).mpr rfl
  · rw [datumEqual_ts_ts tsEq _ _ (by rw [hdt, ht]) (by rw [hdt, ht])]
    exact hts ht
  · obtain ⟨s, h1, h2⟩ := hsym ht
    exact (datumEqual_symbol_symbol tsEq _ _ s s (by rw [hdt, ht]) (by rw [hdt, ht])
      h1 h2).mpr rfl
  · exact (datumEqual_string_string tsEq _ _ (by rw [hdt, ht]) (by rw [hdt, ht])).mpr rfl
  · exact (datumEqual_blob_blob tsEq _ _ (by rw [hdt, ht]) (by rw [hdt, ht])).mpr rfl
  · exact datumEqual_list_bytes tsEq _ _ (by rw [hdt, ht]) (by rw [hdt, ht]) rfl hover
  · exact datumEqual_struct_bytes tsEq _ _ (by rw [hdt, ht]) (by rw [hdt, ht]) rfl hover

theorem claim_C6_counterexample :
    Datum.Encode (fun s => s) (⟨[], [146, 104, 105]⟩ : Datum) [] [] = [146, 104, 105] ∧
    rawDatum [] [146, 104, 105] = (⟨[], [146, 104, 105]⟩ : Datum) ∧
    datumEqual (fun a b => true) (⟨[], [146, 104, 105]⟩ : Datum)
      (⟨[], [146, 104, 105]⟩ : Datum) = false := by
  refine ⟨by decide, by decide, ?_⟩
  have hd : dType (⟨[], [146, 104, 105]⟩ : Datum) = ClobType := by decide
  rw [datumEqual, hd, if_neg (by decide), if_neg (by decide), if_neg (by decide),
    if_neg (by decide), if_neg (by decide), if_neg (by decide)]
  rw [eqScalarCase, hd, if_neg (by decide), if_neg (by decide), if_neg (by decide),
    if_neg (by decide), if_neg (by decide)]

/-! ## Resymbolisation roundtrip (C6 slow path) -/

theorem encodeSymbol_length_le (sm : Nat) : (encodeSymbol sm).length ≤ 4 := by
  rw [encodeSymbol]
  split_ifs <;> simp

theorem encodeTLVUnsafe_length_le (t len : Nat) : (encodeTLVUnsafe t len).length ≤ 5 := by
  rw [encodeTLVUnsafe]
  split_ifs
  · simp
  · have := encodeSymbol_length_le len
    simp only [List.length_cons]
    omega
  · simp

theorem encodeTLVUnsafe_typeNib (t len : Nat) (ht : t < 16) (h : len < 268435456) :
    typeNib ((encodeTLVUnsafe t len).headD 0) = t := by
  rw [encodeTLVUnsafe]
  split_ifs with h1
  · simp only [List.headD_cons, typeNib]
    rw [Nat.mod_eq_of_lt ht]
    omega
  · simp only [List.headD_cons, typeNib]
    rw [Nat.mod_eq_of_lt ht]
    omega

theorem encodeTLVUnsafe_ne_nil (t len : Nat) (h : len < 268435456) :
    encodeTLVUnsafe t len ≠ [] := by
  rw [encodeTLVUnsafe]
  split_ifs <;> simp

theorem contents_length_le (buf : List Nat) : (contents buf).length ≤ buf.length := by
  rw [contents]
  simp only [List.length_take, List.length_drop]
  omega

theorem readVaruint_append (l : List Nat) (acc v : Nat) (r t : List Nat)
    (h : readVaruint l acc = some (v, r)) :
    readVaruint (l ++ t) acc = some (v, r ++ t) := by
  induction l generalizing acc with
  | nil => simp [readVaruint] at h
  | cons b rest ih =>
    rw [readVaruint] at h
    rw [List.cons_append, readVaruint]
    split_ifs at h with hb
    · rw [if_pos hb]
      simp only [Option.some.injEq, Prod.mk.injEq] at h ⊢
      exact ⟨h.1, by rw [← h.2]⟩
    · rw [if_neg hb]
      exact ih _ h

theorem sizeOf_append_of_framed (b : List Nat) (r : List Nat) (hne : b ≠ [])
    (hsz : sizeOf b = b.length) : sizeOf (b ++ r) = b.length := by
  match b with
  | b0 :: rest =>
    rw [sizeOf] at hsz
    rw [List.cons_append, sizeOf]
    split_ifs at hsz ⊢ with h1 h2 h3
    · exact hsz
    · exact hsz
    · exact hsz
    · rw [List.length_cons] at hsz ⊢
      split at hsz
      · rename_i n rr hv
        rw [readVaruint_append rest 0 n rr r hv]
        simp only [List.length_append] at *
        have hle := readVaruint_length_lt rest 0 n rr hv
        omega
      · omega

theorem beBytesToNat_beBytes (sm : Nat) : beBytesToNat (beBytes sm) = sm := by
  generalize hn : sm = n
  rw [← hn]
  clear hn
  induction sm using Nat.strong_induction_on with
  | _ sm ih =>
    rw [beBytes]
    split_ifs with h0
    · simp [beBytesToNat, h0]
    · have hrec := ih (sm / 256) (Nat.div_lt_self (by omega) (by norm_num))
      rw [beBytesToNat, List.foldl_append]
      rw [beBytesToNat] at hrec
      rw [hrec]
      simp only [List.foldl_cons, List.foldl_nil]
      omega

theorem beBytes_length_le (sm : Nat) (h : sm < 4294967296) : (beBytes sm).length ≤ 4 := by
  rw [beBytes]
  split_ifs with h0
  · simp
  · rw [beBytes]
    split_ifs with h1
    · simp
    · rw [beBytes]
      split_ifs with h2
      · simp
      · rw [beBytes]
        split_ifs with h3
        · simp
        · rw [show sm / 256 / 256 / 256 / 256 = 0 by omega, beBytes, if_pos rfl]
          simp

theorem headD_append_of_ne_nil (a b : List Nat) (h : a ≠ []) :
    (a ++ b).headD 0 = a.headD 0 := by
  match a with
  | x :: rest => rfl

theorem WriteSymbol_ne_nil (sm : Nat) (h : sm < 268435456) : WriteSymbol sm ≠ [] := by
  rw [WriteSymbol]
  intro hc
  have := congrArg List.length hc
  simp only [List.length_append, List.length_nil] at this
  have h2 := encodeTLVUnsafe_ne_nil SymbolType (beBytes sm).length
    (by have := beBytes_length_le sm (by omega); omega)
  have h3 : 0 < (encodeTLVUnsafe SymbolType (beBytes sm).length).length :=
    List.length_pos.mpr h2
  omega

theorem WriteSymbol_typeNib (sm : Nat) (h : sm < 268435456) :
    typeNib ((WriteSymbol sm).headD 0) = SymbolType := by
  rw [WriteSymbol]
  have hb : (beBytes sm).length < 268435456 := by
    have := beBytes_length_le sm (by omega)
    omega
  rw [headD_append_of_ne_nil _ _ (encodeTLVUnsafe_ne_nil SymbolType _ hb)]
  exact encodeTLVUnsafe_typeNib SymbolType _ (by decide) hb

theorem WriteSymbol_sizeOf (sm : Nat) (h : sm < 268435456) (r : List Nat) :
    sizeOf (WriteSymbol sm ++ r) = (WriteSymbol sm).length := by
  have hb : (beBytes sm).length < 268435456 := by
    have := beBytes_length_le sm (by omega)
    omega
  rw [WriteSymbol, List.append_assoc,
    sizeOf_encodeTLVUnsafe SymbolType _ (by decide) hb,
    List.length_append, encodeTLVUnsafe_length _ _ hb]

theorem ReadSymbol_WriteSymbol (sm : Nat) (h : sm < 268435456) :
    ReadSymbol (WriteSymbol sm) = sm := by
  have hb : (beBytes sm).length < 268435456 := by
    have := beBytes_length_le sm (by omega)
    omega
  rw [ReadSymbol, ReadUint, WriteSymbol]
  rw [show encodeTLVUnsafe SymbolType (beBytes sm).length ++ beBytes sm =
      encodeTLVUnsafe SymbolType (beBytes sm).length ++ (beBytes sm ++ []) from by
    rw [List.append_nil]]
  rw [contents_encodeTLVUnsafe SymbolType _ (by decide) hb _ [] rfl]
  exact beBytesToNat_beBytes sm

mutual

/-- Well-formed encoded values over a symbol table, restricted to the
types the `Equal` relation covers: a non-empty, self-framed buffer
that is a scalar, a resolvable symbol, a struct whose body parses
into fields with resolvable labels, distinct resolved labels and
well-formed values, or a list of well-formed items. -/
def WFD (S : List (List Nat)) (b : List Nat) : Prop :=
  if hb : b = [] then False
  else
    sizeOf b = b.length ∧
    ((typeNib (b.headD 0) = NullType ∨ typeNib (b.headD 0) = BoolType ∨
        typeNib (b.headD 0) = UintType ∨ typeNib (b.headD 0) = IntType ∨
        typeNib (b.headD 0) = FloatType ∨ typeNib (b.headD 0) = TimestampType ∨
        typeNib (b.headD 0) = StringType ∨ typeNib (b.headD 0) = BlobType) ∨
      (typeNib (b.headD 0) = SymbolType ∧
        ∃ s, stLookup S (ReadSymbol b) = some s) ∨
      (typeNib (b.headD 0) = StructType ∧ WFFields S (contents b) ∧
        ((fieldsOf S (contents b)).map (fun f => f.1)).Nodup) ∨
      (typeNib (b.headD 0) = ListType ∧ WFItems S (contents b)))
termination_by (b.length, 1)
decreasing_by
  · have hcl := contents_length_lt b hb
    by_cases hlt : (contents b).length + 1 < b.length
    · exact Prod.Lex.left _ _ hlt
    · have heq : b.length = (contents b).length + 1 := by omega
      rw [heq]
      exact Prod.Lex.right _ (by omega)
  · have hcl := contents_length_lt b hb
    by_cases hlt : (contents b).length + 1 < b.length
    · exact Prod.Lex.left _ _ hlt
    · have heq : b.length = (contents b).length + 1 := by omega
      rw [heq]
      exact Prod.Lex.right _ (by omega)

/-- Well-formed struct body: every field parses with a resolvable
label and a well-formed value span. -/
def WFFields (S : List (List Nat)) (body : List Nat) : Prop :=
  if body = [] then True
  else
    match h : ReadLabel body with
    | none => False
    | some (sym, rest) =>
      if hs : 1 ≤ sizeOf rest ∧ sizeOf rest ≤ rest.length then
        (∃ name, stLookup S sym = some name) ∧
        WFD S (rest.take (sizeOf rest)) ∧ WFFields S (rest.drop (sizeOf rest))
      else False
termination_by (body.length + 1, 0)
decreasing_by
  · have h1 := readVaruint_length_lt body 0 sym rest h
    apply Prod.Lex.left
    simp only [List.length_take]
    omega
  · have h1 := readVaruint_length_lt body 0 sym rest h
    apply Prod.Lex.left
    simp only [List.length_drop]
    omega

/-- Well-formed list body: every item is a well-formed value span. -/
def WFItems (S : List (List Nat)) (body : List Nat) : Prop :=
  if body = [] then True
  else if hs : 1 ≤ sizeOf body ∧ sizeOf body ≤ body.length then
    WFD S (body.take (sizeOf body)) ∧ WFItems S (body.drop (sizeOf body))
  else False
termination_by (body.length + 1, 0)
decreasing_by
  · apply Prod.Lex.left
    simp only [List.length_take]
    omega
  · apply Prod.Lex.left
    simp only [List.length_drop]
    omega

end

theorem resym_bound (get : Nat → Nat) (hlt : ∀ sym, get sym < 268435456) : ∀ n : Nat,
    (∀ b : List Nat, b.length ≤ n → (resym get b).length ≤ 14 * b.length) ∧
    (∀ body : List Nat, body.length ≤ n →
      (resymFields get body).length ≤ 14 * body.length) ∧
    (∀ body : List Nat, body.length ≤ n →
      (resymItems get body).length ≤ 14 * body.length) := by
  intro n
  induction n using Nat.strong_induction_on with
  | _ n ih =>
    have hA : ∀ b : List Nat, b.length ≤ n → (resym get b).length ≤ 14 * b.length := by
      intro b hb
      rw [resym]
      split_ifs with h1 h2 h3 h4
      · have hne : b ≠ [] := by
          intro hc
          rw [hc] at h1
          simp [typeNib, SymbolType] at h1
        have hbl : 1 ≤ b.length := by
          cases b
          · exact absurd rfl hne
          · simp
        have e1 := encodeTLVUnsafe_length_le SymbolType
          (beBytes (get (ReadSymbol b))).length
        have e2 := beBytes_length_le (get (ReadSymbol b)) (by have := hlt (ReadSymbol b); omega)
        rw [WriteSymbol, List.length_append]
        omega
      · have hne : b ≠ [] := by
          intro hc
          rw [hc] at h2
          simp [typeNib, StructType] at h2
        have hbl := contents_length_lt b hne
        have hrec := (ih (contents b).length (by omega)).2.1 (contents b) le_rfl
        have e1 := encodeTLVUnsafe_length_le StructType
          (resymFields get (contents b)).length
        rw [List.length_append]
        omega
      · have hne : b ≠ [] := by
          intro hc
          rw [hc] at h3
          simp [typeNib, ListType] at h3
        have hbl := contents_length_lt b hne
        have hrec := (ih (contents b).length (by omega)).2.2 (contents b) le_rfl
        have e1 := encodeTLVUnsafe_length_le ListType
          (resymItems get (contents b)).length
        rw [List.length_append]
        omega
      · have hne : b ≠ [] := by
          intro hc
          rw [hc] at h4
          simp [typeNib, AnnotType] at h4
        have hbl : 1 ≤ b.length := by
          cases b
          · exact absurd rfl hne
          · simp
        split
        · rename_i sym val h
          have hv := ReadAnnot_length_lt b sym val h
          have hrec := (ih val.length (by omega)).1 val le_rfl
          rw [writeAnnot, List.length_append, List.length_append, List.length_append]
          have e1 := encodeTLVUnsafe_length_le AnnotType
            ((encodeSymbol (encodeSymbol (get sym)).length).length +
              (encodeSymbol (get sym)).length + (resym get val).length)
          have e2 := encodeSymbol_length_le (encodeSymbol (get sym)).length
          have e3 := encodeSymbol_length_le (get sym)
          omega
        · rw [writeAnnot, List.length_append, List.length_append, List.length_append]
          simp only [List.length_nil]
          have e1 := encodeTLVUnsafe_length_le AnnotType
            ((encodeSymbol (encodeSymbol (get 0)).length).length +
              (encodeSymbol (get 0)).length + 0)
          have e2 := encodeSymbol_length_le (encodeSymbol (get 0)).length
          have e3 := encodeSymbol_length_le (get 0)
          omega
      · omega
    refine ⟨hA, ?_, ?_⟩
    · intro body hbody
      rw [resymFields]
      split
      · simp
      · rename_i sym rest h
        split_ifs with hs
        · have hr := readVaruint_length_lt body 0 sym rest h
          have hspan := hA (rest.take (sizeOf rest)) (by simp [List.length_take]; omega)
          have hrest := (ih (rest.drop (sizeOf rest)).length (by simp; omega)).2.1
            (rest.drop (sizeOf rest)) le_rfl
          have he := encodeSymbol_length_le (get sym)
          rw [List.length_append, List.length_append]
          simp only [List.length_take, List.length_drop] at *
          omega
        · simp
    · intro body hbody
      rw [resymItems]
      split_ifs with hs
      · have hspan := hA (body.take (sizeOf body)) (by simp [List.length_take]; omega)
        have hrest := (ih (body.drop (sizeOf body)).length (by simp; omega)).2.2
          (body.drop (sizeOf body)) le_rfl
        rw [List.length_append]
        simp only [List.length_take, List.length_drop] at *
        omega
      · simp

theorem fieldsOf_nil (st : List (List Nat)) : fieldsOf st [] = [] := by
  rw [fieldsOf.eq_def]
  rfl

theorem itemsOf_nil (st : List (List Nat)) : itemsOf st [] = [] := by
  rw [itemsOf]
  rw [dif_neg (by simp [sizeOf])]

theorem resymFields_nil (get : Nat → Nat) : resymFields get [] = [] := by
  rw [resymFields.eq_def]
  rfl

theorem resymItems_nil (get : Nat → Nat) : resymItems get [] = [] := by
  rw [resymItems]
  rw [dif_neg (by simp [sizeOf])]

theorem datumEqual_scalar_bytes (tsEq : List Nat → List Nat → Bool)
    (S D : List (List Nat)) (b : List Nat) (hne : b ≠ [])
    (htype : typeNib (b.headD 0) = NullType ∨ typeNib (b.headD 0) = BoolType ∨
      typeNib (b.headD 0) = UintType ∨ typeNib (b.headD 0) = IntType ∨
      typeNib (b.headD 0) = FloatType ∨ typeNib (b.headD 0) = TimestampType ∨
      typeNib (b.headD 0) = StringType ∨ typeNib (b.headD 0) = BlobType)
    (hts : tsEq b b = true) :
    datumEqual tsEq ⟨S, b⟩ ⟨D, b⟩ = true := by
  have hdt : ∀ (st : List (List Nat)), dType ⟨st, b⟩ = typeNib (b.headD 0) := by
    intro st
    rw [dType, if_neg hne]
  rcases htype with ht | ht | ht | ht | ht | ht | ht | ht
  · exact datumEqual_null_null tsEq _ _ (by rw [hdt, ht]) (by rw [hdt, ht])
  · exact (datumEqual_bool_bool tsEq _ _ (by rw [hdt, ht]) (by rw [hdt, ht])).mpr rfl
  · exact (datumEqual_uint_uint tsEq _ _ (by rw [hdt, ht]) (by rw [hdt, ht])).mpr rfl
  · exact (datumEqual_int_int tsEq _ _ (by rw [hdt, ht]) (by rw [hdt, ht])).mpr rfl
  · exact (datumEqual_float_float tsEq _ _ (by rw [hdt, ht]) (by rw [hdt, ht])).mpr rfl
  · rw [datumEqual_ts_ts tsEq _ _ (by rw [hdt, ht]) (by rw [hdt, ht])]
    exact hts
  · exact (datumEqual_string_string tsEq _ _ (by rw [hdt, ht]) (by rw [hdt, ht])).mpr rfl
  · exact (datumEqual_blob_blob tsEq _ _ (by rw [hdt, ht]) (by rw [hdt, ht])).mpr rfl

theorem itemsEqual_pointwise (tsEq : List Nat → List Nat → Bool) (g : Datum → Datum)
    (l : List Datum) (h : ∀ v ∈ l, datumEqual tsEq v (g v) = true) :
    itemsEqual tsEq l (l.map g) = true := by
  induction l with
  | nil =>
    rw [List.map_nil, itemsEqual]
  | cons a rest ih =>
    rw [List.map_cons, itemsEqual, Bool.and_eq_true]
    exact ⟨h a (List.mem_cons_self _ _),
      ih (fun v hv => h v (List.mem_cons_of_mem _ hv))⟩

theorem fieldsOf_cons (st : List (List Nat)) (body : List Nat) (sym : Nat)
    (rest name : List Nat) (hRL : ReadLabel body = some (sym, rest))
    (hname : stLookup st sym = some name)
    (hs : 1 ≤ sizeOf rest ∧ sizeOf rest ≤ rest.length) :
    fieldsOf st body = (name, (⟨st, rest.take (sizeOf rest)⟩ : Datum)) ::
      fieldsOf st (rest.drop (sizeOf rest)) := by
  rw [fieldsOf.eq_def]
  split
  · rename_i hnone
    rw [hnone] at hRL
    exact Option.noConfusion hRL
  · rename_i sym1 rest1 hsome
    rw [hsome] at hRL
    simp only [Option.some.injEq, Prod.mk.injEq] at hRL
    obtain ⟨rfl, rfl⟩ := hRL
    rw [hname]
    simp only []
    rw [dif_pos hs]

theorem resymFields_cons (get : Nat → Nat) (body : List Nat) (sym : Nat) (rest : List Nat)
    (hRL : ReadLabel body = some (sym, rest))
    (hs : 1 ≤ sizeOf rest ∧ sizeOf rest ≤ rest.length) :
    resymFields get body = encodeSymbol (get sym) ++ resym get (rest.take (sizeOf rest)) ++
      resymFields get (rest.drop (sizeOf rest)) := by
  rw [resymFields.eq_def]
  split
  · rename_i hnone
    rw [hnone] at hRL
    exact Option.noConfusion hRL
  · rename_i sym1 rest1 hsome
    rw [hsome] at hRL
    simp only [Option.some.injEq, Prod.mk.injEq] at hRL
    obtain ⟨rfl, rfl⟩ := hRL
    rw [dif_pos hs]

theorem itemsOf_cons (st : List (List Nat)) (body : List Nat)
    (hs : 1 ≤ sizeOf body ∧ sizeOf body ≤ body.length) :
    itemsOf st body = (⟨st, body.take (sizeOf body)⟩ : Datum) ::
      itemsOf st (body.drop (sizeOf body)) := by
  rw [itemsOf]
  rw [dif_pos hs]

theorem resymItems_cons (get : Nat → Nat) (body : List Nat)
    (hs : 1 ≤ sizeOf body ∧ sizeOf body ≤ body.length) :
    resymItems get body = resym get (body.take (sizeOf body)) ++
      resymItems get (body.drop (sizeOf body)) := by
  rw [resymItems]
  rw [dif_pos hs]

theorem WFD_destruct (S : List (List Nat)) (b : List Nat) (h : WFD S b) :
    b ≠ [] ∧ sizeOf b = b.length ∧
    ((typeNib (b.headD 0) = NullType ∨ typeNib (b.headD 0) = BoolType ∨
        typeNib (b.headD 0) = UintType ∨ typeNib (b.headD 0) = IntType ∨
        typeNib (b.headD 0) = FloatType ∨ typeNib (b.headD 0) = TimestampType ∨
        typeNib (b.headD 0) = StringType ∨ typeNib (b.headD 0) = BlobType) ∨
      (typeNib (b.headD 0) = SymbolType ∧
        ∃ s, stLookup S (ReadSymbol b) = some s) ∨
      (typeNib (b.headD 0) = StructType ∧ WFFields S (contents b) ∧
        ((fieldsOf S (contents b)).map (fun f => f.1)).Nodup) ∨
      (typeNib (b.headD 0) = ListType ∧ WFItems S (contents b))) := by
  rw [WFD] at h
  split_ifs at h with hb
  exact ⟨hb, h⟩

theorem WFFields_destruct (S : List (List Nat)) (body : List Nat) (hbody : body ≠ [])
    (h : WFFields S body) :
    ∃ sym rest, ReadLabel body = some (sym, rest) ∧
      (1 ≤ sizeOf rest ∧ sizeOf rest ≤ rest.length) ∧
      (∃ name, stLookup S sym = some name) ∧
      WFD S (rest.take (sizeOf rest)) ∧ WFFields S (rest.drop (sizeOf rest)) := by
  rw [WFFields.eq_def] at h
  rw [if_neg hbody] at h
  split at h
  · exact h.elim
  · rename_i sym rest hsome
    split_ifs at h with hs
    exact ⟨sym, rest, hsome, hs, h.1, h.2.1, h.2.2⟩

theorem WFItems_destruct (S : List (List Nat)) (body : List Nat) (hbody : body ≠ [])
    (h : WFItems S body) :
    (1 ≤ sizeOf body ∧ sizeOf body ≤ body.length) ∧
    WFD S (body.take (sizeOf body)) ∧ WFItems S (body.drop (sizeOf body)) := by
  rw [WFItems] at h
  rw [if_neg hbody] at h
  split_ifs at h with hs
  exact ⟨hs, h⟩

theorem resym_scalar (get : Nat → Nat) (b : List Nat)
    (h1 : ¬typeNib (b.headD 0) = SymbolType) (h2 : ¬typeNib (b.headD 0) = StructType)
    (h3 : ¬typeNib (b.headD 0) = ListType) (h4 : ¬typeNib (b.headD 0) = AnnotType) :
    resym get b = b := by
  rw [resym, if_neg h1, dif_neg h2, dif_neg h3, dif_neg h4]

theorem resym_symbol (get : Nat → Nat) (b : List Nat)
    (h : typeNib (b.headD 0) = SymbolType) :
    resym get b = WriteSymbol (get (ReadSymbol b)) := by
  rw [resym, if_pos h]

theorem resym_struct (get : Nat → Nat) (b : List Nat)
    (h : typeNib (b.headD 0) = StructType) :
    resym get b = encodeTLVUnsafe StructType (resymFields get (contents b)).length ++
      resymFields get (contents b) := by
  rw [resym, if_neg (by rw [h]; decide), dif_pos h]

theorem resym_list (get : Nat → Nat) (b : List Nat)
    (h : typeNib (b.headD 0) = ListType) :
    resym get b = encodeTLVUnsafe ListType (resymItems get (contents b)).length ++
      resymItems get (contents b) := by
  rw [resym, if_neg (by rw [h]; decide), dif_neg (by rw [h]; decide), dif_pos h]

theorem isEmpty_eq_false_of_ne_nil {α : Type} (l : List α) (h : l ≠ []) :
    l.isEmpty = false := by
  cases l with
  | nil => exact absurd rfl h
  | cons a t => rfl

theorem resym_roundtrip (S D : List (List Nat)) (get : Nat → Nat)
    (tsEq : List Nat → List Nat → Bool)
    (hget : ∀ sym s, stLookup S sym = some s → stLookup D (get sym) = some s)
    (hlt : ∀ sym, get sym < 268435456)
    (hts : ∀ v : List Nat, tsEq v v = true) : ∀ n : Nat,
    (∀ b : List Nat, b.length ≤ n → b.length ≤ 16777216 → WFD S b →
      typeNib ((resym get b).headD 0) = typeNib (b.headD 0) ∧
      resym get b ≠ [] ∧
      (∀ r, sizeOf (resym get b ++ r) = (resym get b).length) ∧
      datumEqual tsEq ⟨S, b⟩ ⟨D, resym get b⟩ = true) ∧
    (∀ body : List Nat, body.length ≤ n → body.length ≤ 16777216 → WFFields S body →
      fieldsOf D (resymFields get body) =
        (fieldsOf S body).map (fun f => (f.1, (⟨D, resym get f.2.buf⟩ : Datum))) ∧
      ∀ f ∈ fieldsOf S body, datumEqual tsEq f.2 (⟨D, resym get f.2.buf⟩ : Datum) = true) ∧
    (∀ body : List Nat, body.length ≤ n → body.length ≤ 16777216 → WFItems S body →
      itemsOf D (resymItems get body) =
        (itemsOf S body).map (fun v => (⟨D, resym get v.buf⟩ : Datum)) ∧
      ∀ v ∈ itemsOf S body, datumEqual tsEq v (⟨D, resym get v.buf⟩ : Datum) = true) := by
  intro n
  induction n using Nat.strong_induction_on with
  | _ n ih =>
    have hA : ∀ b : List Nat, b.length ≤ n → b.length ≤ 16777216 → WFD S b →
        typeNib ((resym get b).headD 0) = typeNib (b.headD 0) ∧
        resym get b ≠ [] ∧
        (∀ r, sizeOf (resym get b ++ r) = (resym get b).length) ∧
        datumEqual tsEq ⟨S, b⟩ ⟨D, resym get b⟩ = true := by
      intro b hbn hbs hwf
      obtain ⟨hne, hsz, hcases⟩ := WFD_destruct S b hwf
      have hb1 : 0 < b.length := List.length_pos.mpr hne
      rcases hcases with hsc | ⟨hty, s, hlook⟩ | ⟨hty, hwff, hnod⟩ | ⟨hty, hwfi⟩
      · have hn7 : ¬typeNib (b.headD 0) = SymbolType := by
          rcases hsc with h | h | h | h | h | h | h | h <;> rw [h] <;> decide
        have hn13 : ¬typeNib (b.headD 0) = StructType := by
          rcases hsc with h | h | h | h | h | h | h | h <;> rw [h] <;> decide
        have hn11 : ¬typeNib (b.headD 0) = ListType := by
          rcases hsc with h | h | h | h | h | h | h | h <;> rw [h] <;> decide
        have hn14 : ¬typeNib (b.headD 0) = AnnotType := by
          rcases hsc with h | h | h | h | h | h | h | h <;> rw [h] <;> decide
        rw [resym_scalar get b hn7 hn13 hn11 hn14]
        exact ⟨rfl, hne, fun r => sizeOf_append_of_framed b r hne hsz,
          datumEqual_scalar_bytes tsEq S D b hne hsc (hts b)⟩
      · rw [resym_symbol get b hty]
        have hglt := hlt (ReadSymbol b)
        refine ⟨?_, WriteSymbol_ne_nil _ hglt, fun r => WriteSymbol_sizeOf _ hglt r, ?_⟩
        · rw [WriteSymbol_typeNib _ hglt, hty]
        · refine (datumEqual_symbol_symbol tsEq _ _ s s ?_ ?_ hlook ?_).mpr rfl
          · rw [dType, if_neg hne]
            exact hty
          · rw [dType, if_neg (WriteSymbol_ne_nil _ hglt)]
            exact WriteSymbol_typeNib _ hglt
          · show stLookup D (ReadSymbol (WriteSymbol (get (ReadSymbol b)))) = some s
            rw [ReadSymbol_WriteSymbol _ hglt]
            exact hget _ s hlook
      · have hLb := (resym_bound get hlt (contents b).length).2.1 (contents b) le_rfl
        have hclt := contents_length_lt b hne
        have hL : (resymFields get (contents b)).length < 268435456 := by omega
        have hhne : encodeTLVUnsafe StructType (resymFields get (contents b)).length ≠ [] :=
          encodeTLVUnsafe_ne_nil _ _ hL
        have hone : encodeTLVUnsafe StructType (resymFields get (contents b)).length ++
            resymFields get (contents b) ≠ [] := by
          intro hc
          have := congrArg List.length hc
          simp only [List.length_append, List.length_nil] at this
          have h3 := List.length_pos.mpr hhne
          omega
        have hco : contents (encodeTLVUnsafe StructType
              (resymFields get (contents b)).length ++ resymFields get (contents b)) =
            resymFields get (contents b) := by
          rw [show encodeTLVUnsafe StructType (resymFields get (contents b)).length ++
                resymFields get (contents b) =
              encodeTLVUnsafe StructType (resymFields get (contents b)).length ++
                (resymFields get (contents b) ++ []) from by rw [List.append_nil]]
          exact contents_encodeTLVUnsafe StructType _ (by decide) hL _ [] rfl
        rw [resym_struct get b hty]
        refine ⟨?_, hone, ?_, ?_⟩
        · rw [headD_append_of_ne_nil _ _ hhne,
            encodeTLVUnsafe_typeNib _ _ (by decide) hL, hty]
        · intro r
          rw [List.append_assoc, sizeOf_encodeTLVUnsafe StructType _ (by decide) hL,
            List.length_append, encodeTLVUnsafe_length _ _ hL]
        · by_cases hcb : contents b = []
          · have hFFnil : resymFields get (contents b) = [] := by
              rw [hcb, resymFields_nil]
            have hce : compEmpty ⟨S, b⟩ = true := by
              rw [compEmpty]
              show (b.isEmpty || (contents b).isEmpty) = true
              rw [hcb]
              simp
            have hd : dType (⟨S, b⟩ : Datum) = StructType := by
              rw [dType, if_neg hne]
              exact hty
            have hxty : dType (⟨D, encodeTLVUnsafe StructType
                (resymFields get (contents b)).length ++
                resymFields get (contents b)⟩ : Datum) = StructType := by
              rw [dType, if_neg hone, headD_append_of_ne_nil _ _ hhne,
                encodeTLVUnsafe_typeNib _ _ (by decide) hL]
            rw [datumEqual, hd, if_neg (by decide), if_neg (by decide),
              if_neg (by decide), if_neg (by decide), if_pos rfl, hxty, if_pos rfl,
              structEqual, dif_pos hce]
            show ((encodeTLVUnsafe StructType
              (resymFields get (contents b)).length ++
              resymFields get (contents b)).isEmpty ||
              (contents (encodeTLVUnsafe StructType
                (resymFields get (contents b)).length ++
                resymFields get (contents b))).isEmpty) = true
            rw [hco, hFFnil]
            simp
          · have hm : (contents b).length < n := by omega
            obtain ⟨hmap, hpt⟩ := (ih (contents b).length hm).2.1 (contents b) le_rfl
              (by omega) hwff
            apply datumEqual_struct_of_match tsEq ⟨S, b⟩
              ⟨D, encodeTLVUnsafe StructType (resymFields get (contents b)).length ++
                resymFields get (contents b)⟩
            · rw [dType, if_neg hne]
              exact hty
            · rw [dType, if_neg hone, headD_append_of_ne_nil _ _ hhne,
                encodeTLVUnsafe_typeNib _ _ (by decide) hL]
            · rw [compEmpty]
              show (b.isEmpty || (contents b).isEmpty) = false
              rw [Bool.or_eq_false_iff]
              exact ⟨isEmpty_eq_false_of_ne_nil b hne,
                isEmpty_eq_false_of_ne_nil _ hcb⟩
            · exact hnod
            · show ((fieldsOf D (contents (encodeTLVUnsafe StructType
                  (resymFields get (contents b)).length ++
                  resymFields get (contents b)))).map (fun f => f.1)).Nodup
              rw [hco, hmap, List.map_map]
              simpa using hnod
            · intro p hp
              refine ⟨(p.1, (⟨D, resym get p.2.buf⟩ : Datum)), ?_, rfl, hpt p hp⟩
              show _ ∈ fieldsOf D (contents (encodeTLVUnsafe StructType
                (resymFields get (contents b)).length ++ resymFields get (contents b)))
              rw [hco, hmap]
              exact List.mem_map_of_mem _ hp
            · intro q hq
              have hq2 : q ∈ (fieldsOf S (contents b)).map
                  (fun f => (f.1, (⟨D, resym get f.2.buf⟩ : Datum))) := by
                rw [← hmap, ← hco]
                exact hq
              obtain ⟨p, hp, rfl⟩ := List.mem_map.mp hq2
              exact ⟨p, hp, rfl, hpt p hp⟩
      · have hLb := (resym_bound get hlt (contents b).length).2.2 (contents b) le_rfl
        have hclt := contents_length_lt b hne
        have hL : (resymItems get (contents b)).length < 268435456 := by omega
        have hhne : encodeTLVUnsafe ListType (resymItems get (contents b)).length ≠ [] :=
          encodeTLVUnsafe_ne_nil _ _ hL
        have hone : encodeTLVUnsafe ListType (resymItems get (contents b)).length ++
            resymItems get (contents b) ≠ [] := by
          intro hc
          have := congrArg List.length hc
          simp only [List.length_append, List.length_nil] at this
          have h3 := List.length_pos.mpr hhne
          omega
        have hco : contents (encodeTLVUnsafe ListType
              (resymItems get (contents b)).length ++ resymItems get (contents b)) =
            resymItems get (contents b) := by
          rw [show encodeTLVUnsafe ListType (resymItems get (contents b)).length ++
                resymItems get (contents b) =
              encodeTLVUnsafe ListType (resymItems get (contents b)).length ++
                (resymItems get (contents b) ++ []) from by rw [List.append_nil]]
          exact contents_encodeTLVUnsafe ListType _ (by decide) hL _ [] rfl
        have hd : dType (⟨S, b⟩ : Datum) = ListType := by
          rw [dType, if_neg hne]
          exact hty
        rw [resym_list get b hty]
        have hxty : dType (⟨D, encodeTLVUnsafe ListType
            (resymItems get (contents b)).length ++ resymItems get (contents b)⟩ :
              Datum) = ListType := by
          rw [dType, if_neg hone, headD_append_of_ne_nil _ _ hhne,
            encodeTLVUnsafe_typeNib _ _ (by decide) hL]
        refine ⟨?_, hone, ?_, ?_⟩
        · rw [headD_append_of_ne_nil _ _ hhne,
            encodeTLVUnsafe_typeNib _ _ (by decide) hL, hty]
        · intro r
          rw [List.append_assoc, sizeOf_encodeTLVUnsafe ListType _ (by decide) hL,
            List.length_append, encodeTLVUnsafe_length _ _ hL]
        · rw [datumEqual, hd, if_neg (by decide), if_neg (by decide),
            if_neg (by decide), if_neg (by decide), if_neg (by decide), if_pos rfl,
            hxty, if_pos rfl]
          rw [listEqual]
          by_cases hcb : contents b = []
          · have hIInil : resymItems get (contents b) = [] := by
              rw [hcb, resymItems_nil]
            have hce : compEmpty ⟨S, b⟩ = true := by
              rw [compEmpty]
              show (b.isEmpty || (contents b).isEmpty) = true
              rw [hcb]
              simp
            rw [dif_pos hce]
            show ((encodeTLVUnsafe ListType
              (resymItems get (contents b)).length ++
              resymItems get (contents b)).isEmpty ||
              (contents (encodeTLVUnsafe ListType
                (resymItems get (contents b)).length ++
                resymItems get (contents b))).isEmpty) = true
            rw [hco, hIInil]
            simp
          · have hce : compEmpty ⟨S, b⟩ = false := by
              rw [compEmpty]
              show (b.isEmpty || (contents b).isEmpty) = false
              rw [Bool.or_eq_false_iff]
              exact ⟨isEmpty_eq_false_of_ne_nil b hne,
                isEmpty_eq_false_of_ne_nil _ hcb⟩
            rw [dif_neg (by rw [hce]; exact Bool.false_ne_true)]
            have hm : (contents b).length < n := by omega
            obtain ⟨hmap, hpt⟩ := (ih (contents b).length hm).2.2 (contents b) le_rfl
              (by omega) hwfi
            split_ifs with hfast hlen2
            · rfl
            · show itemsEqual tsEq (itemsOf S (contents b)) (itemsOf D (contents
                (encodeTLVUnsafe ListType (resymItems get (contents b)).length ++
                  resymItems get (contents b)))) = true
              rw [hco, hmap]
              exact itemsEqual_pointwise tsEq _ _ hpt
            · exfalso
              apply hlen2
              show (itemsOf S (contents b)).length = (itemsOf D (contents
                (encodeTLVUnsafe ListType (resymItems get (contents b)).length ++
                  resymItems get (contents b)))).length
              rw [hco, hmap, List.length_map]
    refine ⟨hA, ?_, ?_⟩
    · intro body hbn hbs hwff
      by_cases hbody : body = []
      · subst hbody
        rw [resymFields_nil, fieldsOf_nil, fieldsOf_nil, List.map_nil]
        exact ⟨rfl, fun f hf => absurd hf (List.not_mem_nil f)⟩
      · obtain ⟨sym, rest, hRL, hs, ⟨name, hname⟩, hwfspan, hwfrest⟩ :=
          WFFields_destruct S body hbody hwff
        have hrlt := readVaruint_length_lt body 0 sym rest hRL
        have hspanlen : (rest.take (sizeOf rest)).length = sizeOf rest := by
          simp only [List.length_take]
          omega
        obtain ⟨hF1, hF3, hF2, hF4⟩ := hA (rest.take (sizeOf rest))
          (by simp only [List.length_take]; omega) (by simp only [List.length_take]; omega)
          hwfspan
        obtain ⟨hmapr, hptr⟩ := (ih (rest.drop (sizeOf rest)).length
            (by simp only [List.length_drop]; omega)).2.1 (rest.drop (sizeOf rest)) le_rfl
          (by simp only [List.length_drop]; omega) hwfrest
        have hsrc := fieldsOf_cons S body sym rest name hRL hname hs
        have hRF := resymFields_cons get body sym rest hRL hs
        have hszr := hF2 (resymFields get (rest.drop (sizeOf rest)))
        have hrs1 : 0 < (resym get (rest.take (sizeOf rest))).length :=
          List.length_pos.mpr hF3
        have hparse : fieldsOf D (encodeSymbol (get sym) ++
              resym get (rest.take (sizeOf rest)) ++
              resymFields get (rest.drop (sizeOf rest))) =
            (name, (⟨D, resym get (rest.take (sizeOf rest))⟩ : Datum)) ::
              fieldsOf D (resymFields get (rest.drop (sizeOf rest))) := by
          rw [List.append_assoc]
          rw [fieldsOf_cons D _ (get sym)
            (resym get (rest.take (sizeOf rest)) ++
              resymFields get (rest.drop (sizeOf rest))) name
            (by rw [ReadLabel]; exact readVaruint_encodeSymbol (get sym) (hlt sym) _)
            (hget sym name hname)
            (by
              rw [hszr]
              simp only [List.length_append]
              omega)]
          rw [hszr, List.take_left' rfl, List.drop_left' rfl]
        constructor
        · rw [hRF, hparse, hsrc, List.map_cons, hmapr]
        · intro f hf
          rw [hsrc] at hf
          rcases List.mem_cons.mp hf with rfl | hf2
          · exact hF4
          · exact hptr f hf2
    · intro body hbn hbs hwfi
      by_cases hbody : body = []
      · subst hbody
        rw [resymItems_nil, itemsOf_nil, itemsOf_nil, List.map_nil]
        exact ⟨rfl, fun v hv => absurd hv (List.not_mem_nil v)⟩
      · obtain ⟨hs, hwfspan, hwfrest⟩ := WFItems_destruct S body hbody hwfi
        have hspanlen : (body.take (sizeOf body)).length = sizeOf body := by
          simp only [List.length_take]
          omega
        have hb1 : 0 < body.length := List.length_pos.mpr hbody
        obtain ⟨hF1, hF3, hF2, hF4⟩ := hA (body.take (sizeOf body))
          (by simp only [List.length_take]; omega) (by simp only [List.length_take]; omega)
          hwfspan
        obtain ⟨hmapr, hptr⟩ := (ih (body.drop (sizeOf body)).length
            (by simp only [List.length_drop]; omega)).2.2 (body.drop (sizeOf body)) le_rfl
          (by simp only [List.length_drop]; omega) hwfrest
        have hsrc := itemsOf_cons S body hs
        have hRI := resymItems_cons get body hs
        have hszr := hF2 (resymItems get (body.drop (sizeOf body)))
        have hrs1 : 0 < (resym get (body.take (sizeOf body))).length :=
          List.length_pos.mpr hF3
        have hparse : itemsOf D (resym get (body.take (sizeOf body)) ++
              resymItems get (body.drop (sizeOf body))) =
            (⟨D, resym get (body.take (sizeOf body))⟩ : Datum) ::
              itemsOf D (resymItems get (body.drop (sizeOf body))) := by
          rw [itemsOf_cons D _ (by
            rw [hszr]
            simp only [List.length_append]
            omega)]
          rw [hszr, List.take_left' rfl, List.drop_left' rfl]
        constructor
        · rw [hRI, hparse, hsrc, List.map_cons, hmapr]
        · intro v hv
          rw [hsrc] at hv
          rcases List.mem_cons.mp hv with rfl | hv2
          · exact hF4
          · exact hptr v hv2

/-- C6: `Datum.Encode` appends the datum's raw bytes onto `dst` when the
datum has no symbol table or the destination table `D` contains it, and
otherwise appends the resymbolised bytes `resym get d.buf`.  Fast path:
a well-framed buffer decodes (`rawDatum`) to the same bytes under `D`,
and the decoded datum is `Equal` to the original for every datum whose
type the `Equal` relation covers - null, bool, uint, int, float,
timestamp, symbol (given the id resolves in the source table), string,
blob, list and struct.  Slow path: for every well-formed datum of a
covered type (`WFD`), given that the translation `get` resolves every
id to the same string in `D`, the resymbolised bytes are self-framed,
decode to themselves under `D`, and the decoded datum is `Equal` to the
original.  Datums of the remaining types (clob, sexp, decimal,
annotation wrappers) fall through `Datum.Equal`'s switch and are never
`Equal`, not even to themselves - see the counterexample. -/
theorem claim_C6 (tsEq : List Nat → List Nat → Bool) (get : Nat → Nat) (d : Datum)
    (dst : List Nat) (D : List (List Nat))
    (hget : ∀ sym s, stLookup d.st sym = some s → stLookup D (get sym) = some s)
    (hlt : ∀ sym, get sym < 268435456)
    (hts : ∀ v : List Nat, tsEq v v = true) :
    (d.st = [] ∨ stcontains D d.st = true → Datum.Encode get d dst D = dst ++ d.buf) ∧
    (¬(d.st = [] ∨ stcontains D d.st = true) →
      Datum.Encode get d dst D = dst ++ resym get d.buf) ∧
    (stcontains D d.st = true →
      (sizeOf d.buf = d.buf.length → rawDatum D d.buf = ⟨D, d.buf⟩) ∧
      (d.buf ≠ [] →
        (typeNib (d.buf.headD 0) = NullType ∨ typeNib (d.buf.headD 0) = BoolType ∨
          typeNib (d.buf.headD 0) = UintType ∨ typeNib (d.buf.headD 0) = IntType ∨
          typeNib (d.buf.headD 0) = FloatType ∨
          typeNib (d.buf.headD 0) = TimestampType ∨
          typeNib (d.buf.headD 0) = SymbolType ∨
          typeNib (d.buf.headD 0) = StringType ∨
          typeNib (d.buf.headD 0) = BlobType ∨ typeNib (d.buf.headD 0) = ListType ∨
          typeNib (d.buf.headD 0) = StructType) →
        (typeNib (d.buf.headD 0) = SymbolType →
          ∃ s, stLookup d.st (ReadSymbol d.buf) = some s) →
        datumEqual tsEq d ⟨D, d.buf⟩ = true)) ∧
    (WFD d.st d.buf → d.buf.length ≤ 16777216 →
      sizeOf (resym get d.buf) = (resym get d.buf).length ∧
      rawDatum D (resym get d.buf) = ⟨D, resym get d.buf⟩ ∧
      datumEqual tsEq d ⟨D, resym get d.buf⟩ = true) := by
  refine ⟨?_, ?_, ?_, ?_⟩
  · intro h
    rw [Datum.Encode, if_pos h]
  · intro h
    rw [Datum.Encode, if_neg h]
  · intro hcont
    refine ⟨?_, ?_⟩
    · intro hsz
      rw [rawDatum, hsz, List.take_length]
    · intro hne htype hsym
      have hover : stoverlap d.st D = true := by
        rw [stoverlap, hcont, Bool.or_true]
      exact datumEqual_bytes_roundtrip tsEq d.st D d.buf hne hover htype
        (fun _ => hts d.buf)
        (fun ht => by
          obtain ⟨s, hs⟩ := hsym ht
          exact ⟨s, hs, stLookup_of_contains d.st D _ s hcont hs⟩)
  · intro hwf hbs
    obtain ⟨h1, h2, h3, h4⟩ := (resym_roundtrip d.st D get tsEq hget hlt hts
      d.buf.length).1 d.buf le_rfl hbs hwf
    have hsz : sizeOf (resym get d.buf) = (resym get d.buf).length := by
      have h5 := h3 []
      rwa [List.append_nil] at h5
    refine ⟨hsz, ?_, h4⟩
    rw [rawDatum, hsz, List.take_length]

theorem claim_C6_witness :
    Datum.Encode (fun _ => 1) (⟨[[97]], [112]⟩ : Datum) [] [[98], [97]] =
      [] ++ resym (fun _ => 1) [112] ∧
    resym (fun _ => 1) [112] = [113, 1] ∧
    rawDatum [[98], [97]] (resym (fun _ => 1) [112]) =
      (⟨[[98], [97]], resym (fun _ => 1) [112]⟩ : Datum) ∧
    datumEqual (fun _ _ => true) (⟨[[97]], [112]⟩ : Datum)
      (⟨[[98], [97]], resym (fun _ => 1) [112]⟩ : Datum) = true := by
  have hget : ∀ sym s, stLookup ((⟨[[97]], [112]⟩ : Datum)).st sym = some s →
      stLookup [[98], [97]] ((fun _ => 1) sym) = some s := by
    intro sym s h
    match sym with
    | 0 =>
      have h2 : ([97] : List Nat) = s := by
        have h3 : some ([97] : List Nat) = some s := h
        injection h3
      rw [← h2]
      rfl
    | Nat.succ m => exact Option.noConfusion h
  have hmain := claim_C6 (fun _ _ => true) (fun _ => 1) ⟨[[97]], [112]⟩ [] [[98], [97]]
    hget (fun s2 => show (1 : Nat) < 268435456 from by decide) (fun _ => rfl)
  have hwf : WFD ((⟨[[97]], [112]⟩ : Datum)).st ((⟨[[97]], [112]⟩ : Datum)).buf := by
    rw [WFD]
    rw [dif_neg (show ¬([112] : List Nat) = [] from by decide)]
    exact ⟨by decide, Or.inr (Or.inl ⟨by decide, [97], by decide⟩)⟩
  have hslow := hmain.2.2.2 hwf (by decide)
  have hne : ¬(((⟨[[97]], [112]⟩ : Datum)).st = [] ∨
      stcontains [[98], [97]] ((⟨[[97]], [112]⟩ : Datum)).st = true) := by
    decide
  have hb1 : beBytes 1 = [1] := by
    rw [beBytes]
    rw [if_neg (by decide)]
    rw [show (1 : Nat) / 256 = 0 from by decide, beBytes]
    rw [if_pos rfl]
    rfl
  have hr : resym (fun _ => 1) [112] = [113, 1] := by
    rw [resym_symbol (fun _ => 1) [112] (by decide)]
    show WriteSymbol 1 = [113, 1]
    rw [WriteSymbol, hb1]
    rfl
  exact ⟨hmain.2.1 hne, hr, hslow.2.1, hslow.2.2⟩

end Sneller
